import Mathlib

/-! A verification development for the Go `pandas` table engine.

The Go package keeps a table as

    type Pandas struct {
        Columns []string
        Data    map[string][]interface{}
    }

This file embeds the table operations of `pandas.go` as Lean functions and
proves properties of them.

* A cell (`interface{}`) is a tagged value: `int`, `float64`, `string`,
  `bool` or `nil`.
* A `float64` is kept by its three IEEE-754 bit fields, so that NaN, the
  infinities and both zeros exist and `<` is the IEEE comparison.
* A Go map is an association list; `m[k]` is the first entry for `k` (the
  nil slice when there is none) and `range m` visits the entries in list
  order, one of the orders the Go runtime may choose.
* A Go panic is the `panic` constructor of `Result`.
-/

namespace GoPandas

/-! ## Values -/

/-- IEEE-754 binary64, by sign bit, biased exponent (11 bits) and mantissa (52 bits). -/
structure F64 where
  sign : Bool
  exp : Fin 2048
  mant : Fin 4503599627370496
deriving DecidableEq, Repr

namespace F64

/-- Go `math.IsNaN`: exponent all ones and a non-zero mantissa. -/
def isNaN (x : F64) : Bool := x.exp.val == 2047 && x.mant.val != 0

/-- The constant `0.0`. -/
def zero : F64 := ⟨false, 0, 0⟩

/-- Go `math.NaN()`, bit pattern `0x7FF8000000000001`. -/
def NaN : F64 := ⟨false, 2047, 2251799813685249⟩

/-- Magnitude of a non-NaN value as a natural number; it grows with the absolute value. -/
def mag (x : F64) : Nat := x.exp.val * 4503599627370496 + x.mant.val

/-- Order key of a non-NaN value: both zeros get `0`, negatives are mirrored. -/
def key (x : F64) : Int := if x.sign then - (x.mag : Int) else (x.mag : Int)

/-- Go `x < y` on `float64`: false as soon as one side is NaN. -/
def lt (x y : F64) : Bool := !x.isNaN && !y.isNaN && decide (x.key < y.key)

/-- Go `x <= y` on `float64`: false as soon as one side is NaN. -/
def le (x y : F64) : Bool := !x.isNaN && !y.isNaN && decide (x.key ≤ y.key)

end F64

/-- A cell of a column: the dynamic value of an `interface{}`. -/
inductive Cell where
  | int (i : Int)
  | float (f : F64)
  | str (s : String)
  | bool (b : Bool)
  | missing
deriving DecidableEq, Repr

/-- Outcome of a call that may panic. -/
inductive Result (α : Type) where
  | ok (v : α)
  | panic (msg : String)
deriving DecidableEq, Repr

/-- Go `m[k]` on `map[string][]interface{}`: the nil slice when `k` is not a key. -/
def mapIndex : List (String × List Cell) → String → List Cell
  | [], _ => []
  | (k, v) :: rest, key => if k = key then v else mapIndex rest key

/-- Go `m[k] = v`: overwrite the entry of `k`, or add one. -/
def mapAssign : List (String × List Cell) → String → List Cell → List (String × List Cell)
  | [], key, v => [(key, v)]
  | (k, w) :: rest, key, v => if k = key then (k, v) :: rest else (k, w) :: mapAssign rest key v

/-- The struct `Pandas`. -/
structure Pandas where
  Columns : List String
  Data : List (String × List Cell)
deriving DecidableEq, Repr

/-- Go `NewDataFrame`: stores both arguments as given. -/
def NewDataFrame (columns : List String) (data : List (String × List Cell)) : Pandas :=
  ⟨columns, data⟩

/-! ## Missing values -/

/-- Go `isFloat`. -/
def isFloat : Cell → Bool
  | .float _ => true
  | _ => false

/-- Go `isMissing`. -/
def isMissing : Cell → Bool
  | .float v => v.isNaN
  | .str v => v == "nan" || v == ""
  | .missing => true
  | _ => false

/-- Go `defaultValue`. -/
def defaultValue : Cell → Cell
  | .float _ => .float F64.zero
  | .str _ => .str ""
  | _ => .missing

/-- The test of `DropNA` on one cell:
`val == "nan" || (isFloat(val) && math.IsNaN(val.(float64)))`. -/
def dropTest (val : Cell) : Bool :=
  decide (val = .str "nan") ||
    (isFloat val && (match val with
      | .float f => f.isNaN
      | _ => false))

/-- What the first inner loop of `DropNA` does with row `i`. -/
inductive Scan where
  | keep
  | skip
  | fault
deriving DecidableEq, Repr

/-- First inner loop of `DropNA`: `val := df.Data[col][i]` for each listed column, leaving
the row at the first cell that passes the test (`continue RowLoop`). -/
def scanRow (df : Pandas) (i : Nat) : List String → Scan
  | [] => .keep
  | col :: cols =>
    match (mapIndex df.Data col)[i]? with
    | none => .fault
    | some val => if dropTest val then .skip else scanRow df i cols

/-- Second inner loop of `DropNA`:
`newData[col] = append(newData[col], df.Data[col][i])` for each listed column. -/
def appendRow (df : Pandas) (i : Nat) :
    List String → List (String × List Cell) → Result (List (String × List Cell))
  | [], newData => .ok newData
  | col :: cols, newData =>
    match (mapIndex df.Data col)[i]? with
    | none => .panic "index out of range"
    | some val => appendRow df i cols (mapAssign newData col (mapIndex newData col ++ [val]))

/-- The loop `for i := 0; i < rowCount; i++` of `DropNA`, over the row numbers still to visit. -/
def rowLoop (df : Pandas) :
    List Nat → List (String × List Cell) → Result (List (String × List Cell))
  | [], newData => .ok newData
  | i :: rest, newData =>
    match scanRow df i df.Columns with
    | .fault => .panic "index out of range"
    | .skip => rowLoop df rest newData
    | .keep =>
      match appendRow df i df.Columns newData with
      | .panic msg => .panic msg
      | .ok newData1 => rowLoop df rest newData1

/-- Go `DropNA`. `df.Columns[0]` panics on an empty column list. -/
def Pandas.DropNA (df : Pandas) : Result Pandas :=
  let newData := df.Columns.foldl (fun nd col => mapAssign nd col []) []
  match df.Columns with
  | [] => .panic "index out of range"
  | c0 :: _ =>
    match rowLoop df (List.range (mapIndex df.Data c0).length) newData with
    | .panic msg => .panic msg
    | .ok nd => .ok ⟨df.Columns, nd⟩

/-! ## Shape and rows of a table -/

/-- All cell sequences of the table, the ones of the listed columns and the ones stored in
`Data`, have one common length. -/
def Pandas.EqualLength (df : Pandas) : Prop :=
  ∃ n, (∀ c ∈ df.Columns, (mapIndex df.Data c).length = n) ∧ ∀ kv ∈ df.Data, kv.2.length = n

/-- Row count: the length of the first listed column, as `DropNA` and `Shape` take it. -/
def Pandas.rowCount (df : Pandas) : Nat :=
  match df.Columns with
  | [] => 0
  | c0 :: _ => (mapIndex df.Data c0).length

/-- The cell of column `c` in row `i`, `df.Data[c][i]`; `nil` outside the sequence. -/
def Pandas.cellAt (df : Pandas) (c : String) (i : Nat) : Cell :=
  (mapIndex df.Data c).getD i .missing

/-- Row `i` as the tuple of its cells across the listed columns. -/
def Pandas.row (df : Pandas) (i : Nat) : List Cell :=
  df.Columns.map (fun c => df.cellAt c i)

/-- Row `i` passes the test of `DropNA` in no listed column. -/
def Pandas.keepsRow (df : Pandas) (i : Nat) : Bool :=
  !(df.Columns.any (fun c => dropTest (df.cellAt c i)))

/-- The rows of the table, in row order. -/
def Pandas.rows (df : Pandas) : List (List Cell) :=
  (List.range df.rowCount).map df.row

/-- The cells of a whole table: every cell of every stored sequence. -/
def Pandas.cells (df : Pandas) : List Cell :=
  df.Data.flatMap Prod.snd

/-! ## Filling and masking -/

/-- Go `FillNA`. The loop visits every entry of `df.Data` once and overwrites, in place, the
cells of its sequence that pass `isMissing`; the receiver after the call is returned. -/
def Pandas.FillNA (df : Pandas) : Pandas :=
  ⟨df.Columns,
    df.Data.map (fun kv =>
      (kv.1, kv.2.map (fun val => if isMissing val then defaultValue val else val)))⟩

/-- Go `IsNA`. The loop visits every entry of `df.Data` once and stores, under the same key,
a fresh sequence of booleans. -/
def Pandas.IsNA (df : Pandas) : Pandas :=
  ⟨df.Columns, df.Data.map (fun kv => (kv.1, kv.2.map (fun val => Cell.bool (isMissing val))))⟩

/-- Go `Copy`, on values: a fresh sequence with the same cells under every key, and
`append([]string(nil), df.Columns...)` for the column list. -/
def Pandas.Copy (df : Pandas) : Pandas :=
  ⟨[] ++ df.Columns, df.Data.map (fun kv => (kv.1, kv.2.map (fun val => val)))⟩

/-- The cell `FillNA` is to leave in the place of a cell, in the words of its description:
`0.0` for a NaN float, the empty string for the strings `"nan"` and `""`, and the cell itself
otherwise (a `nil` cell stays `nil`). -/
def fillSpec : Cell → Cell
  | .float x => if x.isNaN then .float F64.zero else .float x
  | .str s => if s = "nan" ∨ s = "" then .str "" else .str s
  | .missing => .missing
  | .int i => .int i
  | .bool b => .bool b

/-! ## Ordering -/

/-- Order of Go strings: byte-wise lexicographic, which on valid UTF-8 is the lexicographic
order of the code points. -/
def strLe (a b : String) : Prop := a.toList ≤ b.toList

instance strLe.decidable : DecidableRel strLe := fun a b =>
  inferInstanceAs (Decidable (a.toList ≤ b.toList))

/-- Go `sort.Strings`: the ascending arrangement of the strings. The order is total, so that
arrangement is unique whatever algorithm the library runs; it is computed by insertion. -/
def sortStrings (xs : List String) : List String := xs.insertionSort strLe

/-- Go `Sort_index`; the receiver after the call is returned. -/
def Pandas.Sort_index (df : Pandas) : Pandas :=
  let sortedColumns := sortStrings df.Columns
  let newData := sortedColumns.foldl (fun nd col => mapAssign nd col (mapIndex df.Data col)) []
  ⟨sortedColumns, newData⟩

/-- Go `less`. -/
def less : Cell → Cell → Bool
  | .int i, .int j => decide (i < j)
  | .float i, .float j => F64.lt i j
  | _, _ => false

/-- What Go requires of the `less` argument of `sort.Slice` (a strict weak ordering), on the
elements to be sorted. -/
structure StrictWeakOn (lt : Nat → Nat → Bool) (xs : List Nat) : Prop where
  irrefl : ∀ a ∈ xs, lt a a = false
  trans : ∀ a ∈ xs, ∀ b ∈ xs, ∀ c ∈ xs, lt a b = true → lt b c = true → lt a c = true
  negTrans : ∀ a ∈ xs, ∀ b ∈ xs, ∀ c ∈ xs, lt a b = false → lt b c = false → lt a c = false

/-- The library routine `sort.Slice`, taken by its contract: it only swaps elements, so the
result is a rearrangement for every `less`; and when `less` is a strict weak ordering of the
elements, no element of the result is `less` than an earlier one. -/
structure SortContract (sortSlice : (Nat → Nat → Bool) → List Nat → List Nat) : Prop where
  perm : ∀ lt xs, (sortSlice lt xs).Perm xs
  sorted : ∀ lt xs, StrictWeakOn lt xs → (sortSlice lt xs).Pairwise (fun a b => lt b a = false)

/-- Inner loop of the library's `insertionSortLessFunc`,
`for j := i; j > a && less(data[j], data[j-1]); j-- { swap(j, j-1) }`,
on the already processed elements listed from the last one down. -/
def sinkInto (lt : Nat → Nat → Bool) (x : Nat) : List Nat → List Nat
  | [] => [x]
  | y :: ys => if lt x y then y :: sinkInto lt x ys else x :: y :: ys

/-- The library's `insertionSortLessFunc`, which `sort.Slice` runs on slices of at most 12
elements. -/
def insertionSortLess (lt : Nat → Nat → Bool) (xs : List Nat) : List Nat :=
  (xs.foldl (fun acc x => sinkInto lt x acc) []).reverse

/-- Inner loop of `Sort_values`, `for i, idx := range indices { newValues[i] = colValues[idx] }`,
from position `i` on; `none` is the index-out-of-range panic. -/
def fillColumn (colValues : List Cell) : List Nat → Nat → List Cell → Option (List Cell)
  | [], _, newValues => some newValues
  | idx :: rest, i, newValues =>
    match colValues[idx]? with
    | none => none
    | some val =>
      if i < newValues.length then fillColumn colValues rest (i + 1) (newValues.set i val)
      else none

/-- One iteration of the outer loop of `Sort_values`: `newValues := make([]interface{},
len(colValues))`, then the inner loop. -/
def placeColumn (indices : List Nat) (colValues : List Cell) : Option (List Cell) :=
  fillColumn colValues indices 0 (List.replicate colValues.length Cell.missing)

/-- Outer loop of `Sort_values`, `for colName, colValues := range df.Data`, with the map as it
stands when the loop ends or panics. Inside the iteration `df.Data[colName]` is `colValues`. -/
def rearrange (indices : List Nat) :
    List (String × List Cell) → Result Unit × List (String × List Cell)
  | [] => (.ok (), [])
  | (colName, colValues) :: rest =>
    match placeColumn indices colValues with
    | none => (.panic "index out of range", (colName, colValues) :: rest)
    | some newValues =>
      let r := rearrange indices rest
      (r.1, (colName, newValues) :: r.2)

/-- The sorted index slice of `Sort_values`: `indices` starts as `0, 1, .., len(values)-1` and
is sorted by `less(values[indices[i]], values[indices[j]])`. -/
def sortedIndices (sortSlice : (Nat → Nat → Bool) → List Nat → List Nat)
    (values : List Cell) : List Nat :=
  sortSlice (fun a b => less (values.getD a Cell.missing) (values.getD b Cell.missing))
    (List.range values.length)

/-- Go `Sort_values`, over the library routine `sort.Slice` it calls: the outcome of the call
together with the receiver as the call leaves it. -/
def Pandas.Sort_values (sortSlice : (Nat → Nat → Bool) → List Nat → List Nat) (df : Pandas)
    (columnName : String) : Result Unit × Pandas :=
  if columnName ∈ df.Columns then
    let r := rearrange (sortedIndices sortSlice (mapIndex df.Data columnName)) df.Data
    (r.1, ⟨df.Columns, r.2⟩)
  else (.panic "Column not found", df)

/-- Go `isNumeric`. -/
def isNumeric : Cell → Bool
  | .int _ => true
  | .float _ => true
  | _ => false

/-- Exact value of a non-NaN `float64` times `2^1075`, an integer; the infinities get a value
beyond every finite one. -/
def F64.scaled (x : F64) : Int :=
  let m : Int := if x.exp.val = 0 then 2 * (x.mant.val : Int)
    else (((4503599627370496 + x.mant.val) * 2 ^ x.exp.val : Nat) : Int)
  if x.sign then -m else m

/-- The order `a ≤ b` of two numeric cells by value; a NaN is in no order with anything. -/
def numLe : Cell → Cell → Bool
  | .int i, .int j => decide (i ≤ j)
  | .float x, .float y => F64.le x y
  | .int i, .float y => !y.isNaN && decide (i * ((2 ^ 1075 : Nat) : Int) ≤ y.scaled)
  | .float x, .int j => !x.isNaN && decide (x.scaled ≤ j * ((2 ^ 1075 : Nat) : Int))
  | _, _ => false

/-- The numeric cells of a sequence, in order. -/
def numericCells (l : List Cell) : List Cell := l.filter isNumeric

/-- A sequence of numeric cells is non-decreasing: each one is at most the next. -/
def nonDecreasing : List Cell → Bool
  | a :: b :: rest => numLe a b && nonDecreasing (b :: rest)
  | _ => true

/-! ## Tables in memory

`Copy` promises tables that share no storage, which tables as values cannot say. Here the
table is laid out as the Go runtime keeps it: a `*Pandas` is the address of a struct that
holds a slice header for `Columns` and a map reference for `Data`; a map holds a slice header
per key; a slice header points into a backing array. Allocation takes the next address of the
store. -/

/-- A slice header: backing array (`none` for the nil slice), offset into it, length. -/
structure Slice where
  arr : Option Nat
  off : Nat
  len : Nat
deriving DecidableEq, Repr

/-- The memory: backing arrays of `[]interface{}`, backing arrays of `[]string`, map objects,
and `Pandas` structs (slice header of `Columns`, reference of `Data`, `none` for a nil map),
each kind by address. -/
structure Heap where
  cellArrs : List (List Cell)
  nameArrs : List (List String)
  maps : List (List (String × Slice))
  structs : List (Slice × Option Nat)
deriving DecidableEq, Repr

/-- The elements `off .. off+len-1` of a backing array. -/
def window {α : Type} (arr : List α) (off len : Nat) : List α := (arr.drop off).take len

/-- The cells a `[]interface{}` slice header denotes. -/
def readCells (arrs : List (List Cell)) (s : Slice) : List Cell :=
  match s.arr with
  | none => []
  | some a => window (arrs.getD a []) s.off s.len

/-- The strings a `[]string` slice header denotes. -/
def readNames (arrs : List (List String)) (s : Slice) : List String :=
  match s.arr with
  | none => []
  | some a => window (arrs.getD a []) s.off s.len

/-- The entries of the map a reference denotes; a nil map has none. -/
def entriesOf (h : Heap) (m : Option Nat) : List (String × Slice) :=
  match m with
  | none => []
  | some a => h.maps.getD a []

/-- Go `m[k]` on a map of slice headers: the nil slice when `k` is not a key. -/
def slotIndex : List (String × Slice) → String → Slice
  | [], _ => ⟨none, 0, 0⟩
  | (k, v) :: rest, key => if k = key then v else slotIndex rest key

/-- Go `m[k] = v` on a map of slice headers. -/
def slotAssign : List (String × Slice) → String → Slice → List (String × Slice)
  | [], key, v => [(key, v)]
  | (k, w) :: rest, key, v => if k = key then (k, v) :: rest else (k, w) :: slotAssign rest key v

/-- The table that the struct at address `p` denotes. -/
def Heap.table (h : Heap) (p : Nat) : Pandas :=
  match h.structs[p]? with
  | none => ⟨[], []⟩
  | some (cols, m) =>
    ⟨readNames h.nameArrs cols,
      (entriesOf h m).map (fun kv => (kv.1, readCells h.cellArrs kv.2))⟩

/-- A slice header points at an allocated array, or is nil. -/
def sliceOk (n : Nat) (s : Slice) : Prop := ∀ a, s.arr = some a → a < n

/-- The address `p` holds a struct, and what the struct refers to is allocated: Go has no
dangling references. -/
def Heap.Valid (h : Heap) (p : Nat) : Prop :=
  ∃ cols m, h.structs[p]? = some (cols, m) ∧ sliceOk h.nameArrs.length cols ∧
    (∀ a, m = some a → a < h.maps.length) ∧
    ∀ kv ∈ entriesOf h m, sliceOk h.cellArrs.length kv.2

/-- The loop of `Copy`, `for col, values := range df.Data`: `make` and `copy` give each key a
new backing array, the next free address, holding the cells of `values`. -/
def copyEntries : List (String × Slice) → List (List Cell) →
    List (List Cell) × List (String × Slice)
  | [], arrs => (arrs, [])
  | (col, values) :: rest, arrs =>
    let newValues := readCells arrs values
    let r := copyEntries rest (arrs ++ [newValues])
    (r.1, (col, ⟨some arrs.length, 0, values.len⟩) :: r.2)

/-- Go `Copy` in memory: the new memory and the address of the new struct. The new map and
the array of `append([]string(nil), df.Columns...)` take the next free addresses. -/
def Heap.Copy (h : Heap) (p : Nat) : Result (Heap × Nat) :=
  match h.structs[p]? with
  | none => .panic "nil pointer dereference"
  | some (cols, m) =>
    let r := copyEntries (entriesOf h m) h.cellArrs
    .ok (⟨r.1, h.nameArrs ++ [readNames h.nameArrs cols], h.maps ++ [r.2],
        h.structs ++ [(⟨some h.nameArrs.length, 0, cols.len⟩, some h.maps.length)]⟩,
      h.structs.length)

/-- Inner loop of `FillNA` on one backing array, `for i, val := range values`, where
`values[i]` is element `off + i` of the array. -/
def fillLoop (arr : List Cell) (off : Nat) : List Nat → List Cell
  | [] => arr
  | i :: rest =>
    let val := arr.getD (off + i) Cell.missing
    fillLoop (if isMissing val then arr.set (off + i) (defaultValue val) else arr) off rest

/-- One iteration of the outer loop of `FillNA`: the writes go to the backing array of the
slice. -/
def fillSlot (arrs : List (List Cell)) (s : Slice) : List (List Cell) :=
  match s.arr with
  | none => arrs
  | some a => arrs.set a (fillLoop (arrs.getD a []) s.off (List.range s.len))

/-- Go `FillNA` in memory. -/
def Heap.FillNA (h : Heap) (p : Nat) : Result Heap :=
  match h.structs[p]? with
  | none => .panic "nil pointer dereference"
  | some (_, m) =>
    .ok ⟨(entriesOf h m).foldl (fun arrs kv => fillSlot arrs kv.2) h.cellArrs,
      h.nameArrs, h.maps, h.structs⟩

/-- Outer loop of `Sort_values` in memory: `make` gives `newValues` the next free address and
`df.Data[colName] = newValues` writes the header into the map object at `mAddr`. -/
def rearrangeH (indices : List Nat) (mAddr : Nat) :
    List (String × Slice) → Heap → Result Unit × Heap
  | [], h => (.ok (), h)
  | (colName, colValues) :: rest, h =>
    match placeColumn indices (readCells h.cellArrs colValues) with
    | none => (.panic "index out of range", h)
    | some newValues =>
      rearrangeH indices mAddr rest
        ⟨h.cellArrs ++ [newValues], h.nameArrs,
          h.maps.set mAddr (slotAssign (h.maps.getD mAddr []) colName
            ⟨some h.cellArrs.length, 0, newValues.length⟩),
          h.structs⟩

/-- Go `Sort_values` in memory. -/
def Heap.Sort_values (sortSlice : (Nat → Nat → Bool) → List Nat → List Nat) (h : Heap)
    (p : Nat) (columnName : String) : Result Unit × Heap :=
  match h.structs[p]? with
  | none => (.panic "nil pointer dereference", h)
  | some (cols, m) =>
    if columnName ∈ readNames h.nameArrs cols then
      match m with
      | none => (.ok (), h)
      | some mAddr =>
        rearrangeH
          (sortedIndices sortSlice (readCells h.cellArrs (slotIndex (entriesOf h m) columnName)))
          mAddr (entriesOf h m) h
    else (.panic "Column not found", h)

/-- Go `Sort_index` in memory: `sortedColumns` and `newData` are new objects, and the two
fields of the struct at `p` are overwritten. -/
def Heap.Sort_index (h : Heap) (p : Nat) : Result Heap :=
  match h.structs[p]? with
  | none => .panic "nil pointer dereference"
  | some (cols, m) =>
    let sortedColumns := sortStrings (readNames h.nameArrs cols)
    let newData := sortedColumns.foldl
      (fun nd col => slotAssign nd col (slotIndex (entriesOf h m) col)) []
    .ok ⟨h.cellArrs, h.nameArrs ++ [sortedColumns], h.maps ++ [newData],
      h.structs.set p (⟨some h.nameArrs.length, 0, sortedColumns.length⟩, some h.maps.length)⟩

/-- The tables at `x` and `y` share no struct, no map and no backing array. -/
def Heap.Apart (h : Heap) (x y : Nat) : Prop :=
  ∃ cx mx cy my, h.structs[x]? = some (cx, mx) ∧ h.structs[y]? = some (cy, my) ∧ x ≠ y ∧
    (∀ a, mx = some a → my ≠ some a) ∧
    (∀ a, cx.arr = some a → cy.arr ≠ some a) ∧
    ∀ kx ∈ entriesOf h mx, ∀ ky ∈ entriesOf h my, ∀ a, kx.2.arr = some a → ky.2.arr ≠ some a

/-! ## Row slices, concatenation, counting and grouping -/

/-- The loop of `GetItemSlice`, `for col, values := range df.Data`: the bounds check on every
column, then `make` and `copy` of `values[start:end]` under the same key. -/
def sliceLoop (start stop : Int) :
    List (String × List Cell) → Result (List (String × List Cell))
  | [] => .ok []
  | (col, values) :: rest =>
    if start < 0 ∨ stop > (values.length : Int) ∨ start > stop then
      .panic "index out of range"
    else
      match sliceLoop start stop rest with
      | .panic msg => .panic msg
      | .ok newData =>
        .ok ((col, window values start.toNat (stop.toNat - start.toNat)) :: newData)

/-- Go `GetItemSlice(start, end)`. -/
def Pandas.GetItemSlice (df : Pandas) (start stop : Int) : Result Pandas :=
  match sliceLoop start stop df.Data with
  | .panic msg => .panic msg
  | .ok newData => .ok ⟨df.Columns, newData⟩

/-- Go `x == y` on `float64`: false as soon as one side is NaN, and `0.0 == -0.0`. -/
def F64.eq (x y : F64) : Bool := !x.isNaN && !y.isNaN && decide (x.key = y.key)

/-- Go `a == b` on two `interface{}` values, which is also the equality of map keys: same
dynamic type and equal values. -/
def goEq : Cell → Cell → Bool
  | .int i, .int j => decide (i = j)
  | .float x, .float y => F64.eq x y
  | .str s, .str t => decide (s = t)
  | .bool a, .bool b => decide (a = b)
  | .missing, .missing => true
  | _, _ => false

/-- The cell is a NaN float. -/
def isNaNCell : Cell → Bool
  | .float x => x.isNaN
  | _ => false

/-- Go `m[val]` on `map[interface{}]int`: zero when no key equals `val`. -/
def countIndex : List (Cell × Nat) → Cell → Nat
  | [], _ => 0
  | (k, n) :: rest, val => if goEq k val then n else countIndex rest val

/-- Go `m[val]++` on `map[interface{}]int`: a key equal to `val` gets its count raised (and
is overwritten by `val`, as the runtime does for interface keys), otherwise `val` is added
with count one. No key equals a NaN, so a NaN is added every time. -/
def countIncr : List (Cell × Nat) → Cell → List (Cell × Nat)
  | [], val => [(val, 1)]
  | (k, n) :: rest, val =>
    if goEq k val then (val, n + 1) :: rest else (k, n) :: countIncr rest val

/-- Go `Value_counts`: one map of counts per entry of `df.Data`. -/
def Pandas.Value_counts (df : Pandas) : List (String × List (Cell × Nat)) :=
  df.Data.map (fun kv => (kv.1, kv.2.foldl countIncr []))

/-- Go `groups[val]` on `map[interface{}]*Pandas`: `none` is the nil pointer that the map
returns when no key equals `val`. -/
def groupIndex : List (Cell × Pandas) → Cell → Option Pandas
  | [], _ => none
  | (k, g) :: rest, val => if goEq k val then some g else groupIndex rest val

/-- A write through the pointer `groups[val]`: the table under the key equal to `val` is
replaced, the keys stay. -/
def groupStore : List (Cell × Pandas) → Cell → Pandas → List (Cell × Pandas)
  | [], _, _ => []
  | (k, g) :: rest, val, g1 =>
    if goEq k val then (k, g1) :: rest else (k, g) :: groupStore rest val g1

/-- Inner loop of `GroupBy` for row `i`, `for col, values := range df.Data`:
`groups[val].Data[col] = append(groups[val].Data[col], values[i])`. -/
def groupRow (i : Nat) (val : Cell) :
    List (String × List Cell) → List (Cell × Pandas) → Result (List (Cell × Pandas))
  | [], groups => .ok groups
  | (col, values) :: rest, groups =>
    match groupIndex groups val with
    | none => .panic "nil pointer dereference"
    | some g =>
      match values[i]? with
      | none => .panic "index out of range"
      | some cell =>
        groupRow i val rest
          (groupStore groups val ⟨g.Columns, mapAssign g.Data col (mapIndex g.Data col ++ [cell])⟩)

/-- Outer loop of `GroupBy`, `for i, val := range df.Data[by]`, from row `i` on: a value
that equals no key gets a new table with the column list of the receiver and an empty map. -/
def groupLoop (df : Pandas) :
    List Cell → Nat → List (Cell × Pandas) → Result (List (Cell × Pandas))
  | [], _, groups => .ok groups
  | val :: rest, i, groups =>
    let groups1 :=
      match groupIndex groups val with
      | none => groups ++ [(val, ⟨df.Columns, []⟩)]
      | some _ => groups
    match groupRow i val df.Data groups1 with
    | .panic msg => .panic msg
    | .ok groups2 => groupLoop df rest (i + 1) groups2

/-- Go `GroupBy(by)`. -/
def Pandas.GroupBy (df : Pandas) (by_ : String) : Result (List (Cell × Pandas)) :=
  groupLoop df (mapIndex df.Data by_) 0 []

/-- The slices of the table at `p` lie within their backing arrays: a header of length
`len` denotes `len` cells. -/
def Heap.InBounds (h : Heap) (p : Nat) : Prop :=
  ∀ cols m, h.structs[p]? = some (cols, m) →
    ∀ kv ∈ entriesOf h m, (readCells h.cellArrs kv.2).length = kv.2.len

/-- The loop of `GetItemSlice` in memory: the bounds check against `len(values)`, then `make`
gives the copy of `values[start:end]` the next free address. The arrays are returned as the
loop leaves them, also when it panics. -/
def sliceEntries (start stop : Int) :
    List (String × Slice) → List (List Cell) →
      Result (List (String × Slice)) × List (List Cell)
  | [], arrs => (.ok [], arrs)
  | (col, values) :: rest, arrs =>
    if start < 0 ∨ stop > (values.len : Int) ∨ start > stop then
      (.panic "index out of range", arrs)
    else
      let newValues := window (readCells arrs values) start.toNat (stop.toNat - start.toNat)
      let r := sliceEntries start stop rest (arrs ++ [newValues])
      match r.1 with
      | .panic msg => (.panic msg, r.2)
      | .ok slots => (.ok ((col, ⟨some arrs.length, 0, stop.toNat - start.toNat⟩) :: slots), r.2)

/-- Go `GetItemSlice` in memory: the outcome, with the address of the new struct, and the
memory after the call. The new struct holds the slice header `df.Columns` of the receiver and
a new map. -/
def Heap.GetItemSlice (h : Heap) (p : Nat) (start stop : Int) : Result Nat × Heap :=
  match h.structs[p]? with
  | none => (.panic "nil pointer dereference", h)
  | some (cols, m) =>
    let r := sliceEntries start stop (entriesOf h m) h.cellArrs
    match r.1 with
    | .panic msg => (.panic msg, ⟨r.2, h.nameArrs, h.maps, h.structs⟩)
    | .ok slots =>
      (.ok h.structs.length,
        ⟨r.2, h.nameArrs, h.maps ++ [slots], h.structs ++ [(cols, some h.maps.length)]⟩)

/-- Go `cap(s)`: the room from the first element of the slice to the end of its backing
array (no slice here is cut short by a three-index slice expression); the nil slice has
none. -/
def capOf (arrs : List (List Cell)) (s : Slice) : Nat :=
  match s.arr with
  | none => 0
  | some a => (arrs.getD a []).length - s.off

/-- The backing array with the cells `vals` written from element `i` on. -/
def writeAt (arr : List Cell) (i : Nat) (vals : List Cell) : List Cell :=
  arr.take i ++ vals ++ arr.drop (i + vals.length)

/-- Go `append(s, vals...)`: when the capacity of `s` holds the result, the cells are written
into the backing array of `s` behind its last element and the header only grows in length;
otherwise a new array, the next free address, receives the cells of `s` followed by `vals`
(the spare room that the runtime may give the new array is left out). -/
def appendSlice (arrs : List (List Cell)) (s : Slice) (vals : List Cell) :
    List (List Cell) × Slice :=
  if s.len + vals.length ≤ capOf arrs s then
    match s.arr with
    | none => (arrs, s)
    | some a =>
      (arrs.set a (writeAt (arrs.getD a []) (s.off + s.len) vals),
        ⟨some a, s.off, s.len + vals.length⟩)
  else (arrs ++ [readCells arrs s ++ vals], ⟨some arrs.length, 0, s.len + vals.length⟩)

/-- Second loop of `Concat`, `for col, values := range right.Data`:
`concatData[col] = append(concatData[col], values...)`, where the cells of `values` are read
from the memory as the earlier iterations left it. -/
def concatEntries : List (String × Slice) → List (List Cell) → List (String × Slice) →
    List (List Cell) × List (String × Slice)
  | [], arrs, concatData => (arrs, concatData)
  | (col, values) :: rest, arrs, concatData =>
    let r := appendSlice arrs (slotIndex concatData col) (readCells arrs values)
    concatEntries rest r.1 (slotAssign concatData col r.2)

/-- Go `Concat` in memory: the new memory and the address of the new struct. The first loop,
`concatData[col] = values`, stores the slice headers of the receiver in the new map, so the
second loop appends to the slices of the receiver; the new struct holds the slice header
`df.Columns` of the receiver. -/
def Heap.Concat (h : Heap) (p q : Nat) : Result (Heap × Nat) :=
  match h.structs[p]?, h.structs[q]? with
  | some (cols, m), some (_, mr) =>
    let concatData := (entriesOf h m).foldl (fun cd kv => slotAssign cd kv.1 kv.2) []
    let r := concatEntries (entriesOf h mr) h.cellArrs concatData
    .ok (⟨r.1, h.nameArrs, h.maps ++ [r.2], h.structs ++ [(cols, some h.maps.length)]⟩,
      h.structs.length)
  | _, _ => .panic "nil pointer dereference"

/-- The keys of `Data` are distinct, as the keys of a Go map are. -/
def Pandas.KeysDistinct (df : Pandas) : Prop := (df.Data.map Prod.fst).Nodup

instance Pandas.KeysDistinct.decidable (df : Pandas) : Decidable df.KeysDistinct :=
  inferInstanceAs (Decidable (df.Data.map Prod.fst).Nodup)

/-- The name `c` is a key of `Data`. -/
def Pandas.HasData (df : Pandas) (c : String) : Prop := c ∈ df.Data.map Prod.fst

instance Pandas.HasData.decidable (df : Pandas) (c : String) : Decidable (df.HasData c) :=
  inferInstanceAs (Decidable (c ∈ df.Data.map Prod.fst))

/-- Well-formedness of a table: `Data` has a cell sequence for each listed column, and all
the sequences of `Data` have one length. -/
def Pandas.WellFormed (df : Pandas) : Prop :=
  (∀ c ∈ df.Columns, df.HasData c) ∧ ∃ n, ∀ kv ∈ df.Data, kv.2.length = n

/-- A group table of `df` between two rows of the loop of `GroupBy`: it has the column list
of `df`, its keys are the keys of `df.Data`, each once, and its sequences have one length. -/
def Pandas.GroupOf (df g : Pandas) : Prop :=
  g.Columns = df.Columns ∧ (g.Data.map Prod.fst).Nodup ∧
    (∀ c, c ∈ g.Data.map Prod.fst ↔ c ∈ df.Data.map Prod.fst) ∧
    ∃ n, ∀ c ∈ df.Data.map Prod.fst, (mapIndex g.Data c).length = n

/-! ## Arithmetic of `float64`

A finite `float64` is a whole number of units of `2^-1074`. The sum and the quotient of two
finite values are computed exactly and rounded to the nearest `float64`, ties to the even
mantissa, as IEEE-754 prescribes for the operations `+` and `/` of Go. -/

namespace F64

/-- Go `math.Inf(1)`. -/
def posInf : F64 := ⟨false, 2047, 0⟩

/-- Go `math.Inf(-1)`. -/
def negInf : F64 := ⟨true, 2047, 0⟩

/-- The constant `1.0`. -/
def one : F64 := ⟨false, 1023, 0⟩

/-- The constant `2.0`. -/
def two : F64 := ⟨false, 1024, 0⟩

/-- An infinity: exponent all ones and a zero mantissa. -/
def isInf (x : F64) : Bool := x.exp.val == 2047 && x.mant.val == 0

/-- The power `2^n`, computed by shifting. -/
def twoPow (n : Nat) : Nat := 1 <<< n

/-- Absolute value of a finite `float64` in units of `2^-1074`. -/
def units (x : F64) : Nat :=
  if x.exp.val = 0 then x.mant.val
  else (4503599627370496 + x.mant.val) * twoPow (x.exp.val - 1)

/-- Value of a finite `float64` in units of `2^-1074`. -/
def signedUnits (x : F64) : Int := if x.sign then - (x.units : Int) else (x.units : Int)

/-- The `float64` with the given sign bit, exponent field and mantissa field. -/
def ofFields (sign : Bool) (e m : Nat) : F64 :=
  ⟨sign, ⟨e % 2048, Nat.mod_lt _ (by decide)⟩,
    ⟨m % 4503599627370496, Nat.mod_lt _ (by decide)⟩⟩

/-- How many low bits a magnitude of `q` units loses to fit 53 bits: the least `s` with
`q / 2^s < 2^53`. The first argument bounds the search. -/
def shiftOf : Nat → Nat → Nat
  | 0, _ => 0
  | fuel + 1, q => if q < 9007199254740992 then 0 else shiftOf fuel (q / 2) + 1

/-- The `float64` of magnitude `m * 2^s` units, for `m` at most `2^53` (and `s = 0` when
`m < 2^52`); infinity when the exponent leaves the range. -/
def encode (sign : Bool) (m s : Nat) : F64 :=
  if m < 4503599627370496 then ofFields sign 0 m
  else if m < 9007199254740992 then
    (if s + 1 < 2047 then ofFields sign (s + 1) (m - 4503599627370496)
      else ofFields sign 2047 0)
  else (if s + 2 < 2047 then ofFields sign (s + 2) 0 else ofFields sign 2047 0)

/-- The `float64` nearest to `num / den` units, ties to the even mantissa, with the given
sign. -/
def round (sign : Bool) (num den : Nat) : F64 :=
  let s := shiftOf (num / den) (num / den)
  let step := den * twoPow s
  let m := num / step
  let r := num % step
  let up := decide (step < 2 * r) || (decide (2 * r = step) && decide (m % 2 = 1))
  encode sign (if up then m + 1 else m) s

/-- Go `x + y` on `float64`. Which NaN an invalid sum yields is the choice of the hardware;
it is `NaN` here. -/
def add (x y : F64) : F64 :=
  if x.isNaN || y.isNaN then NaN
  else if x.isInf then (if y.isInf && (x.sign != y.sign) then NaN else x)
  else if y.isInf then y
  else
    let s := x.signedUnits + y.signedUnits
    if s = 0 then ofFields (x.sign && y.sign) 0 0
    else round (decide (s < 0)) s.natAbs 1

/-- Go `x / y` on `float64`. -/
def div (x y : F64) : F64 :=
  if x.isNaN || y.isNaN then NaN
  else if x.isInf then (if y.isInf then NaN else ofFields (x.sign != y.sign) 2047 0)
  else if y.isInf then ofFields (x.sign != y.sign) 0 0
  else if y.units = 0 then
    (if x.units = 0 then NaN else ofFields (x.sign != y.sign) 2047 0)
  else if x.units = 0 then ofFields (x.sign != y.sign) 0 0
  else round (x.sign != y.sign) (x.units * twoPow 1074) y.units

/-- Go `float64(v)` for an integer `v`. -/
def ofInt (v : Int) : F64 :=
  if v = 0 then zero else round (decide (v < 0)) (v.natAbs * twoPow 1074) 1

end F64

/-! ## Aggregation -/

/-- The loop of `Sum` on one column: `sum += v` for every `float64` cell that is not NaN. -/
def sumLoop : List Cell → F64 → F64
  | [], sum => sum
  | val :: rest, sum =>
    match val with
    | .float v => if !v.isNaN then sumLoop rest (F64.add sum v) else sumLoop rest sum
    | _ => sumLoop rest sum

/-- Go `Sum`: one sum per entry of `df.Data`, from `sum := 0.0`. -/
def Pandas.Sum (df : Pandas) : List (String × F64) :=
  df.Data.map (fun kv => (kv.1, sumLoop kv.2 F64.zero))

/-- The loop of `Min` on one column: `min = v` for every `float64` cell that is not NaN and
has `v < min`. -/
def minLoop : List Cell → F64 → F64
  | [], min => min
  | val :: rest, min =>
    match val with
    | .float v => if !v.isNaN && F64.lt v min then minLoop rest v else minLoop rest min
    | _ => minLoop rest min

/-- Go `Min`: from `min := math.Inf(1)`; NaN is reported when `min == math.Inf(1)` after
the loop. -/
def Pandas.Min (df : Pandas) : List (String × F64) :=
  df.Data.map (fun kv =>
    (kv.1, if F64.eq (minLoop kv.2 F64.posInf) F64.posInf then F64.NaN
      else minLoop kv.2 F64.posInf))

/-- The loop of `Max` on one column: `max = v` for every `float64` cell that is not NaN and
has `v > max`. -/
def maxLoop : List Cell → F64 → F64
  | [], max => max
  | val :: rest, max =>
    match val with
    | .float v => if !v.isNaN && F64.lt max v then maxLoop rest v else maxLoop rest max
    | _ => maxLoop rest max

/-- Go `Max`: from `max := math.Inf(-1)`; NaN is reported when `max == math.Inf(-1)` after
the loop. -/
def Pandas.Max (df : Pandas) : List (String × F64) :=
  df.Data.map (fun kv =>
    (kv.1, if F64.eq (maxLoop kv.2 F64.negInf) F64.negInf then F64.NaN
      else maxLoop kv.2 F64.negInf))

/-- The loop of `Mean` on one column, on the pair `(sum, count)`: an `int` cell is converted
with `float64(v)`, and a value that is not NaN is added to `sum` while `count++`. -/
def meanLoop : List Cell → F64 × F64 → F64 × F64
  | [], acc => acc
  | val :: rest, acc =>
    match val with
    | .int v =>
      if !(F64.ofInt v).isNaN then
        meanLoop rest (F64.add acc.1 (F64.ofInt v), F64.add acc.2 F64.one)
      else meanLoop rest acc
    | .float v =>
      if !v.isNaN then meanLoop rest (F64.add acc.1 v, F64.add acc.2 F64.one)
      else meanLoop rest acc
    | _ => meanLoop rest acc

/-- Go `Mean`: from `sum := 0.0` and `count := 0.0`; `sum / count` when `count > 0`, else
`math.NaN()`. -/
def Pandas.Mean (df : Pandas) : List (String × F64) :=
  df.Data.map (fun kv =>
    (kv.1, if F64.lt F64.zero (meanLoop kv.2 (F64.zero, F64.zero)).2
      then F64.div (meanLoop kv.2 (F64.zero, F64.zero)).1 (meanLoop kv.2 (F64.zero, F64.zero)).2
      else F64.NaN))

/-- The `float64` cells of a column that are not NaN, in row order: the slice `floatValues`
that `Median` collects. -/
def floatCells (values : List Cell) : List F64 :=
  values.filterMap (fun val =>
    match val with
    | .float v => if !v.isNaN then some v else none
    | _ => none)

/-- The order `sort.Float64s` sorts by: `x < y || (isNaN(x) && !isNaN(y))`. -/
def lessFloat (x y : F64) : Bool := F64.lt x y || (x.isNaN && !y.isNaN)

/-- Go `sort.Float64s`, over the library routine it runs: the positions of the slice are
sorted by the order of their elements. -/
def sortFloats (sortSlice : (Nat → Nat → Bool) → List Nat → List Nat) (xs : List F64) :
    List F64 :=
  (sortSlice (fun a b => lessFloat (xs.getD a F64.zero) (xs.getD b F64.zero))
    (List.range xs.length)).map (fun a => xs.getD a F64.zero)

/-- Go `xs[i]` for an `int` index: `none` is the index-out-of-range panic. -/
def indexInt (xs : List F64) (i : Int) : Option F64 :=
  if i < 0 then none else xs[i.toNat]?

/-- One iteration of the loop of `Median`: the median of the sorted `floatValues`, with the
indices `n/2-1` and `n/2` computed on `int`. -/
def medianOf (sortSlice : (Nat → Nat → Bool) → List Nat → List Nat) (values : List Cell) :
    Result F64 :=
  let floatValues := sortFloats sortSlice (floatCells values)
  let n := floatValues.length
  if n % 2 = 0 then
    match indexInt floatValues ((n / 2 : Nat) - 1), indexInt floatValues (n / 2 : Nat) with
    | some a, some b => .ok (F64.div (F64.add a b) F64.two)
    | _, _ => .panic "index out of range"
  else
    match indexInt floatValues (n / 2 : Nat) with
    | some a => .ok a
    | none => .panic "index out of range"

/-- The loop of `Median`, `for col, values := range df.Data`. -/
def medianLoop (sortSlice : (Nat → Nat → Bool) → List Nat → List Nat) :
    List (String × List Cell) → Result (List (String × F64))
  | [] => .ok []
  | (col, values) :: rest =>
    match medianOf sortSlice values with
    | .panic msg => .panic msg
    | .ok med =>
      match medianLoop sortSlice rest with
      | .panic msg => .panic msg
      | .ok medianValues => .ok ((col, med) :: medianValues)

/-- Go `Median`, over the library routine that `sort.Float64s` runs. -/
def Pandas.Median (sortSlice : (Nat → Nat → Bool) → List Nat → List Nat) (df : Pandas) :
    Result (List (String × F64)) :=
  medianLoop sortSlice df.Data

/-- The values that `Mean` averages, in row order: every `int` cell converted to `float64`
and every `float64` cell that is not NaN. -/
def numericFloats (values : List Cell) : List F64 :=
  values.filterMap (fun val =>
    match val with
    | .int v => some (F64.ofInt v)
    | .float v => if !v.isNaN then some v else none
    | _ => none)

/-- The sum of a sequence of `float64` values, added in order from `0.0`. -/
def floatSum (xs : List F64) : F64 := xs.foldl F64.add F64.zero

/-- The mean of a column in the words of its description: the sum of its `int` cells and
non-NaN `float64` cells, each as a `float64`, divided by their number; NaN when there is
none. -/
def meanSpec (values : List Cell) : F64 :=
  if numericFloats values = [] then F64.NaN
  else F64.div (floatSum (numericFloats values)) (F64.ofInt ((numericFloats values).length : Int))

/-- The median of an ascending sequence in the words of its description: the middle value
for an odd count, the average of the two middle values for an even count. -/
def medianSpec (s : List F64) : F64 :=
  if s.length % 2 = 0 then
    F64.div (F64.add (s.getD (s.length / 2 - 1) F64.zero) (s.getD (s.length / 2) F64.zero))
      F64.two
  else s.getD (s.length / 2) F64.zero

/-! ## Concrete tables -/

/-- The table `df3` of `main.go`. -/
def df3 : Pandas := NewDataFrame ["a", "b", "c"]
  [("a", [.str "hello", .float F64.NaN, .str "pandas"]),
   ("b", [.int 1, .int 2, .float F64.NaN]),
   ("c", [.int 47, .int 3, .int 4])]

/-- A one-column table whose only cell is the empty string, as `ReadCSV` loads an empty
field. -/
def blankTable : Pandas := NewDataFrame ["a"] [("a", [.str ""])]

/-- A table that lists its one column twice, as `Merge` of a table with itself does. -/
def twiceListed : Pandas := NewDataFrame ["a", "a"] [("a", [.int 1])]

/-- A column of an integer, a string and a smaller integer. -/
def mixedColumn : Pandas := NewDataFrame ["a"] [("a", [.int 2, .str "x", .int 1])]

/-- The table `df4` of `main.go`. -/
def df4 : Pandas := NewDataFrame ["a", "b", "c"]
  [("a", [.int 3, .int 1, .int 2]),
   ("b", [.int 4, .int 5, .int 6]),
   ("c", [.int 7, .int 8, .int 9])]

/-- A memory that holds `df3` of `main.go` at address 0 and nothing else. -/
def heap3 : Heap :=
  ⟨[[.str "hello", .float F64.NaN, .str "pandas"], [.int 1, .int 2, .float F64.NaN],
      [.int 47, .int 3, .int 4]],
    [["a", "b", "c"]],
    [[("a", ⟨some 0, 0, 3⟩), ("b", ⟨some 1, 0, 3⟩), ("c", ⟨some 2, 0, 3⟩)]],
    [(⟨some 0, 0, 3⟩, some 0)]⟩

/-- A table with the one column `a`. -/
def leftTable : Pandas := NewDataFrame ["a"] [("a", [.int 1])]

/-- A table with the columns `a` and `b`. -/
def rightTable : Pandas := NewDataFrame ["a", "b"] [("a", [.int 3]), ("b", [.int 2])]

/-- A memory that holds `leftTable` at address 0 and `rightTable` at address 1, every
column in an array of its own. -/
def heapLeftRight : Heap :=
  ⟨[[.int 1], [.int 3], [.int 2]],
    [["a"], ["a", "b"]],
    [[("a", ⟨some 0, 0, 1⟩)], [("a", ⟨some 1, 0, 1⟩), ("b", ⟨some 2, 0, 1⟩)]],
    [(⟨some 0, 0, 1⟩, some 0), (⟨some 1, 0, 2⟩, some 1)]⟩

/-- A memory that holds at address 0 the table whose columns `a` and `b` are the one slice
`col` of `col := make([]interface{}, 1, 2)` with `col[0] = 1`, and at address 1 the table
`a = [10]`, `b = [20]`. -/
def heapShared : Heap :=
  ⟨[[.int 1, .missing], [.int 10], [.int 20]],
    [["a", "b"], ["a", "b"]],
    [[("a", ⟨some 0, 0, 1⟩), ("b", ⟨some 0, 0, 1⟩)],
      [("a", ⟨some 1, 0, 1⟩), ("b", ⟨some 2, 0, 1⟩)]],
    [(⟨some 0, 0, 2⟩, some 0), (⟨some 1, 0, 2⟩, some 1)]⟩

/-- The memory `heapShared` with the map of the second table ranged over in the other
order, `b` before `a`. -/
def heapSharedRev : Heap :=
  ⟨[[.int 1, .missing], [.int 10], [.int 20]],
    [["a", "b"], ["a", "b"]],
    [[("a", ⟨some 0, 0, 1⟩), ("b", ⟨some 0, 0, 1⟩)],
      [("b", ⟨some 2, 0, 1⟩), ("a", ⟨some 1, 0, 1⟩)]],
    [(⟨some 0, 0, 2⟩, some 0), (⟨some 1, 0, 2⟩, some 1)]⟩

/-- A memory that holds at address 0 a table whose column `a = [1, 2, 3]` lies in a backing
array of four cells, as three calls of `append` in `ReadCSV` leave it, and at the addresses
1 and 2 the one-row tables `a = [10]` and `a = [20]`. -/
def heapRead : Heap :=
  ⟨[[.int 1, .int 2, .int 3, .missing], [.int 10], [.int 20]],
    [["a"], ["a"], ["a"]],
    [[("a", ⟨some 0, 0, 3⟩)], [("a", ⟨some 1, 0, 1⟩)], [("a", ⟨some 2, 0, 1⟩)]],
    [(⟨some 0, 0, 1⟩, some 0), (⟨some 1, 0, 1⟩, some 1), (⟨some 2, 0, 1⟩, some 2)]⟩

/-- A column of two NaN cells. -/
def nanColumn : Pandas := NewDataFrame ["a"] [("a", [.float F64.NaN, .float F64.NaN])]

/-- The column `a = ["x", "x", "y"]`. -/
def xxyColumn : Pandas := NewDataFrame ["a"] [("a", [.str "x", .str "x", .str "y"])]

/-- The table `df2` of `main.go`. -/
def df2 : Pandas := NewDataFrame ["a", "b", "c"]
  [("a", [.int 1, .int 2, .int 3]),
   ("b", [.int 4, .int 5, .int 6]),
   ("c", [.int 7, .int 8, .int 9])]

/-- A column whose only cell is `+Inf`, as `ReadCSV` loads the field `Inf`. -/
def infColumn : Pandas := NewDataFrame ["a"] [("a", [.float F64.posInf])]

/-- A column whose only cell is `-Inf`. -/
def negInfColumn : Pandas := NewDataFrame ["a"] [("a", [.float F64.negInf])]

/-- A table with the float column `x = [3.0, 1.0, 2.0, 4.0]` and the float column
`y = [5.0, NaN, 1.0]`. -/
def floatTable : Pandas := NewDataFrame ["x", "y"]
  [("x", [.float ⟨false, 1024, 2251799813685248⟩, .float F64.one, .float F64.two,
      .float ⟨false, 1025, 0⟩]),
   ("y", [.float ⟨false, 1025, 1125899906842624⟩, .float F64.NaN, .float F64.one])]

/-- A table of two columns of one row that lists the first column twice. -/
def twiceListedPair : Pandas :=
  NewDataFrame ["a", "a", "b"] [("a", [.int 1]), ("b", [.int 2])]

/-! # Theorems -/

/-! ## Maps -/

theorem mapIndex_map_key (f : String → List Cell) (cols : List String) (c : String)
    (hc : c ∈ cols) : mapIndex (cols.map (fun k => (k, f k))) c = f c := by
  induction cols with
  | nil => cases hc
  | cons k ks ih =>
    simp only [List.map_cons, mapIndex]
    by_cases hk : k = c
    · simp [hk]
    · simp only [hk, if_false]
      rcases List.mem_cons.mp hc with h | h
      · exact absurd h.symm hk
      · exact ih h

theorem mapAssign_map_key (f : String → List Cell) (cols : List String) (c : String)
    (v : List Cell) (hc : c ∈ cols) (hnd : cols.Nodup) :
    mapAssign (cols.map (fun k => (k, f k))) c v
      = cols.map (fun k => (k, if k = c then v else f k)) := by
  induction cols with
  | nil => cases hc
  | cons k ks ih =>
    have hk : k ∉ ks := (List.nodup_cons.mp hnd).1
    have hks : ks.Nodup := (List.nodup_cons.mp hnd).2
    simp only [List.map_cons, mapAssign]
    by_cases hkc : k = c
    · subst hkc
      simp only [if_true]
      congr 1
      apply List.map_congr_left
      intro a ha
      have : a ≠ k := fun h => hk (h ▸ ha)
      simp [this]
    · simp only [hkc, if_false]
      rcases List.mem_cons.mp hc with h | h
      · exact absurd h.symm hkc
      · rw [ih h hks]

theorem mapAssign_fresh (m : List (String × List Cell)) (c : String) (v : List Cell)
    (hc : c ∉ m.map Prod.fst) : mapAssign m c v = m ++ [(c, v)] := by
  induction m with
  | nil => rfl
  | cons kv rest ih =>
    obtain ⟨k, w⟩ := kv
    simp only [List.map_cons, List.mem_cons, not_or] at hc
    have hk : ¬ k = c := fun h => hc.1 h.symm
    simp only [mapAssign, hk, if_false, List.cons_append]
    rw [ih hc.2]

theorem foldl_assign_nil (cols pre : List String) (hnd : (pre ++ cols).Nodup) :
    cols.foldl (fun nd col => mapAssign nd col []) (pre.map (fun k => (k, ([] : List Cell))))
      = (pre ++ cols).map (fun k => (k, ([] : List Cell))) := by
  induction cols generalizing pre with
  | nil => simp
  | cons c cs ih =>
    have hc : c ∉ pre := by
      intro h
      have := List.nodup_append.mp hnd
      exact this.2.2 h (List.mem_cons_self _ _)
    simp only [List.foldl_cons]
    rw [mapAssign_fresh _ _ _ (by simpa [List.map_map] using hc)]
    have h2 : pre.map (fun k => (k, ([] : List Cell))) ++ [(c, [])]
        = (pre ++ [c]).map (fun k => (k, ([] : List Cell))) := by simp
    rw [h2, ih (pre ++ [c]) (by simpa using hnd)]
    simp

/-! ## DropNA -/

theorem index_eq_cellAt (df : Pandas) (c : String) (i : Nat)
    (h : i < (mapIndex df.Data c).length) : (mapIndex df.Data c)[i]? = some (df.cellAt c i) := by
  unfold Pandas.cellAt
  rw [List.getElem?_eq_getElem h, List.getD_eq_getElem _ _ h]

theorem scanRow_eq (df : Pandas) (i : Nat) (cols : List String)
    (h : ∀ c ∈ cols, i < (mapIndex df.Data c).length) :
    scanRow df i cols
      = if cols.any (fun c => dropTest (df.cellAt c i)) then Scan.skip else Scan.keep := by
  induction cols with
  | nil => rfl
  | cons c cs ih =>
    have hc := h c (List.mem_cons_self _ _)
    have hcs : ∀ c ∈ cs, i < (mapIndex df.Data c).length :=
      fun k hk => h k (List.mem_cons_of_mem _ hk)
    simp only [scanRow, index_eq_cellAt df c i hc, List.any_cons]
    by_cases ht : dropTest (df.cellAt c i) = true
    · simp [ht]
    · simp only [ht, if_false, Bool.false_or, Bool.not_eq_true] at *
      rw [ih hcs]
      simp [ht]

theorem appendRow_eq (df : Pandas) (i : Nat) (cols : List String) (g : String → List Cell)
    (hsub : ∀ c ∈ cols, c ∈ df.Columns) (hnd : cols.Nodup) (hND : df.Columns.Nodup)
    (h : ∀ c ∈ cols, i < (mapIndex df.Data c).length) :
    appendRow df i cols (df.Columns.map (fun k => (k, g k)))
      = .ok (df.Columns.map (fun k => (k, if k ∈ cols then g k ++ [df.cellAt k i] else g k))) := by
  induction cols generalizing g with
  | nil => simp [appendRow]
  | cons c cs ih =>
    have hc := h c (List.mem_cons_self _ _)
    have hcC := hsub c (List.mem_cons_self _ _)
    have hcs : c ∉ cs := (List.nodup_cons.mp hnd).1
    simp only [appendRow, index_eq_cellAt df c i hc]
    rw [mapIndex_map_key g _ _ hcC, mapAssign_map_key g _ _ _ hcC hND]
    rw [ih (fun k => if k = c then g c ++ [df.cellAt c i] else g k)
      (fun k hk => hsub k (List.mem_cons_of_mem _ hk)) (List.nodup_cons.mp hnd).2
      (fun k hk => h k (List.mem_cons_of_mem _ hk))]
    congr 1
    apply List.map_congr_left
    intro k _
    by_cases hkc : k = c
    · subst hkc
      simp [hcs]
    · simp [hkc]

theorem rowLoop_eq (df : Pandas) (is : List Nat) (g : String → List Cell)
    (hND : df.Columns.Nodup)
    (h : ∀ i ∈ is, ∀ c ∈ df.Columns, i < (mapIndex df.Data c).length) :
    rowLoop df is (df.Columns.map (fun k => (k, g k)))
      = .ok (df.Columns.map
          (fun k => (k, g k ++ (is.filter df.keepsRow).map (fun i => df.cellAt k i)))) := by
  induction is generalizing g with
  | nil => simp [rowLoop]
  | cons i rest ih =>
    have hi := h i (List.mem_cons_self _ _)
    have hrest : ∀ j ∈ rest, ∀ c ∈ df.Columns, j < (mapIndex df.Data c).length :=
      fun j hj => h j (List.mem_cons_of_mem _ hj)
    simp only [rowLoop, scanRow_eq df i df.Columns hi]
    by_cases hk : df.keepsRow i = true
    · have hany : df.Columns.any (fun c => dropTest (df.cellAt c i)) = false := by
        simpa [Pandas.keepsRow] using hk
      simp only [hany, Bool.false_eq_true, if_false]
      rw [appendRow_eq df i df.Columns g (fun _ hc => hc) hND hND hi]
      simp only []
      rw [ih _ hrest]
      congr 1
      apply List.map_congr_left
      intro k hkC
      simp [hkC, List.filter_cons, hk]
    · have hany : df.Columns.any (fun c => dropTest (df.cellAt c i)) = true := by
        simpa [Pandas.keepsRow] using hk
      simp only [hany, if_true]
      rw [ih _ hrest]
      simp [List.filter_cons, hk]

/-- The table `DropNA` returns when the listed columns are distinct and long enough. -/
theorem DropNA_eq (T : Pandas) (hne : T.Columns ≠ []) (hnd : T.Columns.Nodup)
    (hlen : ∀ c ∈ T.Columns, (mapIndex T.Data c).length = T.rowCount) :
    T.DropNA = .ok ⟨T.Columns, T.Columns.map
      (fun k => (k, ((List.range T.rowCount).filter T.keepsRow).map (fun i => T.cellAt k i)))⟩ := by
  unfold Pandas.DropNA
  have hinit := foldl_assign_nil T.Columns [] (by simpa using hnd)
  simp only [List.map_nil, List.nil_append] at hinit
  rw [hinit]
  cases hC : T.Columns with
  | nil => exact absurd hC hne
  | cons c0 cs =>
    simp only []
    have hrc : T.rowCount = (mapIndex T.Data c0).length := by simp [Pandas.rowCount, hC]
    have h := rowLoop_eq T (List.range T.rowCount) (fun _ => []) hnd
      (fun i hi c hc => by rw [hlen c hc]; exact List.mem_range.mp hi)
    rw [hC] at h
    rw [← hrc, h]
    simp

theorem map_range_getD {α β : Type} (l : List α) (d : α) (f : α → β) :
    (List.range l.length).map (fun j => f (l.getD j d)) = l.map f := by
  apply List.ext_getElem
  · simp
  · intro n h1 h2
    simp only [List.length_map, List.length_range] at h1
    simp [List.getElem?_eq_getElem h1]

/-- Rows of a table whose cells are those of `T` read at the row numbers `idx`. -/
theorem rows_reindex (T R : Pandas) (idx : List Nat) (hcols : R.Columns = T.Columns)
    (hcount : R.rowCount = idx.length)
    (hcell : ∀ c ∈ T.Columns, ∀ j, j < idx.length → R.cellAt c j = T.cellAt c (idx.getD j 0)) :
    R.rows = idx.map T.row := by
  unfold Pandas.rows
  rw [hcount, ← map_range_getD idx 0 T.row]
  apply List.map_congr_left
  intro j hj
  have hj2 : j < idx.length := List.mem_range.mp hj
  unfold Pandas.row
  rw [hcols]
  apply List.map_congr_left
  intro c hc
  exact hcell c hc j hj2

theorem dropTest_isMissing (c : Cell) (h : dropTest c = true) : isMissing c = true := by
  cases c <;> simp_all [dropTest, isMissing, isFloat]

theorem keepsRow_of_noMissing (T : Pandas) (i : Nat)
    (h : (T.row i).all (fun c => !isMissing c) = true) : T.keepsRow i = true := by
  unfold Pandas.keepsRow
  rw [Bool.not_eq_true', List.any_eq_false]
  intro c hc ht
  have hm := dropTest_isMissing _ ht
  rw [List.all_eq_true] at h
  have := h (T.cellAt c i) (List.mem_map.mpr ⟨c, hc, rfl⟩)
  simp [hm] at this

theorem DropNA_rows (T : Pandas) (hne : T.Columns ≠ []) (hnd : T.Columns.Nodup)
    (hlen : ∀ c ∈ T.Columns, (mapIndex T.Data c).length = T.rowCount) :
    ∃ R, T.DropNA = .ok R ∧ R.Columns = T.Columns ∧
      R.rows = ((List.range T.rowCount).filter T.keepsRow).map T.row := by
  refine ⟨_, DropNA_eq T hne hnd hlen, rfl, ?_⟩
  refine rows_reindex T (Pandas.mk T.Columns _) _ rfl ?_ ?_
  · cases hC : T.Columns with
    | nil => exact absurd hC hne
    | cons c0 cs =>
      simp only [Pandas.rowCount]
      rw [← hC, mapIndex_map_key _ _ _ (by rw [hC]; exact List.mem_cons_self _ _)]
      simp
  · intro c hc j hj
    simp only [Pandas.cellAt]
    rw [mapIndex_map_key _ _ _ hc]
    rw [List.getD_eq_getElem _ _ (by simpa using hj), List.getD_eq_getElem _ _ hj]
    simp [Pandas.cellAt]

theorem equalLength_rowCount (T : Pandas) (h : T.EqualLength) :
    ∀ c ∈ T.Columns, (mapIndex T.Data c).length = T.rowCount := by
  obtain ⟨n, hn, _⟩ := h
  intro c hc
  cases hC : T.Columns with
  | nil => rw [hC] at hc; cases hc
  | cons c0 cs =>
    simp only [Pandas.rowCount, hC]
    rw [hn c hc, hn c0 (by rw [hC]; exact List.mem_cons_self _ _)]

/-- C1, the code at the failing input: the table whose only cell is the empty string has a
column and equal-length columns, `DropNA` returns it whole, and its cell satisfies
`isMissing`. -/
theorem C1_DropNA_keeps_blank_cell :
    blankTable.Columns ≠ [] ∧ blankTable.EqualLength ∧
      blankTable.DropNA = .ok blankTable ∧
      Cell.str "" ∈ blankTable.cells ∧ isMissing (Cell.str "") = true :=
  ⟨by decide, ⟨1, by decide, by decide⟩, by decide, by decide, by decide⟩

/-- C2 as stated fails: the table listing its one column twice has a column and equal-length
columns, yet `DropNA` returns two rows where the table has one, so the rows returned are not
a subsequence of the rows of the table. -/
theorem C2_DropNA_twice_listed_grows :
    twiceListed.Columns ≠ [] ∧ twiceListed.EqualLength ∧
      ∃ R, twiceListed.DropNA = .ok R ∧ twiceListed.rows.length < R.rows.length ∧
        ¬ R.rows.Sublist twiceListed.rows := by
  refine ⟨by decide, ⟨1, by decide, by decide⟩, ⟨["a", "a"], [("a", [.int 1, .int 1])]⟩,
    by decide, by decide, ?_⟩
  intro h
  have := h.length_le
  revert this
  decide

/-- C2, amended: for every table with at least one column, distinct column names and
equal-length columns, `DropNA` returns a table with the same column list whose rows are a
subsequence of the rows of the table (so at most as many), and among them is every row in
which no cell satisfies `isMissing`; on `df3` of `main.go` the result is row 0 alone. -/
theorem C2_DropNA_rows_subsequence (T : Pandas) (hne : T.Columns ≠ [])
    (hnd : T.Columns.Nodup) (hlen : T.EqualLength) :
    (∃ R, T.DropNA = .ok R ∧ R.Columns = T.Columns ∧
      R.rows.Sublist T.rows ∧ R.rows.length ≤ T.rows.length ∧
      (T.rows.filter (fun r => r.all (fun c => !isMissing c))).Sublist R.rows) ∧
    df3.DropNA = .ok ⟨["a", "b", "c"],
      [("a", [.str "hello"]), ("b", [.int 1]), ("c", [.int 47])]⟩ := by
  refine ⟨?_, by decide⟩
  obtain ⟨R, hR, hcols, hrows⟩ := DropNA_rows T hne hnd (equalLength_rowCount T hlen)
  have hsub : R.rows.Sublist T.rows := by
    rw [hrows]
    exact (List.filter_sublist _).map _
  refine ⟨R, hR, hcols, hsub, hsub.length_le, ?_⟩
  rw [hrows]
  unfold Pandas.rows
  rw [List.filter_map]
  apply List.Sublist.map
  apply List.monotone_filter_right
  intro i hi
  exact keepsRow_of_noMissing T i hi

/-- C2 at `df3` of `main.go`. -/
theorem C2_DropNA_rows_subsequence_witness :
    (∃ R, df3.DropNA = .ok R ∧ R.Columns = df3.Columns ∧
      R.rows.Sublist df3.rows ∧ R.rows.length ≤ df3.rows.length ∧
      (df3.rows.filter (fun r => r.all (fun c => !isMissing c))).Sublist R.rows) ∧
    df3.DropNA = .ok ⟨["a", "b", "c"],
      [("a", [.str "hello"]), ("b", [.int 1]), ("c", [.int 47])]⟩ :=
  C2_DropNA_rows_subsequence df3 (by decide) (by decide) ⟨3, by decide, by decide⟩

/-! ## The insertion sort of the library meets the contract of `sort.Slice` -/

theorem sinkInto_perm (lt : Nat → Nat → Bool) (x : Nat) (acc : List Nat) :
    (sinkInto lt x acc).Perm (x :: acc) := by
  induction acc with
  | nil => exact List.Perm.refl _
  | cons y ys ih =>
    simp only [sinkInto]
    split
    · exact ((List.Perm.cons y ih).trans (List.Perm.swap x y ys))
    · exact List.Perm.refl _

theorem foldl_sinkInto_perm (lt : Nat → Nat → Bool) (xs acc : List Nat) :
    (xs.foldl (fun acc x => sinkInto lt x acc) acc).Perm (xs.reverse ++ acc) := by
  induction xs generalizing acc with
  | nil => simp
  | cons x rest ih =>
    simp only [List.foldl_cons, List.reverse_cons, List.append_assoc, List.singleton_append]
    refine (ih _).trans ?_
    exact List.Perm.append_left _ (sinkInto_perm lt x acc)

theorem insertionSortLess_perm (lt : Nat → Nat → Bool) (xs : List Nat) :
    (insertionSortLess lt xs).Perm xs := by
  unfold insertionSortLess
  refine (List.reverse_perm _).trans ?_
  refine (foldl_sinkInto_perm lt xs []).trans ?_
  simp

theorem sinkInto_pairwise (lt : Nat → Nat → Bool) (S : List Nat) (hS : StrictWeakOn lt S)
    (x : Nat) (hx : x ∈ S) (acc : List Nat) (hacc : ∀ a ∈ acc, a ∈ S)
    (hp : acc.Pairwise (fun a b => lt a b = false)) :
    (sinkInto lt x acc).Pairwise (fun a b => lt a b = false) := by
  induction acc with
  | nil => simp [sinkInto]
  | cons y ys ih =>
    have hy : y ∈ S := hacc y (List.mem_cons_self _ _)
    have hys : ∀ a ∈ ys, a ∈ S := fun a ha => hacc a (List.mem_cons_of_mem _ ha)
    obtain ⟨hy1, hp1⟩ := List.pairwise_cons.mp hp
    simp only [sinkInto]
    by_cases hlt : lt x y = true
    · simp only [hlt, if_true]
      refine List.pairwise_cons.mpr ⟨?_, ih hys hp1⟩
      intro z hz
      rcases List.mem_cons.mp ((sinkInto_perm lt x ys).subset hz) with h | h
      · subst h
        cases hyz : lt y z with
        | false => rfl
        | true =>
          have := hS.trans z hx y hy z hx hlt hyz
          rw [hS.irrefl z hx] at this
          cases this
      · exact hy1 z h
    · simp only [hlt, if_false]
      have hlt2 : lt x y = false := by simpa using hlt
      refine List.pairwise_cons.mpr ⟨?_, hp⟩
      intro z hz
      rcases List.mem_cons.mp hz with h | h
      · rw [h]; exact hlt2
      · exact hS.negTrans x hx y hy z (hys z h) hlt2 (hy1 z h)

theorem foldl_sinkInto_pairwise (lt : Nat → Nat → Bool) (S : List Nat) (hS : StrictWeakOn lt S)
    (xs acc : List Nat) (hxs : ∀ a ∈ xs, a ∈ S) (hacc : ∀ a ∈ acc, a ∈ S)
    (hp : acc.Pairwise (fun a b => lt a b = false)) :
    (xs.foldl (fun acc x => sinkInto lt x acc) acc).Pairwise (fun a b => lt a b = false) := by
  induction xs generalizing acc with
  | nil => exact hp
  | cons x rest ih =>
    simp only [List.foldl_cons]
    have hx : x ∈ S := hxs x (List.mem_cons_self _ _)
    apply ih _ (fun a ha => hxs a (List.mem_cons_of_mem _ ha))
    · intro a ha
      rcases List.mem_cons.mp ((sinkInto_perm lt x acc).subset ha) with h | h
      · rw [h]; exact hx
      · exact hacc a h
    · exact sinkInto_pairwise lt S hS x hx acc hacc hp

/-- The insertion sort that `sort.Slice` runs on short slices meets the contract. -/
theorem insertionSortLess_contract : SortContract insertionSortLess where
  perm := insertionSortLess_perm
  sorted := by
    intro lt xs hS
    unfold insertionSortLess
    rw [List.pairwise_reverse]
    exact foldl_sinkInto_pairwise lt xs hS xs [] (fun _ h => h) (by simp) List.Pairwise.nil

/-! ## Sort_values -/

theorem take_succ_set (nv : List Cell) (i : Nat) (v : Cell) (h : i < nv.length) :
    (nv.set i v).take (i + 1) = nv.take i ++ [v] := by
  rw [List.set_eq_take_append_cons_drop, if_pos h]
  have h1 : (List.take i nv).length = i := by simp [Nat.min_eq_left (Nat.le_of_lt h)]
  rw [List.take_append_eq_append_take, h1]
  simp [List.take_take]

theorem drop_succ_set (nv : List Cell) (i k : Nat) (v : Cell) :
    (nv.set i v).drop (i + 1 + k) = nv.drop (i + 1 + k) := by
  rw [List.drop_set]
  simp
  omega

theorem fillColumn_eq (cv : List Cell) (idx : List Nat) (i : Nat) (nv : List Cell)
    (hidx : ∀ x ∈ idx, x < cv.length) (hlen : i + idx.length ≤ nv.length) :
    fillColumn cv idx i nv
      = some (nv.take i ++ idx.map (fun x => cv.getD x Cell.missing)
          ++ nv.drop (i + idx.length)) := by
  induction idx generalizing i nv with
  | nil => simp [fillColumn]
  | cons x rest ih =>
    have hx := hidx x (List.mem_cons_self _ _)
    simp only [List.length_cons] at hlen
    have hi : i < nv.length := by omega
    simp only [fillColumn, List.getElem?_eq_getElem hx, hi, if_true]
    rw [ih (i + 1) _ (fun y hy => hidx y (List.mem_cons_of_mem _ hy))
      (by simp only [List.length_set]; omega)]
    rw [take_succ_set nv i _ hi, drop_succ_set]
    have e : i + 1 + rest.length = i + (rest.length + 1) := by omega
    simp [List.getElem?_eq_getElem hx, e]

theorem placeColumn_eq (idx : List Nat) (cv : List Cell) (hlen : idx.length = cv.length)
    (hidx : ∀ x ∈ idx, x < cv.length) :
    placeColumn idx cv = some (idx.map (fun x => cv.getD x Cell.missing)) := by
  unfold placeColumn
  rw [fillColumn_eq cv idx 0 _ hidx (by simp [hlen])]
  simp [hlen]

theorem rearrange_eq (idx : List Nat) (data : List (String × List Cell))
    (hlen : ∀ kv ∈ data, kv.2.length = idx.length) (hidx : ∀ x ∈ idx, x < idx.length) :
    rearrange idx data
      = (.ok (), data.map (fun kv => (kv.1, idx.map (fun x => kv.2.getD x Cell.missing)))) := by
  induction data with
  | nil => rfl
  | cons kv rest ih =>
    obtain ⟨k, vs⟩ := kv
    have hk : vs.length = idx.length := hlen (k, vs) (List.mem_cons_self _ _)
    simp only [rearrange]
    rw [placeColumn_eq idx vs hk.symm (fun x hx => hk ▸ hidx x hx)]
    simp only []
    rw [ih (fun kv h => hlen kv (List.mem_cons_of_mem _ h))]
    simp

theorem sortedIndices_perm (sortSlice : (Nat → Nat → Bool) → List Nat → List Nat)
    (hS : SortContract sortSlice) (values : List Cell) :
    (sortedIndices sortSlice values).Perm (List.range values.length) :=
  hS.perm _ _

theorem equalLength_column (T : Pandas) (col : String) (hcol : col ∈ T.Columns)
    (h : T.EqualLength) : ∀ kv ∈ T.Data, kv.2.length = (mapIndex T.Data col).length := by
  obtain ⟨n, hn, hd⟩ := h
  intro kv hkv
  rw [hd kv hkv, hn col hcol]

/-- What `Sort_values` does on a table with equal-length columns: no panic, and every stored
sequence is read at the sorted index slice. -/
theorem Sort_values_eq (sortSlice : (Nat → Nat → Bool) → List Nat → List Nat)
    (hS : SortContract sortSlice) (T : Pandas) (col : String) (hcol : col ∈ T.Columns)
    (hlen : T.EqualLength) :
    T.Sort_values sortSlice col = (.ok (), ⟨T.Columns, T.Data.map (fun kv =>
      (kv.1, (sortedIndices sortSlice (mapIndex T.Data col)).map
        (fun x => kv.2.getD x Cell.missing)))⟩) := by
  have hp := sortedIndices_perm sortSlice hS (mapIndex T.Data col)
  have hl : (sortedIndices sortSlice (mapIndex T.Data col)).length
      = (mapIndex T.Data col).length := by simpa using hp.length_eq
  unfold Pandas.Sort_values
  rw [if_pos hcol]
  simp only []
  rw [rearrange_eq _ _ (fun kv hkv => by rw [hl]; exact equalLength_column T col hcol hlen kv hkv)
    (fun x hx => by rw [hl]; exact List.mem_range.mp (hp.subset hx))]

theorem mapIndex_mapValues (f : List Cell → List Cell) (data : List (String × List Cell))
    (c : String) :
    mapIndex (data.map (fun kv => (kv.1, f kv.2))) c
      = if c ∈ data.map Prod.fst then f (mapIndex data c) else [] := by
  induction data with
  | nil => simp [mapIndex]
  | cons kv rest ih =>
    obtain ⟨k, vs⟩ := kv
    simp only [List.map_cons, mapIndex, List.mem_cons]
    by_cases hk : k = c
    · simp [hk]
    · have hk2 : ¬ c = k := fun h => hk h.symm
      simp only [hk, hk2, if_false, false_or]
      exact ih

theorem mapIndex_of_not_key (data : List (String × List Cell)) (c : String)
    (h : c ∉ data.map Prod.fst) : mapIndex data c = [] := by
  induction data with
  | nil => rfl
  | cons kv rest ih =>
    obtain ⟨k, vs⟩ := kv
    simp only [List.map_cons, List.mem_cons, not_or] at h
    have hk : ¬ k = c := fun e => h.1 e.symm
    simp only [mapIndex, hk, if_false]
    exact ih h.2

/-- After `Sort_values` every listed column holds its old cells read at the sorted index
slice. -/
theorem Sort_values_column (sortSlice : (Nat → Nat → Bool) → List Nat → List Nat)
    (hS : SortContract sortSlice) (T : Pandas) (col : String) (hcol : col ∈ T.Columns)
    (hlen : T.EqualLength) (c : String) (hc : c ∈ T.Columns) :
    mapIndex (T.Sort_values sortSlice col).2.Data c
      = (sortedIndices sortSlice (mapIndex T.Data col)).map (fun x => T.cellAt c x) := by
  rw [Sort_values_eq sortSlice hS T col hcol hlen]
  simp only []
  rw [mapIndex_mapValues (fun vs => (sortedIndices sortSlice (mapIndex T.Data col)).map
    (fun x => vs.getD x Cell.missing))]
  by_cases hk : c ∈ T.Data.map Prod.fst
  · rw [if_pos hk]; rfl
  · rw [if_neg hk]
    have hp := sortedIndices_perm sortSlice hS (mapIndex T.Data col)
    obtain ⟨n, hn, _⟩ := hlen
    have h0 : (mapIndex T.Data col).length = 0 := by
      rw [hn col hcol, ← hn c hc, mapIndex_of_not_key _ _ hk]; rfl
    rw [h0] at hp
    have : sortedIndices sortSlice (mapIndex T.Data col) = [] := by
      simpa using hp
    rw [this]; rfl

theorem nonDecreasing_of_pairwise (l : List Cell)
    (h : l.Pairwise (fun a b => numLe a b = true)) : nonDecreasing l = true := by
  induction l with
  | nil => rfl
  | cons a rest ih =>
    cases rest with
    | nil => rfl
    | cons b rest2 =>
      obtain ⟨h1, h2⟩ := List.pairwise_cons.mp h
      simp only [nonDecreasing, Bool.and_eq_true]
      exact ⟨h1 b (List.mem_cons_self _ _), ih h2⟩

/-- A column whose cells are ranked by an integer key that `less` and `numLe` follow comes out
of the sort in non-decreasing order. -/
theorem sortedIndices_keyed (sortSlice : (Nat → Nat → Bool) → List Nat → List Nat)
    (hS : SortContract sortSlice) (values : List Cell) (key : Cell → Int)
    (hless : ∀ a ∈ values, ∀ b ∈ values, less a b = decide (key a < key b))
    (hle : ∀ a ∈ values, ∀ b ∈ values, numLe a b = decide (key a ≤ key b)) :
    ((sortedIndices sortSlice values).map (fun x => values.getD x Cell.missing)).Pairwise
      (fun a b => numLe a b = true) := by
  have hmem : ∀ x ∈ List.range values.length, values.getD x Cell.missing ∈ values := by
    intro x hx
    have hx2 := List.mem_range.mp hx
    rw [List.getD_eq_getElem _ _ hx2]
    exact List.getElem_mem hx2
  have hsw : StrictWeakOn (fun a b => less (values.getD a Cell.missing)
      (values.getD b Cell.missing)) (List.range values.length) := by
    constructor
    · intro a ha
      rw [hless _ (hmem a ha) _ (hmem a ha)]
      simp
    · intro a ha b hb c hc
      rw [hless _ (hmem a ha) _ (hmem b hb), hless _ (hmem b hb) _ (hmem c hc),
        hless _ (hmem a ha) _ (hmem c hc)]
      simp only [decide_eq_true_eq]
      omega
    · intro a ha b hb c hc
      rw [hless _ (hmem a ha) _ (hmem b hb), hless _ (hmem b hb) _ (hmem c hc),
        hless _ (hmem a ha) _ (hmem c hc)]
      simp only [decide_eq_false_iff_not]
      omega
  have hsorted := hS.sorted _ _ hsw
  have hp := sortedIndices_perm sortSlice hS values
  rw [List.pairwise_map]
  refine List.Pairwise.imp_of_mem ?_ hsorted
  intro a b ha hb hab
  have ha2 := hmem a (hp.subset ha)
  have hb2 := hmem b (hp.subset hb)
  simp only [] at hab
  rw [hless _ hb2 _ ha2] at hab
  rw [hle _ ha2 _ hb2]
  simp only [decide_eq_false_iff_not] at hab
  simp only [decide_eq_true_eq]
  omega

theorem keyed_int (values : List Cell) (h : ∀ v ∈ values, ∃ i, v = Cell.int i) :
    ∃ key : Cell → Int, (∀ a ∈ values, ∀ b ∈ values, less a b = decide (key a < key b)) ∧
      (∀ a ∈ values, ∀ b ∈ values, numLe a b = decide (key a ≤ key b)) := by
  refine ⟨fun c => match c with
    | .int i => i
    | _ => 0, ?_, ?_⟩
  · intro a ha b hb
    obtain ⟨i, rfl⟩ := h a ha
    obtain ⟨j, rfl⟩ := h b hb
    rfl
  · intro a ha b hb
    obtain ⟨i, rfl⟩ := h a ha
    obtain ⟨j, rfl⟩ := h b hb
    rfl

theorem keyed_float (values : List Cell)
    (h : ∀ v ∈ values, ∃ x, v = Cell.float x ∧ x.isNaN = false) :
    ∃ key : Cell → Int, (∀ a ∈ values, ∀ b ∈ values, less a b = decide (key a < key b)) ∧
      (∀ a ∈ values, ∀ b ∈ values, numLe a b = decide (key a ≤ key b)) := by
  refine ⟨fun c => match c with
    | .float x => x.key
    | _ => 0, ?_, ?_⟩
  · intro a ha b hb
    obtain ⟨x, rfl, hx⟩ := h a ha
    obtain ⟨y, rfl, hy⟩ := h b hb
    simp [less, F64.lt, hx, hy]
  · intro a ha b hb
    obtain ⟨x, rfl, hx⟩ := h a ha
    obtain ⟨y, rfl, hy⟩ := h b hb
    simp [numLe, F64.le, hx, hy]

/-- C3 as stated fails: on the column `[2, "x", 1]` no comparison of `less` is true, the
insertion sort that `sort.Slice` runs on three elements moves nothing, and the numeric cells
stay in the order `2, 1`. -/
theorem C3_Sort_values_mixed_column_unsorted :
    SortContract insertionSortLess ∧ "a" ∈ mixedColumn.Columns ∧ mixedColumn.EqualLength ∧
      mixedColumn.Sort_values insertionSortLess "a" = (.ok (), mixedColumn) ∧
      numericCells (mapIndex (mixedColumn.Sort_values insertionSortLess "a").2.Data "a")
        = [.int 2, .int 1] ∧
      nonDecreasing
        (numericCells (mapIndex (mixedColumn.Sort_values insertionSortLess "a").2.Data "a"))
        = false :=
  ⟨insertionSortLess_contract, by decide, ⟨3, by decide, by decide⟩, by decide, by decide,
    by decide⟩

/-- C3, amended: for every table with equal-length columns that contains column `col`, if the
cells of `col` are all Integer, or all Float and none NaN, then `Sort_values(col)` does not
fail and afterwards the numeric cells of `col`, read in row order, are non-decreasing. -/
theorem C3_Sort_values_sorted_same_tag
    (sortSlice : (Nat → Nat → Bool) → List Nat → List Nat) (hS : SortContract sortSlice)
    (T : Pandas) (col : String) (hcol : col ∈ T.Columns) (hlen : T.EqualLength)
    (htag : (∀ v ∈ mapIndex T.Data col, ∃ i, v = Cell.int i) ∨
      (∀ v ∈ mapIndex T.Data col, ∃ x, v = Cell.float x ∧ x.isNaN = false)) :
    (T.Sort_values sortSlice col).1 = .ok () ∧
      nonDecreasing (numericCells (mapIndex (T.Sort_values sortSlice col).2.Data col))
        = true := by
  refine ⟨by rw [Sort_values_eq sortSlice hS T col hcol hlen], ?_⟩
  rw [Sort_values_column sortSlice hS T col hcol hlen col hcol]
  apply nonDecreasing_of_pairwise
  apply List.Pairwise.filter
  have hkey : ∃ key : Cell → Int,
      (∀ a ∈ mapIndex T.Data col, ∀ b ∈ mapIndex T.Data col, less a b = decide (key a < key b)) ∧
      (∀ a ∈ mapIndex T.Data col, ∀ b ∈ mapIndex T.Data col,
        numLe a b = decide (key a ≤ key b)) := by
    rcases htag with h | h
    · exact keyed_int _ h
    · exact keyed_float _ h
  obtain ⟨key, h1, h2⟩ := hkey
  exact sortedIndices_keyed sortSlice hS (mapIndex T.Data col) key h1 h2

/-- C3, amended, at `df4` of `main.go` sorted by its integer column `a`. -/
theorem C3_Sort_values_sorted_same_tag_witness :
    (df4.Sort_values insertionSortLess "a").1 = .ok () ∧
      nonDecreasing (numericCells (mapIndex (df4.Sort_values insertionSortLess "a").2.Data "a"))
        = true :=
  C3_Sort_values_sorted_same_tag insertionSortLess insertionSortLess_contract df4 "a"
    (by decide) ⟨3, by decide, by decide⟩
    (Or.inl (by
      intro v hv
      have h : v = .int 3 ∨ v = .int 1 ∨ v = .int 2 := by
        simpa [df4, NewDataFrame, mapIndex] using hv
      rcases h with rfl | rfl | rfl <;> exact ⟨_, rfl⟩))

/-- C4: for every table with equal-length columns that contains column `col`,
`Sort_values(col)` does not fail and there is one rearrangement `idx` of the row numbers such
that every stored sequence, and so every listed column, becomes its old sequence read at
`idx`; the column list is unchanged and the rows are the old rows in another order. -/
theorem C4_Sort_values_permutes_rows
    (sortSlice : (Nat → Nat → Bool) → List Nat → List Nat) (hS : SortContract sortSlice)
    (T : Pandas) (col : String) (hcol : col ∈ T.Columns) (hlen : T.EqualLength) :
    ∃ idx : List Nat, idx.Perm (List.range T.rowCount) ∧
      (T.Sort_values sortSlice col).1 = .ok () ∧
      (T.Sort_values sortSlice col).2.Columns = T.Columns ∧
      (T.Sort_values sortSlice col).2.Data
        = T.Data.map (fun kv => (kv.1, idx.map (fun i => kv.2.getD i Cell.missing))) ∧
      (∀ c ∈ T.Columns,
        mapIndex (T.Sort_values sortSlice col).2.Data c = idx.map (fun i => T.cellAt c i)) ∧
      (T.Sort_values sortSlice col).2.rows.Perm T.rows := by
  have hrc := equalLength_rowCount T hlen
  have hp := sortedIndices_perm sortSlice hS (mapIndex T.Data col)
  rw [hrc col hcol] at hp
  have hcolumn := Sort_values_column sortSlice hS T col hcol hlen
  have hcols : (T.Sort_values sortSlice col).2.Columns = T.Columns := by
    rw [Sort_values_eq sortSlice hS T col hcol hlen]
  refine ⟨sortedIndices sortSlice (mapIndex T.Data col), hp,
    by rw [Sort_values_eq sortSlice hS T col hcol hlen], hcols,
    by rw [Sort_values_eq sortSlice hS T col hcol hlen], hcolumn, ?_⟩
  have hrows : (T.Sort_values sortSlice col).2.rows
      = (sortedIndices sortSlice (mapIndex T.Data col)).map T.row := by
    apply rows_reindex T _ _ hcols
    · cases hC : T.Columns with
      | nil => rw [hC] at hcol; cases hcol
      | cons c0 cs =>
        simp only [Pandas.rowCount, hcols, hC]
        rw [hcolumn c0 (by rw [hC]; exact List.mem_cons_self _ _)]
        simp
    · intro c hc j hj
      simp only [Pandas.cellAt]
      rw [hcolumn c hc]
      rw [List.getD_eq_getElem _ _ (by simpa using hj), List.getD_eq_getElem _ _ hj]
      simp [Pandas.cellAt]
  rw [hrows]
  exact hp.map T.row

/-- C4 at `df4` of `main.go` sorted by column `a`. -/
theorem C4_Sort_values_permutes_rows_witness :
    ∃ idx : List Nat, idx.Perm (List.range df4.rowCount) ∧
      (df4.Sort_values insertionSortLess "a").1 = .ok () ∧
      (df4.Sort_values insertionSortLess "a").2.Columns = df4.Columns ∧
      (df4.Sort_values insertionSortLess "a").2.Data
        = df4.Data.map (fun kv => (kv.1, idx.map (fun i => kv.2.getD i Cell.missing))) ∧
      (∀ c ∈ df4.Columns,
        mapIndex (df4.Sort_values insertionSortLess "a").2.Data c
          = idx.map (fun i => df4.cellAt c i)) ∧
      (df4.Sort_values insertionSortLess "a").2.rows.Perm df4.rows :=
  C4_Sort_values_permutes_rows insertionSortLess insertionSortLess_contract df4 "a"
    (by decide) ⟨3, by decide, by decide⟩

/-- C5: `Sort_values(columnName)` with a name that is not in the column list panics with
"Column not found" and leaves the table as it was; with a name that is in the column list
of a table with equal-length columns it does not panic. -/
theorem C5_Sort_values_checks_column
    (sortSlice : (Nat → Nat → Bool) → List Nat → List Nat) (hS : SortContract sortSlice)
    (T : Pandas) (columnName : String) :
    (columnName ∉ T.Columns →
      T.Sort_values sortSlice columnName = (.panic "Column not found", T)) ∧
    (columnName ∈ T.Columns → T.EqualLength →
      (T.Sort_values sortSlice columnName).1 = .ok ()) := by
  constructor
  · intro h
    unfold Pandas.Sort_values
    rw [if_neg h]
  · intro h hlen
    rw [Sort_values_eq sortSlice hS T columnName h hlen]

/-- C5 at `df4` of `main.go`: the absent name `z` and the listed name `a`. -/
theorem C5_Sort_values_checks_column_witness :
    df4.Sort_values insertionSortLess "z" = (.panic "Column not found", df4) ∧
      (df4.Sort_values insertionSortLess "a").1 = .ok () :=
  ⟨(C5_Sort_values_checks_column insertionSortLess insertionSortLess_contract df4 "z").1
      (by decide),
    (C5_Sort_values_checks_column insertionSortLess insertionSortLess_contract df4 "a").2
      (by decide) ⟨3, by decide, by decide⟩⟩

/-! ## FillNA and IsNA -/

theorem fill_eq_fillSpec (val : Cell) :
    (if isMissing val then defaultValue val else val) = fillSpec val := by
  cases val with
  | int i => rfl
  | float x => cases h : x.isNaN <;> simp [isMissing, defaultValue, fillSpec, h]
  | str s =>
    by_cases h1 : s = "nan"
    · simp [isMissing, defaultValue, fillSpec, h1]
    · by_cases h2 : s = ""
      · simp [isMissing, defaultValue, fillSpec, h2]
      · simp [isMissing, defaultValue, fillSpec, h1, h2]
  | bool b => rfl
  | missing => rfl

theorem fillSpec_idem (val : Cell) : fillSpec (fillSpec val) = fillSpec val := by
  cases val with
  | int i => rfl
  | float x =>
    cases h : x.isNaN
    · simp [fillSpec, h]
    · simp only [fillSpec, h, if_true]
      decide
  | str s =>
    by_cases h : s = "nan" ∨ s = ""
    · simp only [fillSpec, h, if_true]
      decide
    · simp [fillSpec, h]
  | bool b => rfl
  | missing => rfl

theorem FillNA_data (T : Pandas) :
    T.FillNA.Data = T.Data.map (fun kv => (kv.1, kv.2.map fillSpec)) := by
  unfold Pandas.FillNA
  simp only []
  apply List.map_congr_left
  intro kv _
  congr 1
  apply List.map_congr_left
  intro v _
  exact fill_eq_fillSpec v

theorem mapIndex_mapCells (f : Cell → Cell) (data : List (String × List Cell)) (c : String) :
    mapIndex (data.map (fun kv => (kv.1, kv.2.map f))) c = (mapIndex data c).map f := by
  rw [mapIndex_mapValues (fun vs => vs.map f)]
  by_cases hk : c ∈ data.map Prod.fst
  · rw [if_pos hk]
  · rw [if_neg hk, mapIndex_of_not_key _ _ hk]; rfl

/-- C6: `FillNA` is idempotent: applied twice it leaves the table in exactly the state one
application leaves it in, column list and every cell. -/
theorem C6_FillNA_idempotent (T : Pandas) : T.FillNA.FillNA = T.FillNA := by
  have h1 := FillNA_data T.FillNA
  have h2 := FillNA_data T
  have hc : T.FillNA.FillNA.Columns = T.FillNA.Columns := rfl
  have hd : T.FillNA.FillNA.Data = T.FillNA.Data := by
    rw [h1, h2, List.map_map]
    apply List.map_congr_left
    intro kv _
    simp only [Function.comp, List.map_map]
    congr 1
    apply List.map_congr_left
    intro v _
    exact fillSpec_idem v
  cases h : T.FillNA.FillNA with
  | mk c d =>
    cases h' : T.FillNA with
    | mk c' d' =>
      rw [h] at hc hd
      rw [h'] at hc hd
      simp only at hc hd
      rw [hc, hd]

/-- C7: `FillNA` leaves the column list as it was and replaces every stored sequence, and so
the sequence of every column, by the sequence of the same length in which a NaN float has
become `0.0`, the strings `"nan"` and `""` have become the empty string, and every other
cell, `nil` included, is as before; a cell that does not satisfy `isMissing` is unchanged. -/
theorem C7_FillNA_cells (T : Pandas) :
    T.FillNA.Columns = T.Columns ∧
      T.FillNA.Data = T.Data.map (fun kv => (kv.1, kv.2.map fillSpec)) ∧
      (∀ c, mapIndex T.FillNA.Data c = (mapIndex T.Data c).map fillSpec) ∧
      (∀ c, (mapIndex T.FillNA.Data c).length = (mapIndex T.Data c).length) ∧
      (∀ v, isMissing v = false → fillSpec v = v) := by
  have hc : ∀ c, mapIndex T.FillNA.Data c = (mapIndex T.Data c).map fillSpec := by
    intro c
    rw [FillNA_data, mapIndex_mapCells]
  refine ⟨rfl, FillNA_data T, hc, ?_, ?_⟩
  · intro c
    rw [hc c, List.length_map]
  · intro v hv
    rw [← fill_eq_fillSpec, hv]
    rfl

/-- C7 at the table `df3` of `main.go`. -/
theorem C7_FillNA_cells_witness :
    df3.FillNA.Columns = df3.Columns ∧
      df3.FillNA.Data = df3.Data.map (fun kv => (kv.1, kv.2.map fillSpec)) ∧
      (∀ c, mapIndex df3.FillNA.Data c = (mapIndex df3.Data c).map fillSpec) ∧
      (∀ c, (mapIndex df3.FillNA.Data c).length = (mapIndex df3.Data c).length) ∧
      (∀ v, isMissing v = false → fillSpec v = v) :=
  C7_FillNA_cells df3

/-- C8: `IsNA` returns a table with the column list of `T` whose sequences have the keys and
lengths of those of `T` and hold, at every position, the boolean `isMissing` of the cell of
`T`; `isMissing` is true exactly for `nil`, a NaN float, `"nan"` and `""`, and so false for
the integer `0` and the float `0.0`. -/
theorem C8_IsNA_mask (T : Pandas) :
    T.IsNA.Columns = T.Columns ∧
      T.IsNA.Data = T.Data.map (fun kv => (kv.1, kv.2.map (fun v => Cell.bool (isMissing v)))) ∧
      (∀ c, mapIndex T.IsNA.Data c = (mapIndex T.Data c).map (fun v => Cell.bool (isMissing v))) ∧
      (∀ c, (mapIndex T.IsNA.Data c).length = (mapIndex T.Data c).length) ∧
      (∀ v, isMissing v = true ↔
        (v = Cell.missing ∨ (∃ x, v = Cell.float x ∧ x.isNaN = true) ∨ v = Cell.str "nan" ∨
          v = Cell.str "")) ∧
      isMissing (Cell.int 0) = false ∧ isMissing (Cell.float F64.zero) = false := by
  have hc : ∀ c, mapIndex T.IsNA.Data c
      = (mapIndex T.Data c).map (fun v => Cell.bool (isMissing v)) := by
    intro c
    exact mapIndex_mapCells (fun v => Cell.bool (isMissing v)) T.Data c
  refine ⟨rfl, rfl, hc, ?_, ?_, by decide, by decide⟩
  · intro c
    rw [hc c, List.length_map]
  · intro v
    cases v <;> simp [isMissing]

/-! ## Sort_index -/

theorem strLe_iff (a b : String) : strLe a b ↔ a ≤ b := String.le_iff_toList_le.symm

theorem strLe_total : IsTotal String strLe :=
  ⟨fun a b => by simpa only [strLe_iff] using le_total a b⟩

theorem strLe_trans : IsTrans String strLe :=
  ⟨fun a b c => by simpa only [strLe_iff] using (le_trans : a ≤ b → b ≤ c → a ≤ c)⟩

theorem sortStrings_perm (xs : List String) : (sortStrings xs).Perm xs :=
  List.perm_insertionSort strLe xs

theorem sortStrings_sorted (xs : List String) : (sortStrings xs).Sorted strLe :=
  haveI := strLe_total
  haveI := strLe_trans
  List.sorted_insertionSort strLe xs

theorem sortStrings_idem (xs : List String) : sortStrings (sortStrings xs) = sortStrings xs :=
  List.Sorted.insertionSort_eq (sortStrings_sorted xs)

theorem mapIndex_mapAssign (m : List (String × List Cell)) (k c : String) (v : List Cell) :
    mapIndex (mapAssign m k v) c = if k = c then v else mapIndex m c := by
  induction m with
  | nil => simp [mapAssign, mapIndex]
  | cons kv rest ih =>
    obtain ⟨k', w⟩ := kv
    simp only [mapAssign]
    by_cases h1 : k' = k
    · subst h1
      simp only [if_true, mapIndex]
      by_cases h2 : k' = c <;> simp [h2]
    · simp only [h1, if_false, mapIndex]
      by_cases h2 : k' = c
      · subst h2
        simp [Ne.symm h1]
      · simp only [h2, if_false]
        exact ih

theorem mapIndex_foldl_assign (f : String → List Cell) (l : List String)
    (init : List (String × List Cell)) (c : String) :
    mapIndex (l.foldl (fun nd col => mapAssign nd col (f col)) init) c
      = if c ∈ l then f c else mapIndex init c := by
  induction l generalizing init with
  | nil => simp
  | cons k ks ih =>
    simp only [List.foldl_cons]
    rw [ih, mapIndex_mapAssign]
    by_cases h1 : c ∈ ks
    · simp [h1]
    · by_cases h2 : k = c
      · subst h2; simp [h1]
      · have : ¬ c = k := fun h => h2 h.symm
        simp [h1, h2, this]

theorem foldl_assign_congr (f g : String → List Cell) (l : List String)
    (init : List (String × List Cell)) (h : ∀ c ∈ l, f c = g c) :
    l.foldl (fun nd col => mapAssign nd col (f col)) init
      = l.foldl (fun nd col => mapAssign nd col (g col)) init := by
  induction l generalizing init with
  | nil => rfl
  | cons k ks ih =>
    simp only [List.foldl_cons]
    rw [h k (List.mem_cons_self _ _)]
    exact ih _ (fun c hc => h c (List.mem_cons_of_mem _ hc))

theorem Sort_index_column (T : Pandas) (c : String) (hc : c ∈ T.Columns) :
    mapIndex T.Sort_index.Data c = mapIndex T.Data c := by
  unfold Pandas.Sort_index
  simp only []
  rw [mapIndex_foldl_assign (fun col => mapIndex T.Data col)]
  rw [if_pos ((sortStrings_perm T.Columns).mem_iff.mpr hc)]

/-- C9: after `Sort_index` the column list is a rearrangement of the old one in ascending
lexicographic order, a second `Sort_index` changes nothing, and every column named in the
list has the cell sequence it had. -/
theorem C9_Sort_index_sorts_columns (T : Pandas) :
    T.Sort_index.Columns.Perm T.Columns ∧
      T.Sort_index.Columns.Sorted (fun a b => a ≤ b) ∧
      T.Sort_index.Sort_index = T.Sort_index ∧
      (∀ c, c ∈ T.Sort_index.Columns ↔ c ∈ T.Columns) ∧
      (∀ c ∈ T.Columns, mapIndex T.Sort_index.Data c = mapIndex T.Data c) := by
  refine ⟨sortStrings_perm T.Columns, ?_, ?_, fun c => (sortStrings_perm T.Columns).mem_iff,
    Sort_index_column T⟩
  · exact (sortStrings_sorted T.Columns).imp (fun h => (strLe_iff _ _).mp h)
  · have hcol : T.Sort_index.Columns = sortStrings T.Columns := rfl
    unfold Pandas.Sort_index
    simp only []
    rw [sortStrings_idem]
    congr 1
    apply foldl_assign_congr
    intro c hc
    exact Sort_index_column T c ((sortStrings_perm T.Columns).mem_iff.mp hc)

/-! ## Copy: tables in memory -/

theorem getD_append_left' {α : Type} (l l' : List α) (d : α) (i : Nat) (h : i < l.length) :
    (l ++ l').getD i d = l.getD i d := by
  simp [List.getD_eq_getElem?_getD, List.getElem?_append_left h]

theorem getD_set_ne' {α : Type} (l : List α) (d v : α) (i j : Nat) (h : j ≠ i) :
    (l.set j v).getD i d = l.getD i d := by
  simp [List.getD_eq_getElem?_getD, List.getElem?_set_ne h]

theorem readCells_congr (arrs arrs' : List (List Cell)) (s : Slice)
    (h : ∀ a, s.arr = some a → arrs'.getD a [] = arrs.getD a []) :
    readCells arrs' s = readCells arrs s := by
  unfold readCells
  cases hs : s.arr with
  | none => rfl
  | some a => simp only []; rw [h a hs]

theorem readNames_congr (arrs arrs' : List (List String)) (s : Slice)
    (h : ∀ a, s.arr = some a → arrs'.getD a [] = arrs.getD a []) :
    readNames arrs' s = readNames arrs s := by
  unfold readNames
  cases hs : s.arr with
  | none => rfl
  | some a => simp only []; rw [h a hs]

/-- Two memories that agree on what the struct at `p` refers to show the same table at `p`. -/
theorem table_congr (h h' : Heap) (p : Nat) (cols : Slice) (m : Option Nat)
    (hs : h.structs[p]? = some (cols, m)) (hs' : h'.structs[p]? = some (cols, m))
    (hn : readNames h'.nameArrs cols = readNames h.nameArrs cols)
    (he : entriesOf h' m = entriesOf h m)
    (hc : ∀ kv ∈ entriesOf h m, readCells h'.cellArrs kv.2 = readCells h.cellArrs kv.2) :
    h'.table p = h.table p := by
  unfold Heap.table
  rw [hs, hs']
  simp only []
  rw [hn, he]
  congr 1
  apply List.map_congr_left
  intro kv hkv
  rw [hc kv hkv]

theorem Apart_symm {h : Heap} {x y : Nat} (hxy : h.Apart x y) : h.Apart y x := by
  obtain ⟨cx, mx, cy, my, hx, hy, hne, hm, hn, hc⟩ := hxy
  refine ⟨cy, my, cx, mx, hy, hx, fun e => hne e.symm, ?_, ?_, ?_⟩
  · intro a ha hb; exact hm a hb ha
  · intro a ha hb; exact hn a hb ha
  · intro ky hky kx hkx a ha hb; exact hc kx hkx ky hky a hb ha

/-! ### FillNA writes only into the arrays of its receiver -/

theorem fillSlot_getD (arrs : List (List Cell)) (s : Slice) (a : Nat) (h : s.arr ≠ some a) :
    (fillSlot arrs s).getD a [] = arrs.getD a [] := by
  unfold fillSlot
  cases hs : s.arr with
  | none => rfl
  | some b =>
    simp only []
    apply getD_set_ne'
    intro e
    exact h (by rw [hs, e])

theorem foldl_fillSlot_getD (es : List (String × Slice)) (arrs : List (List Cell)) (a : Nat)
    (h : ∀ kv ∈ es, kv.2.arr ≠ some a) :
    (es.foldl (fun arrs kv => fillSlot arrs kv.2) arrs).getD a [] = arrs.getD a [] := by
  induction es generalizing arrs with
  | nil => rfl
  | cons kv rest ih =>
    simp only [List.foldl_cons]
    rw [ih _ (fun k hk => h k (List.mem_cons_of_mem _ hk))]
    exact fillSlot_getD arrs kv.2 a (h kv (List.mem_cons_self _ _))

theorem FillNA_frame (g : Heap) (x y : Nat) (hxy : g.Apart x y) :
    ∃ g2, g.FillNA x = .ok g2 ∧ g2.table y = g.table y := by
  obtain ⟨cx, mx, cy, my, hx, hy, _, _, _, hc⟩ := hxy
  unfold Heap.FillNA
  rw [hx]
  refine ⟨_, rfl, ?_⟩
  refine table_congr g (Heap.mk _ _ _ _) y cy my hy ?_ ?_ ?_ ?_
  · exact hy
  · rfl
  · rfl
  intro ky hky
  apply readCells_congr
  intro a ha
  apply foldl_fillSlot_getD
  intro kx hkx e
  exact hc kx hkx ky hky a e ha

/-! ### Sort_values writes only into the map of its receiver and into new arrays -/

theorem rearrangeH_frame (indices : List Nat) (mAddr : Nat) (es : List (String × Slice))
    (h : Heap) :
    (rearrangeH indices mAddr es h).2.structs = h.structs ∧
      (rearrangeH indices mAddr es h).2.nameArrs = h.nameArrs ∧
      (∃ extra, (rearrangeH indices mAddr es h).2.cellArrs = h.cellArrs ++ extra) ∧
      ∀ a, a ≠ mAddr → (rearrangeH indices mAddr es h).2.maps.getD a [] = h.maps.getD a [] := by
  induction es generalizing h with
  | nil => exact ⟨rfl, rfl, ⟨[], by simp [rearrangeH]⟩, fun _ _ => rfl⟩
  | cons kv rest ih =>
    obtain ⟨colName, colValues⟩ := kv
    simp only [rearrangeH]
    cases hp : placeColumn indices (readCells h.cellArrs colValues) with
    | none => exact ⟨rfl, rfl, ⟨[], by simp⟩, fun _ _ => rfl⟩
    | some newValues =>
      simp only []
      obtain ⟨h1, h2, ⟨extra, h3⟩, h4⟩ := ih
        ⟨h.cellArrs ++ [newValues], h.nameArrs,
          h.maps.set mAddr (slotAssign (h.maps.getD mAddr []) colName
            ⟨some h.cellArrs.length, 0, newValues.length⟩),
          h.structs⟩
      refine ⟨h1, h2, ⟨newValues :: extra, by rw [h3]; simp⟩, ?_⟩
      intro a ha
      rw [h4 a ha]
      exact getD_set_ne' _ _ _ _ _ (fun e => ha e.symm)

theorem Sort_values_frame (sortSlice : (Nat → Nat → Bool) → List Nat → List Nat) (g : Heap)
    (x y : Nat) (hxy : g.Apart x y) (hy : g.Valid y) (col : String) :
    (g.Sort_values sortSlice x col).2.table y = g.table y := by
  obtain ⟨cx, mx, cy, my, hx, hy1, _, hm, _, _⟩ := hxy
  obtain ⟨cy', my', hy2, _, _, hcells⟩ := hy
  rw [hy1] at hy2
  obtain ⟨rfl, rfl⟩ := Prod.mk.inj (Option.some.inj hy2)
  unfold Heap.Sort_values
  rw [hx]
  simp only []
  split
  · cases mx with
    | none => rfl
    | some mAddr =>
      simp only []
      obtain ⟨h1, h2, ⟨extra, h3⟩, h4⟩ := rearrangeH_frame
        (sortedIndices sortSlice (readCells g.cellArrs
          (slotIndex (entriesOf g (some mAddr)) col))) mAddr (entriesOf g (some mAddr)) g
      have he : entriesOf (rearrangeH (sortedIndices sortSlice (readCells g.cellArrs
          (slotIndex (entriesOf g (some mAddr)) col))) mAddr (entriesOf g (some mAddr)) g).2 my
          = entriesOf g my := by
        cases hmy : my with
        | none => rfl
        | some b =>
          simp only [entriesOf]
          apply h4
          intro e
          exact hm mAddr rfl (by rw [hmy, e])
      refine table_congr g _ y cy my hy1 ?_ ?_ he ?_
      · rw [h1]; exact hy1
      · rw [h2]
      intro ky hky
      apply readCells_congr
      intro a ha
      rw [h3]
      exact getD_append_left' _ _ _ _ (hcells ky hky a ha)
  · rfl

/-! ### Sort_index writes only into the struct of its receiver and into new objects -/

theorem Sort_index_frame (g : Heap) (x y : Nat) (hxy : g.Apart x y) (hy : g.Valid y) :
    ∃ g2, g.Sort_index x = .ok g2 ∧ g2.table y = g.table y := by
  obtain ⟨cx, mx, cy, my, hx, hy1, hne, _, _, _⟩ := hxy
  obtain ⟨cy', my', hy2, hnames, hmap, _⟩ := hy
  rw [hy1] at hy2
  obtain ⟨rfl, rfl⟩ := Prod.mk.inj (Option.some.inj hy2)
  unfold Heap.Sort_index
  rw [hx]
  refine ⟨_, rfl, ?_⟩
  refine table_congr g (Heap.mk _ _ _ _) y cy my hy1 ?_ ?_ ?_ ?_
  · simp only []
    rw [List.getElem?_set_ne hne]
    exact hy1
  · apply readNames_congr
    intro a ha
    exact getD_append_left' _ _ _ _ (hnames a ha)
  · cases hmy : my with
    | none => rfl
    | some b =>
      simp only [entriesOf]
      exact getD_append_left' _ _ _ _ (hmap b hmy)
  · intro ky _
    rfl

/-! ### Copy allocates every object of the new table -/

theorem readCells_length_le (arrs : List (List Cell)) (s : Slice) :
    (readCells arrs s).length ≤ s.len := by
  unfold readCells
  cases s.arr with
  | none => simp
  | some a => simp [window, List.length_take]

theorem readCells_fresh (arrs extra : List (List Cell)) (nv : List Cell) (len : Nat)
    (h : nv.length ≤ len) :
    readCells (arrs ++ nv :: extra) ⟨some arrs.length, 0, len⟩ = nv := by
  have hget : (arrs ++ nv :: extra)[arrs.length]? = some nv := by
    rw [List.getElem?_append_right (le_refl _)]
    simp
  simp only [readCells, window, List.getD_eq_getElem?_getD, hget, Option.getD_some,
    List.drop_zero]
  exact List.take_of_length_le h

theorem readNames_fresh (arrs : List (List String)) (nv : List String) (len : Nat)
    (h : nv.length ≤ len) :
    readNames (arrs ++ [nv]) ⟨some arrs.length, 0, len⟩ = nv := by
  simp [readNames, window, List.getD_eq_getElem?_getD, List.take_of_length_le h]

theorem readNames_length_le (arrs : List (List String)) (s : Slice) :
    (readNames arrs s).length ≤ s.len := by
  unfold readNames
  cases s.arr with
  | none => simp
  | some a => simp [window, List.length_take]

theorem copyEntries_spec (es : List (String × Slice)) (arrs : List (List Cell))
    (hok : ∀ kv ∈ es, sliceOk arrs.length kv.2) :
    (∃ extra, (copyEntries es arrs).1 = arrs ++ extra) ∧
      (copyEntries es arrs).2.map (fun kv => (kv.1, readCells (copyEntries es arrs).1 kv.2))
        = es.map (fun kv => (kv.1, readCells arrs kv.2)) ∧
      ∀ kv ∈ (copyEntries es arrs).2,
        ∃ a, kv.2.arr = some a ∧ arrs.length ≤ a ∧ a < (copyEntries es arrs).1.length := by
  induction es generalizing arrs with
  | nil => exact ⟨⟨[], by simp [copyEntries]⟩, rfl, fun kv hkv => by cases hkv⟩
  | cons e rest ih =>
    obtain ⟨col, values⟩ := e
    have hrest : ∀ kv ∈ rest, sliceOk (arrs ++ [readCells arrs values]).length kv.2 := by
      intro kv hkv a ha
      have := hok kv (List.mem_cons_of_mem _ hkv) a ha
      simp only [List.length_append, List.length_singleton]
      omega
    obtain ⟨⟨extra, h1⟩, h2, h3⟩ := ih (arrs ++ [readCells arrs values]) hrest
    simp only [copyEntries]
    have h1' : (copyEntries rest (arrs ++ [readCells arrs values])).1
        = arrs ++ readCells arrs values :: extra := by rw [h1]; simp
    refine ⟨⟨readCells arrs values :: extra, h1'⟩, ?_, ?_⟩
    · simp only [List.map_cons]
      congr 1
      · rw [h1', readCells_fresh _ _ _ _ (readCells_length_le arrs values)]
      · rw [h2]
        apply List.map_congr_left
        intro kv hkv
        congr 1
        apply readCells_congr
        intro a ha
        exact getD_append_left' _ _ _ _ (hok kv (List.mem_cons_of_mem _ hkv) a ha)
    · intro kv hkv
      rcases List.mem_cons.mp hkv with h | h
      · refine ⟨arrs.length, by rw [h], le_refl _, ?_⟩
        rw [h1']
        simp
      · obtain ⟨a, ha1, ha2, ha3⟩ := h3 kv h
        refine ⟨a, ha1, ?_, ha3⟩
        simp only [List.length_append, List.length_singleton] at ha2
        omega

theorem getElem?_append_new {α : Type} (l : List α) (v : α) : (l ++ [v])[l.length]? = some v := by
  simp

/-- `Copy` returns a table with the cells of the receiver, leaves the receiver as it was,
and the two tables share no struct, no map and no backing array. -/
theorem Copy_spec (h : Heap) (p : Nat) (hv : h.Valid p) :
    ∃ h1 q, h.Copy p = .ok (h1, q) ∧ h1.table q = h.table p ∧ h1.table p = h.table p ∧
      h1.Valid p ∧ h1.Valid q ∧ h1.Apart q p := by
  obtain ⟨cols, m, hs, hnames, hmap, hcells⟩ := hv
  obtain ⟨⟨extra, h1⟩, h2, h3⟩ := copyEntries_spec (entriesOf h m) h.cellArrs hcells
  have hp : p < h.structs.length := by
    rcases Nat.lt_or_ge p h.structs.length with hlt | hge
    · exact hlt
    · rw [List.getElem?_eq_none hge] at hs; cases hs
  unfold Heap.Copy
  rw [hs]
  simp only []
  -- the struct at `p` and everything it refers to is still there
  have hsp : (h.structs ++ [((⟨some h.nameArrs.length, 0, cols.len⟩ : Slice),
      some h.maps.length)])[p]? = some (cols, m) := by
    rw [List.getElem?_append_left hp]; exact hs
  have hsq : (h.structs ++ [((⟨some h.nameArrs.length, 0, cols.len⟩ : Slice),
      some h.maps.length)])[h.structs.length]? = some (⟨some h.nameArrs.length, 0, cols.len⟩,
        some h.maps.length) := getElem?_append_new _ _
  have hep : entriesOf (Heap.mk (copyEntries (entriesOf h m) h.cellArrs).1
      (h.nameArrs ++ [readNames h.nameArrs cols])
      (h.maps ++ [(copyEntries (entriesOf h m) h.cellArrs).2])
      (h.structs ++ [(⟨some h.nameArrs.length, 0, cols.len⟩, some h.maps.length)])) m
      = entriesOf h m := by
    cases hm : m with
    | none => rfl
    | some b =>
      simp only [entriesOf]
      exact getD_append_left' _ _ _ _ (hmap b hm)
  have heq : entriesOf (Heap.mk (copyEntries (entriesOf h m) h.cellArrs).1
      (h.nameArrs ++ [readNames h.nameArrs cols])
      (h.maps ++ [(copyEntries (entriesOf h m) h.cellArrs).2])
      (h.structs ++ [(⟨some h.nameArrs.length, 0, cols.len⟩, some h.maps.length)]))
      (some h.maps.length) = (copyEntries (entriesOf h m) h.cellArrs).2 := by
    simp [entriesOf, List.getD_eq_getElem?_getD]
  refine ⟨_, _, rfl, ?_, ?_, ?_, ?_, ?_⟩
  · -- the copy shows the table of the receiver
    unfold Heap.table
    rw [hsq, hs]
    simp only []
    rw [heq, h2, readNames_fresh _ _ _ (readNames_length_le _ _)]
  · refine table_congr h (Heap.mk _ _ _ _) p cols m hs hsp ?_ hep ?_
    · apply readNames_congr
      intro a ha
      exact getD_append_left' _ _ _ _ (hnames a ha)
    · intro kv hkv
      apply readCells_congr
      intro a ha
      simp only []
      rw [h1]
      exact getD_append_left' _ _ _ _ (hcells kv hkv a ha)
  · refine ⟨cols, m, hsp, ?_, ?_, ?_⟩
    · intro a ha
      have := hnames a ha
      simp only [List.length_append, List.length_singleton]
      omega
    · intro a ha
      have := hmap a ha
      simp only [List.length_append, List.length_singleton]
      omega
    · rw [hep]
      intro kv hkv a ha
      have := hcells kv hkv a ha
      simp only []
      rw [h1, List.length_append]
      omega
  · refine ⟨_, _, hsq, ?_, ?_, ?_⟩
    · intro a ha
      simp only [Option.some.injEq] at ha
      simp only [List.length_append, List.length_singleton]
      omega
    · intro a ha
      simp only [Option.some.injEq] at ha
      simp only [List.length_append, List.length_singleton]
      omega
    · rw [heq]
      intro kv hkv a ha
      obtain ⟨b, hb1, _, hb3⟩ := h3 kv hkv
      rw [hb1] at ha
      have hab : b = a := Option.some.inj ha
      rw [← hab]
      exact hb3
  · refine ⟨_, _, cols, m, hsq, hsp, Nat.ne_of_gt hp, ?_, ?_, ?_⟩
    · intro a ha hm
      simp only [Option.some.injEq] at ha
      have := hmap a hm
      omega
    · intro a ha hc
      simp only [Option.some.injEq] at ha
      have := hnames a hc
      omega
    · rw [heq, hep]
      intro kq hkq kp hkp a ha hb
      obtain ⟨b, hb1, hb2, _⟩ := h3 kq hkq
      rw [hb1] at ha
      have hab : b = a := Option.some.inj ha
      have := hcells kp hkp a hb
      omega

theorem Copy_value (T : Pandas) : T.Copy = T := by
  cases T with
  | mk c d =>
    simp only [Pandas.Copy, List.nil_append, List.map_id', Pandas.mk.injEq, true_and]

/-! ### In memory, FillNA, Sort_index do to their receiver what they do to the value -/

theorem fillStep_getElem? (arr : List Cell) (n j : Nat) :
    (if isMissing (arr.getD n Cell.missing) then
        arr.set n (defaultValue (arr.getD n Cell.missing)) else arr)[j]?
      = if n = j then (arr[j]?).map fillSpec else arr[j]? := by
  by_cases hn : n < arr.length
  · rw [List.getD_eq_getElem _ _ hn]
    by_cases hj : n = j
    · subst hj
      rw [if_pos rfl, List.getElem?_eq_getElem hn, Option.map_some', ← fill_eq_fillSpec]
      by_cases hm : isMissing arr[n] = true
      · simp [hm, hn]
      · simp [hm, List.getElem?_eq_getElem hn]
    · rw [if_neg hj]
      by_cases hm : isMissing arr[n] = true
      · simp [hm, List.getElem?_set_ne hj]
      · simp [hm]
  · have hn2 : arr.length ≤ n := Nat.le_of_not_lt hn
    have hset : ∀ v, arr.set n v = arr := by
      intro v
      apply List.ext_getElem?
      intro k
      by_cases hk : n = k
      · subst hk
        simp [List.getElem?_eq_none hn2, hn2]
      · rw [List.getElem?_set_ne hk]
    rw [hset, ite_self]
    by_cases hj : n = j
    · subst hj
      simp [List.getElem?_eq_none hn2]
    · rw [if_neg hj]

theorem fillLoop_getElem? (is : List Nat) (arr : List Cell) (off j : Nat) :
    (fillLoop arr off is)[j]?
      = if ∃ i ∈ is, off + i = j then (arr[j]?).map fillSpec else arr[j]? := by
  induction is generalizing arr with
  | nil => simp [fillLoop]
  | cons i rest ih =>
    simp only [fillLoop]
    rw [ih, fillStep_getElem?]
    by_cases h1 : off + i = j
    · have hex : ∃ i' ∈ i :: rest, off + i' = j := ⟨i, List.mem_cons_self _ _, h1⟩
      rw [if_pos h1, if_pos hex]
      by_cases h2 : ∃ i' ∈ rest, off + i' = j
      · rw [if_pos h2]
        cases arr[j]? with
        | none => rfl
        | some v => simp [fillSpec_idem]
      · rw [if_neg h2]
    · rw [if_neg h1]
      by_cases h2 : ∃ i' ∈ rest, off + i' = j
      · have hex : ∃ i' ∈ i :: rest, off + i' = j := by
          obtain ⟨i', hi', e⟩ := h2
          exact ⟨i', List.mem_cons_of_mem _ hi', e⟩
        rw [if_pos h2, if_pos hex]
      · have hex : ¬ ∃ i' ∈ i :: rest, off + i' = j := by
          rintro ⟨i', hi', e⟩
          rcases List.mem_cons.mp hi' with h | h
          · exact h1 (h ▸ e)
          · exact h2 ⟨i', h, e⟩
        rw [if_neg h2, if_neg hex]

theorem window_getElem? {α : Type} (l : List α) (off len k : Nat) :
    (window l off len)[k]? = if k < len then l[off + k]? else none := by
  unfold window
  rw [List.getElem?_take]
  by_cases hk : k < len
  · simp [hk]
  · simp [hk]

theorem fillSlot_length (B : List (List Cell)) (s : Slice) :
    (fillSlot B s).length = B.length := by
  unfold fillSlot
  cases s.arr with
  | none => rfl
  | some b => simp

theorem fillSlot_cell (B : List (List Cell)) (s : Slice) (hok : sliceOk B.length s)
    (a j : Nat) :
    ((fillSlot B s).getD a [])[j]?
      = if s.arr = some a ∧ s.off ≤ j ∧ j < s.off + s.len
        then ((B.getD a [])[j]?).map fillSpec else (B.getD a [])[j]? := by
  unfold fillSlot
  cases hs : s.arr with
  | none => simp
  | some b =>
    simp only []
    by_cases hab : b = a
    · subst hab
      have hb : b < B.length := hok b hs
      have hget : (B.set b (fillLoop (B.getD b []) s.off (List.range s.len))).getD b []
          = fillLoop (B.getD b []) s.off (List.range s.len) := by
        simp [List.getD_eq_getElem?_getD, hb]
      rw [hget, fillLoop_getElem?]
      have hiff : (∃ i ∈ List.range s.len, s.off + i = j) ↔ (s.off ≤ j ∧ j < s.off + s.len) := by
        constructor
        · rintro ⟨i, hi, e⟩
          have := List.mem_range.mp hi
          omega
        · rintro ⟨h1, h2⟩
          exact ⟨j - s.off, List.mem_range.mpr (by omega), by omega⟩
      by_cases hw : s.off ≤ j ∧ j < s.off + s.len
      · rw [if_pos (hiff.mpr hw), if_pos ⟨rfl, hw⟩]
      · rw [if_neg (fun h => hw (hiff.mp h)), if_neg (fun h => hw h.2)]
    · rw [getD_set_ne' _ _ _ _ _ hab]
      have : ¬ (some b = some a ∧ s.off ≤ j ∧ j < s.off + s.len) := by
        rintro ⟨e, _⟩
        exact hab (Option.some.inj e)
      rw [if_neg this]

/-- The outer loop of `FillNA` in memory, from arrays `B` that hold each cell of the arrays
`A` either as it was or filled: it keeps that, keeps filled cells filled and leaves the
window of every visited slice filled. -/
theorem foldl_fillSlot_spec (es : List (String × Slice)) (A B : List (List Cell))
    (hok : ∀ kv ∈ es, sliceOk B.length kv.2)
    (hrel : ∀ (a j : Nat), (B.getD a [])[j]? = (A.getD a [])[j]? ∨
      (B.getD a [])[j]? = ((A.getD a [])[j]?).map fillSpec) :
    (∀ (a j : Nat), ((es.foldl (fun arrs kv => fillSlot arrs kv.2) B).getD a [])[j]?
        = (A.getD a [])[j]? ∨
      ((es.foldl (fun arrs kv => fillSlot arrs kv.2) B).getD a [])[j]?
        = ((A.getD a [])[j]?).map fillSpec) ∧
    (∀ (a j : Nat), (B.getD a [])[j]? = ((A.getD a [])[j]?).map fillSpec →
      ((es.foldl (fun arrs kv => fillSlot arrs kv.2) B).getD a [])[j]?
        = ((A.getD a [])[j]?).map fillSpec) ∧
    (∀ kv ∈ es, ∀ a, kv.2.arr = some a → ∀ j, kv.2.off ≤ j → j < kv.2.off + kv.2.len →
      ((es.foldl (fun arrs kv => fillSlot arrs kv.2) B).getD a [])[j]?
        = ((A.getD a [])[j]?).map fillSpec) := by
  induction es generalizing B with
  | nil => exact ⟨hrel, fun _ _ h => h, fun kv hkv => by cases hkv⟩
  | cons e rest ih =>
    have hidem : ∀ o : Option Cell, (o.map fillSpec).map fillSpec = o.map fillSpec := by
      intro o
      cases o with
      | none => rfl
      | some v => simp [fillSpec_idem]
    have he := hok e (List.mem_cons_self _ _)
    -- one step keeps filled cells filled
    have hkeep : ∀ (a j : Nat), (B.getD a [])[j]? = ((A.getD a [])[j]?).map fillSpec →
        ((fillSlot B e.2).getD a [])[j]? = ((A.getD a [])[j]?).map fillSpec := by
      intro a j h
      rw [fillSlot_cell B e.2 he a j]
      split
      · rw [h, hidem]
      · exact h
    have hrel1 : ∀ (a j : Nat), ((fillSlot B e.2).getD a [])[j]? = (A.getD a [])[j]? ∨
        ((fillSlot B e.2).getD a [])[j]? = ((A.getD a [])[j]?).map fillSpec := by
      intro a j
      rcases hrel a j with h | h
      · rw [fillSlot_cell B e.2 he a j]
        split
        · right; rw [h]
        · left; exact h
      · right; exact hkeep a j h
    have hdone : ∀ a, e.2.arr = some a → ∀ j, e.2.off ≤ j → j < e.2.off + e.2.len →
        ((fillSlot B e.2).getD a [])[j]? = ((A.getD a [])[j]?).map fillSpec := by
      intro a ha j h1 h2
      rw [fillSlot_cell B e.2 he a j, if_pos ⟨ha, h1, h2⟩]
      rcases hrel a j with h | h
      · rw [h]
      · rw [h, hidem]
    obtain ⟨r1, r2, r3⟩ := ih (fillSlot B e.2)
      (fun kv hkv => by
        rw [fillSlot_length]
        exact hok kv (List.mem_cons_of_mem _ hkv)) hrel1
    simp only [List.foldl_cons]
    refine ⟨r1, fun a j h => r2 a j (hkeep a j h), ?_⟩
    intro kv hkv a ha j h1 h2
    rcases List.mem_cons.mp hkv with h | h
    · subst h
      exact r2 a j (hdone a ha j h1 h2)
    · exact r3 kv h a ha j h1 h2

/-- `FillNA` in memory does to the table at `p` what `FillNA` does to the value, also when
columns of the table share backing arrays. -/
theorem FillNA_refines (h : Heap) (p : Nat) (hv : h.Valid p) :
    ∃ h2, h.FillNA p = .ok h2 ∧ h2.table p = (h.table p).FillNA := by
  obtain ⟨cols, m, hs, _, _, hcells⟩ := hv
  obtain ⟨_, _, hdone⟩ := foldl_fillSlot_spec (entriesOf h m) h.cellArrs h.cellArrs hcells
    (fun _ _ => Or.inl rfl)
  unfold Heap.FillNA
  rw [hs]
  refine ⟨_, rfl, ?_⟩
  have hpure := FillNA_data (h.table p)
  have hcolsEq : (h.table p).FillNA.Columns = (h.table p).Columns := rfl
  have htab : h.table p = ⟨readNames h.nameArrs cols,
      (entriesOf h m).map (fun kv => (kv.1, readCells h.cellArrs kv.2))⟩ := by
    unfold Heap.table
    rw [hs]
  have hgoal : (h.table p).FillNA = ⟨readNames h.nameArrs cols,
      (entriesOf h m).map (fun kv => (kv.1, (readCells h.cellArrs kv.2).map fillSpec))⟩ := by
    cases hF : (h.table p).FillNA with
    | mk c d =>
      rw [hF] at hpure hcolsEq
      simp only [] at hpure hcolsEq
      rw [hpure, hcolsEq, htab]
      simp [List.map_map, Function.comp]
  rw [hgoal]
  unfold Heap.table
  rw [hs]
  simp only [Pandas.mk.injEq, true_and]
  show List.map (fun kv => (kv.1, readCells _ kv.2)) (entriesOf h m) = _
  apply List.map_congr_left
  intro kv hkv
  congr 1
  apply List.ext_getElem?
  intro k
  rw [List.getElem?_map]
  unfold readCells
  cases ha : kv.2.arr with
  | none => rfl
  | some a =>
    simp only []
    rw [window_getElem?, window_getElem?]
    by_cases hk : k < kv.2.len
    · rw [if_pos hk, if_pos hk]
      exact hdone kv hkv a ha (kv.2.off + k) (by omega) (by omega)
    · rw [if_neg hk, if_neg hk]
      rfl

theorem mapIndex_map_read (arrs : List (List Cell)) (es : List (String × Slice)) (k : String) :
    mapIndex (es.map (fun kv => (kv.1, readCells arrs kv.2))) k
      = readCells arrs (slotIndex es k) := by
  induction es with
  | nil => rfl
  | cons e rest ih =>
    obtain ⟨k', s⟩ := e
    simp only [List.map_cons, mapIndex, slotIndex]
    by_cases hk : k' = k
    · simp [hk]
    · simp only [hk, if_false]
      exact ih

theorem slotAssign_map_read (arrs : List (List Cell)) (nd : List (String × Slice))
    (k : String) (s : Slice) :
    (slotAssign nd k s).map (fun kv => (kv.1, readCells arrs kv.2))
      = mapAssign (nd.map (fun kv => (kv.1, readCells arrs kv.2))) k (readCells arrs s) := by
  induction nd with
  | nil => rfl
  | cons e rest ih =>
    obtain ⟨k', s'⟩ := e
    simp only [slotAssign, List.map_cons, mapAssign]
    by_cases hk : k' = k
    · simp [hk]
    · simp only [hk, if_false, List.map_cons]
      rw [ih]

theorem foldl_slotAssign_map_read (arrs : List (List Cell)) (es : List (String × Slice))
    (l : List String) (init : List (String × Slice)) :
    (l.foldl (fun nd col => slotAssign nd col (slotIndex es col)) init).map
        (fun kv => (kv.1, readCells arrs kv.2))
      = l.foldl (fun nd col => mapAssign nd col
          (mapIndex (es.map (fun kv => (kv.1, readCells arrs kv.2))) col))
          (init.map (fun kv => (kv.1, readCells arrs kv.2))) := by
  induction l generalizing init with
  | nil => rfl
  | cons c cs ih =>
    simp only [List.foldl_cons]
    rw [ih, slotAssign_map_read, mapIndex_map_read]

theorem struct_lt (h : Heap) (p : Nat) (st : Slice × Option Nat)
    (hs : h.structs[p]? = some st) : p < h.structs.length := by
  rcases Nat.lt_or_ge p h.structs.length with hlt | hge
  · exact hlt
  · rw [List.getElem?_eq_none hge] at hs; cases hs

/-- `Sort_index` in memory does to the table at `p` what `Sort_index` does to the value. -/
theorem Sort_index_refines (h : Heap) (p : Nat) (hv : h.Valid p) :
    ∃ h2, h.Sort_index p = .ok h2 ∧ h2.table p = (h.table p).Sort_index := by
  obtain ⟨cols, m, hs, _, _, _⟩ := hv
  have hp := struct_lt h p _ hs
  unfold Heap.Sort_index
  rw [hs]
  refine ⟨_, rfl, ?_⟩
  have htab : h.table p = ⟨readNames h.nameArrs cols,
      (entriesOf h m).map (fun kv => (kv.1, readCells h.cellArrs kv.2))⟩ := by
    unfold Heap.table
    rw [hs]
  rw [htab]
  unfold Heap.table
  simp only [List.getElem?_set_self hp]
  unfold Pandas.Sort_index
  simp only []
  rw [readNames_fresh _ _ _ (le_refl _)]
  congr 1
  have he : entriesOf (Heap.mk h.cellArrs
      (h.nameArrs ++ [sortStrings (readNames h.nameArrs cols)])
      (h.maps ++ [(sortStrings (readNames h.nameArrs cols)).foldl
        (fun nd col => slotAssign nd col (slotIndex (entriesOf h m) col)) []])
      (h.structs.set p (⟨some h.nameArrs.length, 0,
        (sortStrings (readNames h.nameArrs cols)).length⟩, some h.maps.length)))
      (some h.maps.length)
      = (sortStrings (readNames h.nameArrs cols)).foldl
        (fun nd col => slotAssign nd col (slotIndex (entriesOf h m) col)) [] := by
    simp [entriesOf, List.getD_eq_getElem?_getD]
  rw [he, foldl_slotAssign_map_read]
  rfl

theorem slotAssign_middle (done rest : List (String × Slice)) (k : String) (s new : Slice)
    (hk : k ∉ done.map Prod.fst) :
    slotAssign (done ++ (k, s) :: rest) k new = done ++ (k, new) :: rest := by
  induction done with
  | nil => simp [slotAssign]
  | cons e d ih =>
    obtain ⟨k', s'⟩ := e
    simp only [List.map_cons, List.mem_cons, not_or] at hk
    have hne : ¬ k' = k := fun e => hk.1 e.symm
    rw [List.cons_append, List.cons_append]
    simp only [slotAssign, hne, if_false]
    rw [ih hk.2]

theorem map_read_append_one (arrs : List (List Cell)) (nv : List Cell)
    (es : List (String × Slice)) (hok : ∀ kv ∈ es, sliceOk arrs.length kv.2) :
    es.map (fun kv => (kv.1, readCells (arrs ++ [nv]) kv.2))
      = es.map (fun kv => (kv.1, readCells arrs kv.2)) := by
  apply List.map_congr_left
  intro kv hkv
  congr 1
  apply readCells_congr
  intro a ha
  exact getD_append_left' _ _ _ _ (hok kv hkv a ha)

/-- The outer loop of `Sort_values` in memory against the loop on values, from a map whose
entries `done` have been visited and whose entries `rest` are still to visit. -/
theorem rearrangeH_refines (indices : List Nat) (mAddr : Nat) (rest : List (String × Slice))
    (g : Heap) (done : List (String × Slice)) (hm : mAddr < g.maps.length)
    (hmap : g.maps.getD mAddr [] = done ++ rest)
    (hnd : ((done ++ rest).map Prod.fst).Nodup)
    (hok : ∀ kv ∈ done ++ rest, sliceOk g.cellArrs.length kv.2) :
    (rearrangeH indices mAddr rest g).1
        = (rearrange indices (rest.map (fun kv => (kv.1, readCells g.cellArrs kv.2)))).1 ∧
      ((rearrangeH indices mAddr rest g).2.maps.getD mAddr []).map
          (fun kv => (kv.1, readCells (rearrangeH indices mAddr rest g).2.cellArrs kv.2))
        = done.map (fun kv => (kv.1, readCells g.cellArrs kv.2))
          ++ (rearrange indices (rest.map (fun kv => (kv.1, readCells g.cellArrs kv.2)))).2 := by
  induction rest generalizing g done with
  | nil =>
    simp only [rearrangeH, rearrange, List.map_nil, List.append_nil, true_and]
    rw [hmap, List.append_nil]
  | cons e rest ih =>
    obtain ⟨k, s⟩ := e
    simp only [rearrangeH, rearrange, List.map_cons]
    cases hp : placeColumn indices (readCells g.cellArrs s) with
    | none =>
      simp only [true_and]
      rw [hmap]
      simp
    | some nv =>
      simp only []
      have hk : k ∉ done.map Prod.fst := by
        intro hmem
        rw [List.map_append, List.map_cons] at hnd
        have := (List.nodup_append.mp hnd).2.2 hmem (List.mem_cons_self _ _)
        exact this
      have hmap1 : (g.maps.set mAddr (slotAssign (g.maps.getD mAddr []) k
          ⟨some g.cellArrs.length, 0, nv.length⟩)).getD mAddr []
          = (done ++ [(k, ⟨some g.cellArrs.length, 0, nv.length⟩)]) ++ rest := by
        rw [hmap, slotAssign_middle done rest k s _ hk]
        simp [List.getD_eq_getElem?_getD, hm]
      have hok1 : ∀ kv ∈ (done ++ [(k, (⟨some g.cellArrs.length, 0, nv.length⟩ : Slice))]) ++ rest,
          sliceOk (g.cellArrs ++ [nv]).length kv.2 := by
        intro kv hkv a ha
        simp only [List.length_append, List.length_singleton]
        simp only [List.mem_append, List.mem_singleton] at hkv
        rcases hkv with (h | h) | h
        · have := hok kv (List.mem_append_left _ h) a ha
          omega
        · rw [h] at ha
          have := Option.some.inj ha
          omega
        · have := hok kv (List.mem_append_right _ (List.mem_cons_of_mem _ h)) a ha
          omega
      have hnd1 : (((done ++ [(k, (⟨some g.cellArrs.length, 0, nv.length⟩ : Slice))]) ++ rest).map
          Prod.fst).Nodup := by
        simpa using hnd
      obtain ⟨i1, i2⟩ := ih
        ⟨g.cellArrs ++ [nv], g.nameArrs,
          g.maps.set mAddr (slotAssign (g.maps.getD mAddr []) k
            ⟨some g.cellArrs.length, 0, nv.length⟩),
          g.structs⟩
        (done ++ [(k, ⟨some g.cellArrs.length, 0, nv.length⟩)])
        (by simpa using hm) hmap1 hnd1 hok1
      simp only [] at i1 i2
      have hrest : rest.map (fun kv => (kv.1, readCells (g.cellArrs ++ [nv]) kv.2))
          = rest.map (fun kv => (kv.1, readCells g.cellArrs kv.2)) :=
        map_read_append_one _ _ _
          (fun kv hkv => hok kv (List.mem_append_right _ (List.mem_cons_of_mem _ hkv)))
      have hdone : done.map (fun kv => (kv.1, readCells (g.cellArrs ++ [nv]) kv.2))
          = done.map (fun kv => (kv.1, readCells g.cellArrs kv.2)) :=
        map_read_append_one _ _ _ (fun kv hkv => hok kv (List.mem_append_left _ hkv))
      rw [hrest] at i1 i2
      refine ⟨i1, ?_⟩
      rw [i2, List.map_append, hdone]
      simp only [List.map_cons, List.map_nil, List.append_assoc, List.singleton_append]
      rw [readCells_fresh g.cellArrs [] nv nv.length (le_refl _)]

/-- `Sort_values` in memory does to the table at `p` what `Sort_values` does to the value,
outcome and table, when the keys of the map are distinct, as the keys of a Go map are. -/
theorem Sort_values_refines (sortSlice : (Nat → Nat → Bool) → List Nat → List Nat) (h : Heap)
    (p : Nat) (cols : Slice) (m : Option Nat) (hs : h.structs[p]? = some (cols, m))
    (hv : h.Valid p) (hkeys : ((entriesOf h m).map Prod.fst).Nodup) (col : String) :
    (h.Sort_values sortSlice p col).1 = ((h.table p).Sort_values sortSlice col).1 ∧
      (h.Sort_values sortSlice p col).2.table p
        = ((h.table p).Sort_values sortSlice col).2 := by
  obtain ⟨cols', m', hs', _, hmap, hcells⟩ := hv
  rw [hs] at hs'
  obtain ⟨rfl, rfl⟩ := Prod.mk.inj (Option.some.inj hs')
  have htab : h.table p = ⟨readNames h.nameArrs cols,
      (entriesOf h m).map (fun kv => (kv.1, readCells h.cellArrs kv.2))⟩ := by
    unfold Heap.table
    rw [hs]
  unfold Heap.Sort_values Pandas.Sort_values
  rw [hs, htab]
  simp only []
  by_cases hcol : col ∈ readNames h.nameArrs cols
  · rw [if_pos hcol, if_pos hcol]
    cases hm : m with
    | none =>
      subst hm
      simp only [entriesOf, List.map_nil, rearrange, true_and]
      unfold Heap.table
      rw [hs]
      rfl
    | some mAddr =>
      subst hm
      simp only []
      rw [mapIndex_map_read]
      have hlt := hmap mAddr rfl
      obtain ⟨r1, r2⟩ := rearrangeH_refines
        (sortedIndices sortSlice (readCells h.cellArrs (slotIndex (entriesOf h (some mAddr)) col)))
        mAddr (entriesOf h (some mAddr)) h [] hlt rfl hkeys hcells
      obtain ⟨f1, f2, _, _⟩ := rearrangeH_frame
        (sortedIndices sortSlice (readCells h.cellArrs (slotIndex (entriesOf h (some mAddr)) col)))
        mAddr (entriesOf h (some mAddr)) h
      refine ⟨r1, ?_⟩
      unfold Heap.table
      rw [f1, hs]
      simp only [f2, List.map_nil, List.nil_append] at r2 ⊢
      congr 1
  · rw [if_neg hcol, if_neg hcol]
    refine ⟨rfl, ?_⟩
    simp only []
    exact htab

/-! ### Copy shares nothing -/

theorem heap3_valid : heap3.Valid 0 := by
  refine ⟨⟨some 0, 0, 3⟩, some 0, rfl, ?_, ?_, ?_⟩
  · intro a ha
    cases ha
    decide
  · intro a ha
    cases ha
    decide
  · intro kv hkv a ha
    have h : kv = ("a", ⟨some 0, 0, 3⟩) ∨ kv = ("b", ⟨some 1, 0, 3⟩) ∨
        kv = ("c", ⟨some 2, 0, 3⟩) := by
      simpa [entriesOf, heap3] using hkv
    rcases h with rfl | rfl | rfl <;> cases ha <;> decide

/-- In the memory that holds `df3`, `Copy` puts the new struct at address 1; `FillNA`,
`Sort_values` and `Sort_index` on the copy change the table at address 1 as the operations on
values say, and the table at address 0 is still `df3`. -/
theorem heap3_copy_then_mutate :
    ∃ h1, heap3.Copy 0 = .ok (h1, 1) ∧ h1.table 1 = df3 ∧
      (∃ h2, h1.FillNA 1 = .ok h2 ∧ h2.table 1 = df3.FillNA ∧ h2.table 1 ≠ df3 ∧
        h2.table 0 = df3) ∧
      ((h1.Sort_values insertionSortLess 1 "c").2.table 1
          = (df3.Sort_values insertionSortLess "c").2 ∧
        (h1.Sort_values insertionSortLess 1 "c").2.table 1 ≠ df3 ∧
        (h1.Sort_values insertionSortLess 1 "c").2.table 0 = df3) ∧
      (∃ h2, h1.Sort_index 1 = .ok h2 ∧ h2.table 1 = df3.Sort_index ∧ h2.table 0 = df3) :=
  ⟨_, rfl, by decide, ⟨_, rfl, by decide, by decide, by decide⟩,
    ⟨by decide, by decide, by decide⟩, ⟨_, rfl, by decide, by decide⟩⟩

/-- C10: for every table `T`, held in memory at address `p`, `Copy` returns a table at a new
address `q` with the column list of `T` and the cell sequence of `T` under every key, and
leaves `T` as it was; `FillNA`, `Sort_values` and `Sort_index` applied to the copy leave the
column list and every cell of `T` unchanged, and applied to `T` they leave the copy
unchanged. -/
theorem C10_Copy_shares_nothing (sortSlice : (Nat → Nat → Bool) → List Nat → List Nat)
    (h : Heap) (p : Nat) (hv : h.Valid p) :
    ∃ h1 q, h.Copy p = .ok (h1, q) ∧
      h1.table q = (h.table p).Copy ∧
      (h1.table q).Columns = (h.table p).Columns ∧
      (h1.table q).Data = (h.table p).Data ∧
      h1.table p = h.table p ∧
      (∃ h2, h1.FillNA q = .ok h2 ∧ h2.table p = h.table p) ∧
      (∀ col, (h1.Sort_values sortSlice q col).2.table p = h.table p) ∧
      (∃ h2, h1.Sort_index q = .ok h2 ∧ h2.table p = h.table p) ∧
      (∃ h2, h1.FillNA p = .ok h2 ∧ h2.table q = h1.table q) ∧
      (∀ col, (h1.Sort_values sortSlice p col).2.table q = h1.table q) ∧
      (∃ h2, h1.Sort_index p = .ok h2 ∧ h2.table q = h1.table q) := by
  obtain ⟨h1, q, hcopy, hq, hp, hvp, hvq, hapart⟩ := Copy_spec h p hv
  refine ⟨h1, q, hcopy, by rw [hq, Copy_value], by rw [hq], by rw [hq], hp, ?_, ?_, ?_, ?_, ?_, ?_⟩
  · obtain ⟨h2, e1, e2⟩ := FillNA_frame h1 q p hapart
    exact ⟨h2, e1, by rw [e2, hp]⟩
  · intro col
    rw [Sort_values_frame sortSlice h1 q p hapart hvp col, hp]
  · obtain ⟨h2, e1, e2⟩ := Sort_index_frame h1 q p hapart hvp
    exact ⟨h2, e1, by rw [e2, hp]⟩
  · exact FillNA_frame h1 p q (Apart_symm hapart)
  · intro col
    exact Sort_values_frame sortSlice h1 p q (Apart_symm hapart) hvq col
  · exact Sort_index_frame h1 p q (Apart_symm hapart) hvq

/-- C10 at the memory that holds `df3` of `main.go`. -/
theorem C10_Copy_shares_nothing_witness :
    ∃ h1 q, heap3.Copy 0 = .ok (h1, q) ∧
      h1.table q = (heap3.table 0).Copy ∧
      (h1.table q).Columns = (heap3.table 0).Columns ∧
      (h1.table q).Data = (heap3.table 0).Data ∧
      h1.table 0 = heap3.table 0 ∧
      (∃ h2, h1.FillNA q = .ok h2 ∧ h2.table 0 = heap3.table 0) ∧
      (∀ col, (h1.Sort_values insertionSortLess q col).2.table 0 = heap3.table 0) ∧
      (∃ h2, h1.Sort_index q = .ok h2 ∧ h2.table 0 = heap3.table 0) ∧
      (∃ h2, h1.FillNA 0 = .ok h2 ∧ h2.table q = h1.table q) ∧
      (∀ col, (h1.Sort_values insertionSortLess 0 col).2.table q = h1.table q) ∧
      (∃ h2, h1.Sort_index 0 = .ok h2 ∧ h2.table q = h1.table q) :=
  C10_Copy_shares_nothing insertionSortLess heap3 0 heap3_valid

/-! ## GetItemSlice -/

theorem sliceLoop_ok (start stop : Int) (n : Nat) (data : List (String × List Cell))
    (hlen : ∀ kv ∈ data, kv.2.length = n)
    (hin : ¬ (start < 0 ∨ stop > (n : Int) ∨ start > stop)) :
    sliceLoop start stop data
      = .ok (data.map (fun kv => (kv.1, window kv.2 start.toNat (stop.toNat - start.toNat)))) := by
  induction data with
  | nil => rfl
  | cons kv rest ih =>
    obtain ⟨col, values⟩ := kv
    have hv : values.length = n := hlen (col, values) (List.mem_cons_self _ _)
    simp only [sliceLoop, hv, hin, if_false, List.map_cons]
    rw [ih (fun kv h => hlen kv (List.mem_cons_of_mem _ h))]

theorem sliceLoop_panic (start stop : Int) (n : Nat) (data : List (String × List Cell))
    (hne : data ≠ []) (hlen : ∀ kv ∈ data, kv.2.length = n)
    (hout : start < 0 ∨ stop > (n : Int) ∨ start > stop) :
    sliceLoop start stop data = .panic "index out of range" := by
  cases data with
  | nil => exact absurd rfl hne
  | cons kv rest =>
    obtain ⟨col, values⟩ := kv
    have hv : values.length = n := hlen (col, values) (List.mem_cons_self _ _)
    simp only [sliceLoop, hv, hout, if_true]

theorem window_length {α : Type} (l : List α) (off len : Nat) (h : off + len ≤ l.length) :
    (window l off len).length = len := by
  simp only [window, List.length_take, List.length_drop]
  omega

theorem window_eq_rows (l : List Cell) (off len : Nat) (h : off + len ≤ l.length) :
    window l off len = (List.range len).map (fun j => l.getD (off + j) Cell.missing) := by
  apply List.ext_getElem?
  intro k
  rw [window_getElem?, List.getElem?_map]
  by_cases hk : k < len
  · rw [if_pos hk, List.getElem?_range hk]
    have : off + k < l.length := by omega
    simp [List.getD_eq_getElem?_getD, List.getElem?_eq_getElem this]
  · rw [if_neg hk, List.getElem?_eq_none (by simpa using hk)]
    rfl

/-- What `GetItemSlice` returns on a table whose stored sequences all have length `n`. -/
theorem GetItemSlice_ok (T : Pandas) (n : Nat) (start stop : Int)
    (hlen : ∀ kv ∈ T.Data, kv.2.length = n)
    (hin : ¬ (start < 0 ∨ stop > (n : Int) ∨ start > stop)) :
    T.GetItemSlice start stop = .ok ⟨T.Columns,
      T.Data.map (fun kv => (kv.1, window kv.2 start.toNat (stop.toNat - start.toNat)))⟩ := by
  unfold Pandas.GetItemSlice
  rw [sliceLoop_ok start stop n T.Data hlen hin]

theorem sliceEntries_panic (start stop : Int) (n : Nat) (es : List (String × Slice))
    (arrs : List (List Cell)) (hne : es ≠ []) (hlen : ∀ kv ∈ es, kv.2.len = n)
    (hout : start < 0 ∨ stop > (n : Int) ∨ start > stop) :
    sliceEntries start stop es arrs = (.panic "index out of range", arrs) := by
  cases es with
  | nil => exact absurd rfl hne
  | cons kv rest =>
    obtain ⟨col, values⟩ := kv
    have hv : values.len = n := hlen (col, values) (List.mem_cons_self _ _)
    simp only [sliceEntries, hv, hout, if_true]

theorem window_length_le {α : Type} (l : List α) (off len : Nat) :
    (window l off len).length ≤ len := by
  simp only [window, List.length_take]
  omega

theorem sliceEntries_ok (start stop : Int) (n : Nat) (es : List (String × Slice))
    (arrs : List (List Cell)) (hok : ∀ kv ∈ es, sliceOk arrs.length kv.2)
    (hlen : ∀ kv ∈ es, kv.2.len = n)
    (hin : ¬ (start < 0 ∨ stop > (n : Int) ∨ start > stop)) :
    ∃ extra slots, sliceEntries start stop es arrs = (.ok slots, arrs ++ extra) ∧
      slots.map (fun kv => (kv.1, readCells (arrs ++ extra) kv.2))
        = es.map (fun kv => (kv.1,
            window (readCells arrs kv.2) start.toNat (stop.toNat - start.toNat))) ∧
      ∀ kv ∈ slots, sliceOk (arrs ++ extra).length kv.2 := by
  induction es generalizing arrs with
  | nil => exact ⟨[], [], by simp [sliceEntries], rfl, fun kv hkv => by cases hkv⟩
  | cons e rest ih =>
    obtain ⟨col, values⟩ := e
    have hv : values.len = n := hlen (col, values) (List.mem_cons_self _ _)
    have hrest : ∀ kv ∈ rest, sliceOk (arrs ++
        [window (readCells arrs values) start.toNat (stop.toNat - start.toNat)]).length kv.2 := by
      intro kv hkv a ha
      have := hok kv (List.mem_cons_of_mem _ hkv) a ha
      simp only [List.length_append, List.length_singleton]
      omega
    obtain ⟨extra, slots, h1, h2, h3⟩ := ih
      (arrs ++ [window (readCells arrs values) start.toNat (stop.toNat - start.toNat)]) hrest
      (fun kv hkv => hlen kv (List.mem_cons_of_mem _ hkv))
    have happ : (arrs ++ [window (readCells arrs values) start.toNat (stop.toNat - start.toNat)])
        ++ extra
        = arrs ++ window (readCells arrs values) start.toNat (stop.toNat - start.toNat) :: extra := by
      simp
    refine ⟨window (readCells arrs values) start.toNat (stop.toNat - start.toNat) :: extra,
      (col, ⟨some arrs.length, 0, stop.toNat - start.toNat⟩) :: slots, ?_, ?_, ?_⟩
    · simp only [sliceEntries, hv, hin, if_false, h1]
      rw [happ]
    · simp only [List.map_cons]
      congr 1
      · rw [readCells_fresh _ _ _ _ (window_length_le _ _ _)]
      · rw [← happ, h2]
        apply List.map_congr_left
        intro kv hkv
        congr 2
        apply readCells_congr
        intro a ha
        exact getD_append_left' _ _ _ _ (hok kv (List.mem_cons_of_mem _ hkv) a ha)
    · intro kv hkv a ha
      rcases List.mem_cons.mp hkv with h | h
      · rw [h] at ha
        have := Option.some.inj ha
        simp only [List.length_append, List.length_cons]
        omega
      · rw [← happ]
        exact h3 kv h a ha

theorem table_eq (h : Heap) (p : Nat) (cols : Slice) (m : Option Nat)
    (hs : h.structs[p]? = some (cols, m)) :
    h.table p = ⟨readNames h.nameArrs cols,
      (entriesOf h m).map (fun kv => (kv.1, readCells h.cellArrs kv.2))⟩ := by
  unfold Heap.table
  rw [hs]

/-- `GetItemSlice` in memory, on a table whose stored sequences all have length `n`: it
panics when the bounds are wrong and otherwise returns, at a new address, the table that
`GetItemSlice` on values returns; either way the receiver is as it was. -/
theorem GetItemSlice_refines (h : Heap) (p n : Nat) (start stop : Int)
    (hv : h.Valid p) (hb : h.InBounds p) (hne : (h.table p).Data ≠ [])
    (hlen : ∀ kv ∈ (h.table p).Data, kv.2.length = n) :
    (h.GetItemSlice p start stop).2.table p = h.table p ∧
      ((start < 0 ∨ stop > (n : Int) ∨ start > stop) →
        (h.GetItemSlice p start stop).1 = .panic "index out of range") ∧
      (¬ (start < 0 ∨ stop > (n : Int) ∨ start > stop) →
        ∃ q, (h.GetItemSlice p start stop).1 = .ok q ∧
          (h.table p).GetItemSlice start stop
            = .ok ((h.GetItemSlice p start stop).2.table q)) := by
  obtain ⟨cols, m, hs, hnames, hmap, hcells⟩ := hv
  have htab := table_eq h p cols m hs
  have hb2 := hb cols m hs
  have hes : ∀ kv ∈ entriesOf h m, kv.2.len = n := by
    intro kv hkv
    rw [← hb2 kv hkv]
    have hmem : (kv.1, readCells h.cellArrs kv.2) ∈ (h.table p).Data := by
      rw [htab]
      exact List.mem_map.mpr ⟨kv, hkv, rfl⟩
    exact hlen _ hmem
  have hene : entriesOf h m ≠ [] := by
    intro e
    apply hne
    rw [htab, e]
    rfl
  have hp := struct_lt h p _ hs
  by_cases hc : start < 0 ∨ stop > (n : Int) ∨ start > stop
  · have hpanic := sliceEntries_panic start stop n (entriesOf h m) h.cellArrs hene hes hc
    have hres : h.GetItemSlice p start stop = (.panic "index out of range", h) := by
      unfold Heap.GetItemSlice
      rw [hs]
      simp only [hpanic]
    rw [hres]
    exact ⟨rfl, fun _ => rfl, fun hn => absurd hc hn⟩
  · obtain ⟨extra, slots, h1, h2, h3⟩ :=
      sliceEntries_ok start stop n (entriesOf h m) h.cellArrs hcells hes hc
    have hres : h.GetItemSlice p start stop = (.ok h.structs.length,
        ⟨h.cellArrs ++ extra, h.nameArrs, h.maps ++ [slots],
          h.structs ++ [(cols, some h.maps.length)]⟩) := by
      unfold Heap.GetItemSlice
      rw [hs]
      simp only [h1]
    rw [hres]
    refine ⟨?_, fun hy => absurd hy hc, fun _ => ⟨h.structs.length, rfl, ?_⟩⟩
    · refine table_congr h (Heap.mk _ _ _ _) p cols m hs ?_ rfl ?_ ?_
      · simp only []
        rw [List.getElem?_append_left hp]
        exact hs
      · cases hm : m with
        | none => rfl
        | some b =>
          simp only [entriesOf]
          exact getD_append_left' _ _ _ _ (hmap b hm)
      · intro kv hkv
        apply readCells_congr
        intro a ha
        exact getD_append_left' _ _ _ _ (hcells kv hkv a ha)
    · have hq : (h.structs ++ [(cols, some h.maps.length)])[h.structs.length]?
          = some (cols, some h.maps.length) := getElem?_append_new _ _
      rw [table_eq (Heap.mk (h.cellArrs ++ extra) h.nameArrs (h.maps ++ [slots])
        (h.structs ++ [(cols, some h.maps.length)])) h.structs.length cols
        (some h.maps.length) hq]
      have he : entriesOf (Heap.mk (h.cellArrs ++ extra) h.nameArrs (h.maps ++ [slots])
          (h.structs ++ [(cols, some h.maps.length)])) (some h.maps.length) = slots := by
        simp [entriesOf, List.getD_eq_getElem?_getD]
      rw [he]
      simp only []
      rw [h2]
      rw [GetItemSlice_ok (h.table p) n start stop hlen hc, htab]
      simp [List.map_map, Function.comp]

/-- C11: for every table with at least one stored column and all stored columns of length
`n`, `GetItemSlice(start, end)` panics with "index out of range" exactly when `start < 0`,
`end > n` or `start > end`; otherwise it returns a table with the same column list in which
every column holds the cells of rows `start .. end-1` in order, `end - start` of them. Held in
memory, the call has that outcome, the new table stands at a new address and the receiver is
unchanged. -/
theorem C11_GetItemSlice_bounds (T : Pandas) (n : Nat) (start stop : Int)
    (hne : T.Data ≠ []) (hlen : ∀ kv ∈ T.Data, kv.2.length = n) :
    (T.GetItemSlice start stop = .panic "index out of range"
        ↔ (start < 0 ∨ stop > (n : Int) ∨ start > stop)) ∧
      (¬ (start < 0 ∨ stop > (n : Int) ∨ start > stop) →
        T.GetItemSlice start stop = .ok ⟨T.Columns, T.Data.map (fun kv => (kv.1,
          (List.range (stop.toNat - start.toNat)).map
            (fun j => kv.2.getD (start.toNat + j) Cell.missing)))⟩) ∧
      (∀ (h : Heap) (p : Nat), h.Valid p → h.InBounds p → h.table p = T →
        (h.GetItemSlice p start stop).2.table p = T ∧
        ((start < 0 ∨ stop > (n : Int) ∨ start > stop) →
          (h.GetItemSlice p start stop).1 = .panic "index out of range") ∧
        (¬ (start < 0 ∨ stop > (n : Int) ∨ start > stop) →
          ∃ q, (h.GetItemSlice p start stop).1 = .ok q ∧
            T.GetItemSlice start stop = .ok ((h.GetItemSlice p start stop).2.table q))) := by
  have hokay : ¬ (start < 0 ∨ stop > (n : Int) ∨ start > stop) →
      T.GetItemSlice start stop = .ok ⟨T.Columns, T.Data.map (fun kv => (kv.1,
        (List.range (stop.toNat - start.toNat)).map
          (fun j => kv.2.getD (start.toNat + j) Cell.missing)))⟩ := by
    intro hc
    rw [GetItemSlice_ok T n start stop hlen hc]
    congr 2
    apply List.map_congr_left
    intro kv hkv
    congr 1
    apply window_eq_rows
    rw [hlen kv hkv]
    omega
  refine ⟨⟨?_, ?_⟩, hokay, ?_⟩
  · intro hp
    by_contra hc
    rw [hokay hc] at hp
    cases hp
  · intro hc
    unfold Pandas.GetItemSlice
    rw [sliceLoop_panic start stop n T.Data hne hlen hc]
  · intro h p hv hb hT
    subst hT
    exact GetItemSlice_refines h p n start stop hv hb hne hlen

/-- C11 at `df3` of `main.go`, rows 1 and 2. -/
theorem C11_GetItemSlice_bounds_witness :
    (df3.GetItemSlice 1 3 = .panic "index out of range"
        ↔ ((1 : Int) < 0 ∨ (3 : Int) > ((3 : Nat) : Int) ∨ (1 : Int) > 3)) ∧
      (¬ ((1 : Int) < 0 ∨ (3 : Int) > ((3 : Nat) : Int) ∨ (1 : Int) > 3) →
        df3.GetItemSlice 1 3 = .ok ⟨df3.Columns, df3.Data.map (fun kv => (kv.1,
          (List.range ((3 : Int).toNat - (1 : Int).toNat)).map
            (fun j => kv.2.getD ((1 : Int).toNat + j) Cell.missing)))⟩) ∧
      (∀ (h : Heap) (p : Nat), h.Valid p → h.InBounds p → h.table p = df3 →
        (h.GetItemSlice p 1 3).2.table p = df3 ∧
        (((1 : Int) < 0 ∨ (3 : Int) > ((3 : Nat) : Int) ∨ (1 : Int) > 3) →
          (h.GetItemSlice p 1 3).1 = .panic "index out of range") ∧
        (¬ ((1 : Int) < 0 ∨ (3 : Int) > ((3 : Nat) : Int) ∨ (1 : Int) > 3) →
          ∃ q, (h.GetItemSlice p 1 3).1 = .ok q ∧
            df3.GetItemSlice 1 3 = .ok ((h.GetItemSlice p 1 3).2.table q))) :=
  C11_GetItemSlice_bounds df3 3 1 3 (by decide) (by decide)

/-- In the memory that holds `df3`, `GetItemSlice(1, 3)` puts the table of rows 1 and 2 at
address 1 and leaves `df3` at address 0; `GetItemSlice(1, 4)` panics. -/
theorem heap3_GetItemSlice :
    heap3.InBounds 0 ∧ (heap3.GetItemSlice 0 1 3).1 = .ok 1 ∧
      df3.GetItemSlice 1 3 = .ok ((heap3.GetItemSlice 0 1 3).2.table 1) ∧
      (heap3.GetItemSlice 0 1 3).2.table 0 = df3 ∧
      (heap3.GetItemSlice 0 1 4).1 = .panic "index out of range" := by
  refine ⟨?_, by decide, by decide, by decide, by decide⟩
  intro cols m hs kv hkv
  have hs2 : (cols, m) = (⟨some 0, 0, 3⟩, some 0) := by
    have : heap3.structs[0]? = some (⟨some 0, 0, 3⟩, some 0) := rfl
    rw [this] at hs
    exact (Option.some.inj hs).symm
  obtain ⟨rfl, rfl⟩ := Prod.mk.inj hs2
  have h : kv = ("a", ⟨some 0, 0, 3⟩) ∨ kv = ("b", ⟨some 1, 0, 3⟩) ∨
      kv = ("c", ⟨some 2, 0, 3⟩) := by
    simpa [entriesOf, heap3] using hkv
  rcases h with rfl | rfl | rfl <;> decide

/-! ## Appending under a key -/

theorem mem_keys_mapAssign (m : List (String × List Cell)) (k c : String) (v : List Cell) :
    c ∈ (mapAssign m k v).map Prod.fst ↔ c = k ∨ c ∈ m.map Prod.fst := by
  induction m with
  | nil => simp [mapAssign]
  | cons e rest ih =>
    obtain ⟨k', w⟩ := e
    simp only [mapAssign]
    by_cases hk : k' = k
    · subst hk
      simp
    · simp only [hk, if_false, List.map_cons, List.mem_cons, ih]
      tauto

theorem concatLoop_index (es m : List (String × List Cell)) (c : String)
    (hnd : (es.map Prod.fst).Nodup) :
    mapIndex (es.foldl (fun m kv => mapAssign m kv.1 (mapIndex m kv.1 ++ kv.2)) m) c
      = mapIndex m c ++ mapIndex es c := by
  induction es generalizing m with
  | nil => simp [mapIndex]
  | cons e rest ih =>
    obtain ⟨k, v⟩ := e
    simp only [List.map_cons, List.nodup_cons] at hnd
    simp only [List.foldl_cons]
    rw [ih _ hnd.2, mapIndex_mapAssign]
    by_cases hk : k = c
    · subst hk
      simp [mapIndex, mapIndex_of_not_key rest k hnd.1]
    · simp [mapIndex, hk]

theorem concatLoop_keys (es m : List (String × List Cell)) (c : String) :
    c ∈ (es.foldl (fun m kv => mapAssign m kv.1 (mapIndex m kv.1 ++ kv.2)) m).map Prod.fst
      ↔ c ∈ m.map Prod.fst ∨ c ∈ es.map Prod.fst := by
  induction es generalizing m with
  | nil => simp
  | cons e rest ih =>
    simp only [List.foldl_cons, List.map_cons, List.mem_cons]
    rw [ih, mem_keys_mapAssign]
    tauto

/-! ## Concat in memory -/

theorem heapLeftRight_valid : heapLeftRight.Valid 0 ∧ heapLeftRight.Valid 1 := by
  constructor
  · refine ⟨⟨some 0, 0, 1⟩, some 0, rfl, ?_, ?_, ?_⟩
    · intro a ha
      cases ha
      decide
    · intro a ha
      cases ha
      decide
    · intro kv hkv a ha
      have h : kv = ("a", ⟨some 0, 0, 1⟩) := by
        simpa [entriesOf, heapLeftRight] using hkv
      subst h
      cases ha
      decide
  · refine ⟨⟨some 1, 0, 2⟩, some 1, rfl, ?_, ?_, ?_⟩
    · intro a ha
      cases ha
      decide
    · intro a ha
      cases ha
      decide
    · intro kv hkv a ha
      have h : kv = ("a", ⟨some 1, 0, 1⟩) ∨ kv = ("b", ⟨some 2, 0, 1⟩) := by
        simpa [entriesOf, heapLeftRight] using hkv
      rcases h with rfl | rfl <;> cases ha <;> decide

theorem heapShared_valid : heapShared.Valid 0 ∧ heapShared.Valid 1 := by
  constructor
  · refine ⟨⟨some 0, 0, 2⟩, some 0, rfl, ?_, ?_, ?_⟩
    · intro a ha
      cases ha
      decide
    · intro a ha
      cases ha
      decide
    · intro kv hkv a ha
      have h : kv = ("a", ⟨some 0, 0, 1⟩) ∨ kv = ("b", ⟨some 0, 0, 1⟩) := by
        simpa [entriesOf, heapShared] using hkv
      rcases h with rfl | rfl <;> cases ha <;> decide
  · refine ⟨⟨some 1, 0, 2⟩, some 1, rfl, ?_, ?_, ?_⟩
    · intro a ha
      cases ha
      decide
    · intro a ha
      cases ha
      decide
    · intro kv hkv a ha
      have h : kv = ("a", ⟨some 1, 0, 1⟩) ∨ kv = ("b", ⟨some 2, 0, 1⟩) := by
        simpa [entriesOf, heapShared] using hkv
      rcases h with rfl | rfl <;> cases ha <;> decide

/-- C14, the code at the failing input: the receiver holds the one slice `col`, of length 1
and capacity 2, under both `a` and `b`, and the other table is `a = [10]`, `b = [20]`.
`Concat` appends to `col` in place for one column and again, over the same cell, for the
other, so both columns of the result read the cell written last: `[1, 20]` when the map of
the other table is ranged over with `a` first, `[1, 10]` with `b` first. In neither order is
each column the cells of the receiver followed by those of the other table. -/
theorem C14_Concat_overwrites_shared_column :
    heapShared.Valid 0 ∧ heapShared.Valid 1 ∧
      heapShared.table 0 = ⟨["a", "b"], [("a", [.int 1]), ("b", [.int 1])]⟩ ∧
      heapShared.table 1 = ⟨["a", "b"], [("a", [.int 10]), ("b", [.int 20])]⟩ ∧
      heapSharedRev.table 0 = heapShared.table 0 ∧
      heapSharedRev.table 1 = ⟨["a", "b"], [("b", [.int 20]), ("a", [.int 10])]⟩ ∧
      (∃ h1, heapShared.Concat 0 1 = .ok (h1, 2) ∧
        h1.table 2 = ⟨["a", "b"], [("a", [.int 1, .int 20]), ("b", [.int 1, .int 20])]⟩ ∧
        mapIndex (h1.table 2).Data "a" ≠
          mapIndex (heapShared.table 0).Data "a" ++ mapIndex (heapShared.table 1).Data "a") ∧
      (∃ h1, heapSharedRev.Concat 0 1 = .ok (h1, 2) ∧
        h1.table 2 = ⟨["a", "b"], [("a", [.int 1, .int 10]), ("b", [.int 1, .int 10])]⟩ ∧
        mapIndex (h1.table 2).Data "b" ≠
          mapIndex (heapSharedRev.table 0).Data "b" ++
            mapIndex (heapSharedRev.table 1).Data "b") :=
  ⟨heapShared_valid.1, heapShared_valid.2, by decide, by decide, by decide, by decide,
    ⟨_, rfl, by decide, by decide⟩, ⟨_, rfl, by decide, by decide⟩⟩

/-- C18, the code at the failing input: the receiver is `a = [1]` with the column list `[a]`
and the other table is `a = [3]`, `b = [2]`. `b` is a data column of the other table and not
of the receiver, yet the data of the result of `Concat` has the key `b` with the cells `[2]`:
a sequence under a name the column list `[a]` of the result does not have, and shorter than
the sequence `[1, 3]` of `a`. -/
theorem C18_Concat_keeps_right_only_column :
    heapLeftRight.Valid 0 ∧ heapLeftRight.Valid 1 ∧
      heapLeftRight.table 0 = leftTable ∧ heapLeftRight.table 1 = rightTable ∧
      rightTable.HasData "b" ∧ ¬ leftTable.HasData "b" ∧
      ∃ h1, heapLeftRight.Concat 0 1 = .ok (h1, 2) ∧
        h1.table 2 = ⟨["a"], [("a", [.int 1, .int 3]), ("b", [.int 2])]⟩ ∧
        (h1.table 2).HasData "b" ∧ "b" ∉ (h1.table 2).Columns ∧
        mapIndex (h1.table 2).Data "b" = [.int 2] ∧
        (mapIndex (h1.table 2).Data "a").length ≠ (mapIndex (h1.table 2).Data "b").length :=
  ⟨heapLeftRight_valid.1, heapLeftRight_valid.2, by decide, by decide, by decide, by decide,
    _, rfl, by decide, by decide, by decide, by decide, by decide⟩

/-- A column read by `ReadCSV` has spare capacity, and `Concat` appends to it in place: the
table returned by `Concat` shares the backing array of the receiver, and a second `Concat` on
the receiver writes over the last row of the table the first one returned. -/
theorem heapRead_Concat_twice :
    ∃ h1 h2, heapRead.Concat 0 1 = .ok (h1, 3) ∧
      h1.table 3 = ⟨["a"], [("a", [.int 1, .int 2, .int 3, .int 10])]⟩ ∧
      h1.Concat 0 2 = .ok (h2, 4) ∧
      h2.table 4 = ⟨["a"], [("a", [.int 1, .int 2, .int 3, .int 20])]⟩ ∧
      h2.table 3 = ⟨["a"], [("a", [.int 1, .int 2, .int 3, .int 20])]⟩ :=
  ⟨_, _, rfl, by decide, rfl, by decide, by decide⟩

/-! ## Value_counts -/

theorem F64.eq_symm (x y : F64) : F64.eq x y = F64.eq y x := by
  unfold F64.eq
  cases x.isNaN <;> cases y.isNaN <;> simp [eq_comm]

theorem F64.eq_trans (x y z : F64) (h1 : F64.eq x y = true) (h2 : F64.eq y z = true) :
    F64.eq x z = true := by
  unfold F64.eq at *
  simp only [Bool.and_eq_true, Bool.not_eq_true', decide_eq_true_eq] at *
  exact ⟨⟨h1.1.1, h2.1.2⟩, h1.2.trans h2.2⟩

theorem goEq_symm (a b : Cell) : goEq a b = goEq b a := by
  cases a <;> cases b <;> simp [goEq, eq_comm, F64.eq_symm]

theorem goEq_trans (a b c : Cell) (h1 : goEq a b = true) (h2 : goEq b c = true) :
    goEq a c = true := by
  cases a <;> cases b <;> simp [goEq] at h1 <;> cases c <;> simp [goEq] at h2 ⊢
  · exact h1.trans h2
  · exact F64.eq_trans _ _ _ h1 h2
  · exact h1.trans h2
  · exact h1.trans h2

theorem goEq_self (a : Cell) : goEq a a = !isNaNCell a := by
  cases a <;> simp [goEq, isNaNCell, F64.eq]

theorem goEq_nan_right (a b : Cell) (h : isNaNCell b = true) : goEq a b = false := by
  cases a <;> cases b <;> simp [goEq, isNaNCell, F64.eq] at h ⊢
  intro _ h2
  rw [h] at h2
  cases h2

theorem goEq_congr_left (k val v : Cell) (h : goEq k val = true) : goEq k v = goEq val v := by
  cases h1 : goEq val v
  · cases h2 : goEq k v
    · rfl
    · have := goEq_trans val k v (by rw [goEq_symm]; exact h) h2
      rw [h1] at this
      cases this
  · exact goEq_trans k val v h h1

theorem countIndex_countIncr (m : List (Cell × Nat)) (val v : Cell) :
    countIndex (countIncr m val) v = countIndex m v + (if goEq val v then 1 else 0) := by
  induction m with
  | nil => simp [countIncr, countIndex]
  | cons e rest ih =>
    obtain ⟨k, n⟩ := e
    simp only [countIncr]
    by_cases hk : goEq k val = true
    · simp only [hk, if_true, countIndex]
      rw [goEq_congr_left k val v hk]
      by_cases hv : goEq val v = true
      · simp [hv]
      · simp [hv]
    · simp only [hk, countIndex]
      by_cases hkv : goEq k v = true
      · have hvv : goEq val v = false := by
          cases h : goEq val v
          · rfl
          · exfalso
            apply hk
            exact goEq_trans k v val hkv (by rw [goEq_symm]; exact h)
        simp [hkv, hvv]
      · simp only [hkv, if_false]
        exact ih

theorem countIndex_foldl (vs : List Cell) (m : List (Cell × Nat)) (v : Cell) :
    countIndex (vs.foldl countIncr m) v = countIndex m v + vs.countP (fun val => goEq val v) := by
  induction vs generalizing m with
  | nil => simp
  | cons val rest ih =>
    simp only [List.foldl_cons]
    rw [ih, countIndex_countIncr, List.countP_cons]
    omega

theorem countIncr_keys (m : List (Cell × Nat)) (val : Cell) :
    ∀ e ∈ countIncr m val, e.1 = val ∨ ∃ e0 ∈ m, e0.1 = e.1 := by
  induction m with
  | nil =>
    intro e he
    simp only [countIncr, List.mem_singleton] at he
    left; rw [he]
  | cons e0 rest ih =>
    obtain ⟨k, n⟩ := e0
    intro e he
    simp only [countIncr] at he
    by_cases hk : goEq k val = true
    · simp only [hk, if_true, List.mem_cons] at he
      rcases he with h | h
      · left; rw [h]
      · right; exact ⟨e, List.mem_cons_of_mem _ h, rfl⟩
    · have hkf : goEq k val = false := by simpa using hk
      simp only [hkf, Bool.false_eq_true, if_false, List.mem_cons] at he
      rcases he with h | h
      · right; exact ⟨(k, n), List.mem_cons_self _ _, by rw [h]⟩

      · rcases ih e h with h2 | ⟨e1, he1, h2⟩
        · left; exact h2
        · right; exact ⟨e1, List.mem_cons_of_mem _ he1, h2⟩

/-- What one `m[val]++` keeps: keys that are pairwise unequal, the count one under every NaN
key, counts of at least one; and what it adds: one to the sum of the counts, and one NaN key
when `val` is NaN. -/
theorem countIncr_inv (m : List (Cell × Nat)) (val : Cell)
    (h1 : m.Pairwise (fun a b => goEq a.1 b.1 = false))
    (h2 : ∀ e ∈ m, isNaNCell e.1 = true → e.2 = 1) (h3 : ∀ e ∈ m, 1 ≤ e.2) :
    (countIncr m val).Pairwise (fun a b => goEq a.1 b.1 = false) ∧
      (∀ e ∈ countIncr m val, isNaNCell e.1 = true → e.2 = 1) ∧
      (∀ e ∈ countIncr m val, 1 ≤ e.2) ∧
      ((countIncr m val).map Prod.snd).sum = (m.map Prod.snd).sum + 1 ∧
      (countIncr m val).countP (fun e => isNaNCell e.1)
        = m.countP (fun e => isNaNCell e.1) + (if isNaNCell val then 1 else 0) := by
  induction m with
  | nil =>
    refine ⟨by simp [countIncr], ?_, ?_, by simp [countIncr], ?_⟩
    · intro e he _
      simp only [countIncr, List.mem_singleton] at he
      rw [he]
    · intro e he
      simp only [countIncr, List.mem_singleton] at he
      rw [he]
    · cases h : isNaNCell val <;> simp [countIncr, h]
  | cons e0 rest ih =>
    obtain ⟨k, n⟩ := e0
    obtain ⟨hk1, hp⟩ := List.pairwise_cons.mp h1
    have h2r : ∀ e ∈ rest, isNaNCell e.1 = true → e.2 = 1 :=
      fun e he => h2 e (List.mem_cons_of_mem _ he)
    have h3r : ∀ e ∈ rest, 1 ≤ e.2 := fun e he => h3 e (List.mem_cons_of_mem _ he)
    by_cases hk : goEq k val = true
    · have hval : isNaNCell val = false := by
        cases h : isNaNCell val
        · rfl
        · rw [goEq_nan_right k val h] at hk; cases hk
      have hkn : isNaNCell k = false := by
        cases h : isNaNCell k
        · rfl
        · rw [goEq_symm, goEq_nan_right val k h] at hk; cases hk
      simp only [countIncr, hk, if_true]
      refine ⟨?_, ?_, ?_, ?_, ?_⟩
      · refine List.pairwise_cons.mpr ⟨?_, hp⟩
        intro e he
        rw [← goEq_congr_left k val e.1 hk]
        exact hk1 e he
      · intro e he hn
        rcases List.mem_cons.mp he with h | h
        · rw [h] at hn
          simp only [hval] at hn
          cases hn
        · exact h2r e h hn
      · intro e he
        rcases List.mem_cons.mp he with h | h
        · rw [h]; simp
        · exact h3r e h
      · simp only [List.map_cons, List.sum_cons]
        omega
      · simp [List.countP_cons, hval, hkn]
    · obtain ⟨i1, i2, i3, i4, i5⟩ := ih hp h2r h3r
      have hkf : goEq k val = false := by simpa using hk
      simp only [countIncr, hkf, Bool.false_eq_true, if_false]
      refine ⟨?_, ?_, ?_, ?_, ?_⟩
      · refine List.pairwise_cons.mpr ⟨?_, i1⟩
        intro e he
        rcases countIncr_keys rest val e he with h | ⟨e1, he1, h⟩
        · rw [h]; exact hkf
        · rw [← h]; exact hk1 e1 he1
      · intro e he hn
        rcases List.mem_cons.mp he with h | h
        · rw [h] at hn ⊢
          exact h2 (k, n) (List.mem_cons_self _ _) hn
        · exact i2 e h hn
      · intro e he
        rcases List.mem_cons.mp he with h | h
        · rw [h]; exact h3 (k, n) (List.mem_cons_self _ _)
        · exact i3 e h
      · simp only [List.map_cons, List.sum_cons, if_false] at i4 ⊢
        omega
      · simp only [List.countP_cons, if_false] at i5 ⊢
        omega

theorem countFold_inv (vs : List Cell) (m : List (Cell × Nat))
    (h1 : m.Pairwise (fun a b => goEq a.1 b.1 = false))
    (h2 : ∀ e ∈ m, isNaNCell e.1 = true → e.2 = 1) (h3 : ∀ e ∈ m, 1 ≤ e.2) :
    (vs.foldl countIncr m).Pairwise (fun a b => goEq a.1 b.1 = false) ∧
      (∀ e ∈ vs.foldl countIncr m, isNaNCell e.1 = true → e.2 = 1) ∧
      (∀ e ∈ vs.foldl countIncr m, 1 ≤ e.2) ∧
      ((vs.foldl countIncr m).map Prod.snd).sum = (m.map Prod.snd).sum + vs.length ∧
      (vs.foldl countIncr m).countP (fun e => isNaNCell e.1)
        = m.countP (fun e => isNaNCell e.1) + vs.countP isNaNCell ∧
      (∀ e ∈ vs.foldl countIncr m, e.1 ∈ vs ∨ ∃ e0 ∈ m, e0.1 = e.1) := by
  induction vs generalizing m with
  | nil =>
    exact ⟨h1, h2, h3, by simp, by simp, fun e he => Or.inr ⟨e, he, rfl⟩⟩
  | cons val rest ih =>
    obtain ⟨i1, i2, i3, i4, i5⟩ := countIncr_inv m val h1 h2 h3
    obtain ⟨j1, j2, j3, j4, j5, j6⟩ := ih (countIncr m val) i1 i2 i3
    simp only [List.foldl_cons]
    refine ⟨j1, j2, j3, ?_, ?_, ?_⟩
    · rw [j4, i4, List.length_cons]; omega
    · rw [j5, i5, List.countP_cons]; omega
    · intro e he
      rcases j6 e he with h | ⟨e1, he1, h⟩
      · left; exact List.mem_cons_of_mem _ h
      · rcases countIncr_keys m val e1 he1 with h' | ⟨e0, he0, h'⟩
        · left; rw [← h, h']; exact List.mem_cons_self _ _
        · right; exact ⟨e0, he0, h'.trans h⟩

theorem countIndex_of_mem (m : List (Cell × Nat)) (k : Cell) (n : Nat)
    (h1 : m.Pairwise (fun a b => goEq a.1 b.1 = false)) (hm : (k, n) ∈ m)
    (hk : isNaNCell k = false) : countIndex m k = n := by
  induction m with
  | nil => cases hm
  | cons e rest ih =>
    obtain ⟨k', n'⟩ := e
    obtain ⟨hk1, hp⟩ := List.pairwise_cons.mp h1
    rcases List.mem_cons.mp hm with h | h
    · obtain ⟨rfl, rfl⟩ := Prod.mk.inj h
      simp [countIndex, goEq_self, hk]
    · have := hk1 (k, n) h
      simp only [] at this
      simp only [countIndex, this]
      exact ih hp h

/-- C13 as stated fails: in a column of two NaN cells the value NaN is the cell of two rows,
yet `Value_counts` holds two entries of count one for it and a lookup of NaN finds none. -/
theorem C13_Value_counts_splits_NaN :
    nanColumn.Value_counts = [("a", [(.float F64.NaN, 1), (.float F64.NaN, 1)])] ∧
      (mapIndex nanColumn.Data "a").count (.float F64.NaN) = 2 ∧
      countIndex [(.float F64.NaN, 1), (.float F64.NaN, 1)] (.float F64.NaN) = 0 :=
  ⟨by decide, by decide, by decide⟩

/-- C13, amended: for every table and every stored column, `Value_counts` holds under the
name of the column a map of counts in which a lookup of any value gives the number of rows
whose cell equals it (`nil` cells included), every key is a cell of the column with a count
of at least one, keys are pairwise unequal, a key that is not NaN has the number of rows whose
cell equals it, every NaN cell has an entry of its own with count one, and the counts sum to
the row count; `a = ["x", "x", "y"]` gives `x: 2, y: 1`. -/
theorem C13_Value_counts_counts (T : Pandas) :
    T.Value_counts.map Prod.fst = T.Data.map Prod.fst ∧
      (∀ col values, (col, values) ∈ T.Data →
        ∃ counts, (col, counts) ∈ T.Value_counts ∧
          (∀ v, countIndex counts v = values.countP (fun cell => goEq cell v)) ∧
          (∀ k n, (k, n) ∈ counts → k ∈ values ∧ 1 ≤ n ∧
            (isNaNCell k = false → n = values.countP (fun cell => goEq cell k)) ∧
            (isNaNCell k = true → n = 1)) ∧
          counts.Pairwise (fun a b => goEq a.1 b.1 = false) ∧
          counts.countP (fun e => isNaNCell e.1) = values.countP isNaNCell ∧
          (counts.map Prod.snd).sum = values.length) ∧
      xxyColumn.Value_counts = [("a", [(.str "x", 2), (.str "y", 1)])] := by
  refine ⟨by simp [Pandas.Value_counts, List.map_map, Function.comp], ?_, by decide⟩
  intro col values hmem
  obtain ⟨j1, j2, j3, j4, j5, j6⟩ := countFold_inv values [] List.Pairwise.nil
    (fun e he => by cases he) (fun e he => by cases he)
  have hlook : ∀ v, countIndex (values.foldl countIncr []) v
      = values.countP (fun cell => goEq cell v) := by
    intro v
    rw [countIndex_foldl]
    simp [countIndex]
  refine ⟨values.foldl countIncr [], ?_, hlook, ?_, j1, by simpa using j5, by simpa using j4⟩
  · exact List.mem_map.mpr ⟨(col, values), hmem, rfl⟩
  · intro k n hkn
    refine ⟨?_, j3 (k, n) hkn, ?_, j2 (k, n) hkn⟩
    · rcases j6 (k, n) hkn with h | ⟨e0, he0, _⟩
      · exact h
      · cases he0
    · intro hk
      rw [← hlook k, countIndex_of_mem _ k n j1 hkn hk]

/-- C13, amended, at the column `a = ["x", "x", "y"]`. -/
theorem C13_Value_counts_counts_witness :
    xxyColumn.Value_counts.map Prod.fst = xxyColumn.Data.map Prod.fst ∧
      (∀ col values, (col, values) ∈ xxyColumn.Data →
        ∃ counts, (col, counts) ∈ xxyColumn.Value_counts ∧
          (∀ v, countIndex counts v = values.countP (fun cell => goEq cell v)) ∧
          (∀ k n, (k, n) ∈ counts → k ∈ values ∧ 1 ≤ n ∧
            (isNaNCell k = false → n = values.countP (fun cell => goEq cell k)) ∧
            (isNaNCell k = true → n = 1)) ∧
          counts.Pairwise (fun a b => goEq a.1 b.1 = false) ∧
          counts.countP (fun e => isNaNCell e.1) = values.countP isNaNCell ∧
          (counts.map Prod.snd).sum = values.length) ∧
      xxyColumn.Value_counts = [("a", [(.str "x", 2), (.str "y", 1)])] :=
  C13_Value_counts_counts xxyColumn

/-! ## GroupBy -/

/-- C12, the code at the failing input: `df3` of `main.go` has equal-length columns and lists
column `a`, whose second cell is NaN; `GroupBy("a")` groups the first row and then panics on
the NaN row, where `groups[val]` finds no key and yields the nil pointer. -/
theorem C12_GroupBy_NaN_panics :
    "a" ∈ df3.Columns ∧ df3.EqualLength ∧
      mapIndex df3.Data "a" = [.str "hello", .float F64.NaN, .str "pandas"] ∧
      df3.GroupBy "a" = .panic "nil pointer dereference" ∧
      groupIndex [(.float F64.NaN, ⟨df3.Columns, []⟩)] (.float F64.NaN) = none :=
  ⟨by decide, ⟨3, by decide, by decide⟩, by decide, by decide, by decide⟩

/-! ## Arithmetic of `float64` -/

theorem F64.twoPow_eq (n : Nat) : F64.twoPow n = 2 ^ n := by
  unfold F64.twoPow
  rw [Nat.shiftLeft_eq, Nat.one_mul]

theorem F64.shiftOf_spec (fuel q : Nat) (h : q ≤ fuel) :
    q / 2 ^ (F64.shiftOf fuel q) < 9007199254740992 ∧
      (0 < F64.shiftOf fuel q → 4503599627370496 ≤ q / 2 ^ (F64.shiftOf fuel q)) ∧
      (9007199254740992 ≤ q → 0 < F64.shiftOf fuel q) := by
  induction fuel generalizing q with
  | zero =>
    have hq : q = 0 := Nat.le_zero.mp h
    subst hq
    simp [F64.shiftOf]
  | succ fuel ih =>
    by_cases hq : q < 9007199254740992
    · have hs : F64.shiftOf (fuel + 1) q = 0 := by simp only [F64.shiftOf, if_pos hq]
      rw [hs, pow_zero, Nat.div_one]
      exact ⟨hq, fun h0 => absurd h0 (lt_irrefl 0), fun h1 => by omega⟩
    · have hs : F64.shiftOf (fuel + 1) q = F64.shiftOf fuel (q / 2) + 1 := by
        simp only [F64.shiftOf, if_neg hq]
      rw [hs]
      have hle : q / 2 ≤ fuel := by omega
      obtain ⟨i1, i2, _⟩ := ih (q / 2) hle
      have hdiv : q / 2 ^ (F64.shiftOf fuel (q / 2) + 1)
          = (q / 2) / 2 ^ (F64.shiftOf fuel (q / 2)) := by
        rw [pow_succ, Nat.mul_comm, Nat.div_div_eq_div_mul]
      rw [hdiv]
      refine ⟨i1, fun _ => ?_, fun _ => Nat.succ_pos _⟩
      by_cases hs : 0 < F64.shiftOf fuel (q / 2)
      · exact i2 hs
      · have hs0 : F64.shiftOf fuel (q / 2) = 0 := by omega
        rw [hs0, pow_zero, Nat.div_one]
        omega

theorem F64.ofFields_isNaN (sign : Bool) (e m : Nat) (h : e < 2047 ∨ m = 0) :
    (F64.ofFields sign e m).isNaN = false := by
  unfold F64.ofFields F64.isNaN
  simp only [Bool.and_eq_false_imp, beq_iff_eq, bne_eq_false_iff_eq]
  intro he
  rcases h with h | h
  · omega
  · rw [h]

theorem F64.encode_isNaN (sign : Bool) (m s : Nat) : (F64.encode sign m s).isNaN = false := by
  unfold F64.encode
  split
  · exact F64.ofFields_isNaN _ _ _ (Or.inl (by decide))
  · split
    · split
      · exact F64.ofFields_isNaN _ _ _ (Or.inl (by assumption))
      · exact F64.ofFields_isNaN _ _ _ (Or.inr rfl)
    · split
      · exact F64.ofFields_isNaN _ _ _ (Or.inr rfl)
      · exact F64.ofFields_isNaN _ _ _ (Or.inr rfl)

theorem F64.ofInt_isNaN (v : Int) : (F64.ofInt v).isNaN = false := by
  unfold F64.ofInt
  split
  · decide
  · exact F64.encode_isNaN _ _ _

theorem F64.round_exact (N s : Nat) (hs : s = F64.shiftOf N N) (m : Nat)
    (hm : N = m * 2 ^ s) (hlo : 4503599627370496 ≤ m) (hhi : m < 9007199254740992)
    (hexp : s + 1 < 2047) :
    F64.round false N 1 = F64.ofFields false (s + 1) (m - 4503599627370496) := by
  have hpos : 0 < 2 ^ s := pow_pos (by decide) s
  have hdiv : N / 2 ^ s = m := by rw [hm]; exact Nat.mul_div_cancel _ hpos
  have hmod : N % 2 ^ s = 0 := by rw [hm]; exact Nat.mul_mod_left _ _
  unfold F64.round
  simp only [Nat.div_one, Nat.one_mul, F64.twoPow_eq, ← hs, hdiv, hmod, Nat.mul_zero]
  have h1 : ¬ (2 ^ s < 0) := Nat.not_lt_zero _
  have h2 : ¬ (0 = 2 ^ s) := fun e => by omega
  simp only [h1, h2, decide_False, Bool.false_and, Bool.or_false, Bool.false_eq_true, if_false]
  unfold F64.encode
  rw [if_neg (by omega), if_pos hhi, if_pos hexp]

/-- A whole number `k` of units `2^e`, with `1 ≤ k < 2^53` and `e ≥ 53`, loses no bit when
it is cut to 53 bits. -/
theorem F64.shift_exact (k e : Nat) (h1 : 1 ≤ k) (h2 : k < 9007199254740992) (he : 53 ≤ e) :
    ∃ m, k * 2 ^ e = m * 2 ^ (F64.shiftOf (k * 2 ^ e) (k * 2 ^ e)) ∧
      4503599627370496 ≤ m ∧ m < 9007199254740992 ∧
      F64.shiftOf (k * 2 ^ e) (k * 2 ^ e) ≤ e := by
  have p53 : (2 : Nat) ^ 53 = 9007199254740992 := by norm_num
  have p52 : (2 : Nat) ^ 52 = 4503599627370496 := by norm_num
  have hbig : 9007199254740992 ≤ k * 2 ^ e := by
    calc 9007199254740992 = 1 * 2 ^ 53 := by rw [p53]
      _ ≤ k * 2 ^ e := Nat.mul_le_mul h1 (Nat.pow_le_pow_right (by decide) he)
  obtain ⟨a1, a2, a3⟩ := F64.shiftOf_spec (k * 2 ^ e) (k * 2 ^ e) (le_refl _)
  have hspos := a3 hbig
  have hlo := a2 hspos
  generalize hsdef : F64.shiftOf (k * 2 ^ e) (k * 2 ^ e) = s at a1 hlo hspos ⊢
  have hs : s ≤ e := by
    by_contra hc
    have hc2 : e + 1 ≤ s := by omega
    have hle : k * 2 ^ e / 2 ^ s ≤ k * 2 ^ e / 2 ^ (e + 1) :=
      Nat.div_le_div_left (Nat.pow_le_pow_right (by decide) hc2) (pow_pos (by decide) _)
    have hlt : k * 2 ^ e / 2 ^ (e + 1) < 4503599627370496 := by
      rw [Nat.div_lt_iff_lt_mul (pow_pos (by decide) _)]
      calc k * 2 ^ e < 9007199254740992 * 2 ^ e :=
            Nat.mul_lt_mul_of_pos_right h2 (pow_pos (by decide) _)
        _ = 4503599627370496 * 2 ^ (e + 1) := by
            rw [← p53, ← p52, ← pow_add, ← pow_add]
            congr 1
            omega
    omega
  have hsplit : (2 : Nat) ^ e = 2 ^ (e - s) * 2 ^ s := by
    rw [← pow_add]
    congr 1
    omega
  have hN : k * 2 ^ e = (k * 2 ^ (e - s)) * 2 ^ s := by
    rw [Nat.mul_assoc, ← hsplit]
  have hdiv : k * 2 ^ e / 2 ^ s = k * 2 ^ (e - s) := by
    conv_lhs => rw [hN]
    exact Nat.mul_div_cancel _ (pow_pos (by decide) _)
  rw [hdiv] at a1 hlo
  exact ⟨k * 2 ^ (e - s), hN, hlo, a1, hs⟩

theorem F64.ofInt_nat_exact (k : Nat) (h1 : 1 ≤ k) (h2 : k < 9007199254740992) :
    ∃ s m, F64.ofInt (k : Int) = F64.ofFields false (s + 1) (m - 4503599627370496) ∧
      s + 1 < 2047 ∧ 4503599627370496 ≤ m ∧ m < 9007199254740992 ∧
      m * 2 ^ s = k * F64.twoPow 1074 := by
  obtain ⟨m, hN, hlo, hhi, hs⟩ := F64.shift_exact k 1074 h1 h2 (by decide)
  rw [← F64.twoPow_eq] at hN hs
  refine ⟨F64.shiftOf (k * F64.twoPow 1074) (k * F64.twoPow 1074), m, ?_, by omega, hlo, hhi,
    ?_⟩
  · have hk0 : ¬ ((k : Int) = 0) := by omega
    have hkn : ¬ ((k : Int) < 0) := by omega
    unfold F64.ofInt
    rw [if_neg hk0]
    simp only [hkn, decide_False, Int.natAbs_ofNat]
    exact F64.round_exact (k * F64.twoPow 1074) _ rfl _ hN hlo hhi (by omega)
  · exact hN.symm

theorem F64.ofFields_normal (s m : Nat) (hexp : s + 1 < 2047) (hlo : 4503599627370496 ≤ m)
    (hhi : m < 9007199254740992) :
    (F64.ofFields false (s + 1) (m - 4503599627370496)).isNaN = false ∧
      (F64.ofFields false (s + 1) (m - 4503599627370496)).isInf = false ∧
      (F64.ofFields false (s + 1) (m - 4503599627370496)).signedUnits
        = ((m * F64.twoPow s : Nat) : Int) ∧
      F64.lt F64.zero (F64.ofFields false (s + 1) (m - 4503599627370496)) = true := by
  have he : (s + 1) % 2048 = s + 1 := Nat.mod_eq_of_lt (by omega)
  have hm : (m - 4503599627370496) % 4503599627370496 = m - 4503599627370496 :=
    Nat.mod_eq_of_lt (by omega)
  have hnan : (F64.ofFields false (s + 1) (m - 4503599627370496)).isNaN = false :=
    F64.ofFields_isNaN _ _ _ (Or.inl hexp)
  refine ⟨hnan, ?_, ?_, ?_⟩
  · simp only [F64.isInf, F64.ofFields, he, Bool.and_eq_false_imp, beq_iff_eq]
    intro h
    omega
  · simp only [F64.signedUnits, F64.units, F64.ofFields, he, hm, Bool.false_eq_true, if_false,
      Nat.succ_ne_zero, Nat.add_sub_cancel]
    have hadd : 4503599627370496 + (m - 4503599627370496) = m := by omega
    rw [hadd]
  · have hz : F64.zero.isNaN = false := by decide
    have hk : F64.zero.key = 0 := by decide
    simp only [F64.lt, hz, hnan, hk, Bool.not_false, Bool.true_and, decide_eq_true_eq]
    simp only [F64.key, F64.mag, F64.ofFields, he, hm, Bool.false_eq_true, if_false]
    have : 0 < (s + 1) * 4503599627370496 := Nat.mul_pos (Nat.succ_pos _) (by decide)
    omega

theorem F64.ofInt_nat_facts (k : Nat) (h2 : k < 9007199254740992) :
    (F64.ofInt (k : Int)).isNaN = false ∧ (F64.ofInt (k : Int)).isInf = false ∧
      (F64.ofInt (k : Int)).signedUnits = ((k * F64.twoPow 1074 : Nat) : Int) ∧
      (1 ≤ k → F64.lt F64.zero (F64.ofInt (k : Int)) = true) := by
  by_cases hk : k = 0
  · subst hk
    have hz : F64.ofInt ((0 : Nat) : Int) = F64.zero := by simp [F64.ofInt]
    rw [hz, Nat.zero_mul]
    exact ⟨by decide, by decide, by decide, fun h => absurd h (by decide)⟩
  · obtain ⟨s, m, h, hexp, hlo, hhi, hms⟩ := F64.ofInt_nat_exact k (by omega) h2
    obtain ⟨f1, f2, f3, f4⟩ := F64.ofFields_normal s m hexp hlo hhi
    rw [h]
    refine ⟨f1, f2, ?_, fun _ => f4⟩
    rw [f3, F64.twoPow_eq, hms]

theorem F64.one_facts : F64.one.isNaN = false ∧ F64.one.isInf = false ∧
    F64.one.signedUnits = ((F64.twoPow 1074 : Nat) : Int) := by
  refine ⟨by decide, by decide, ?_⟩
  have h0 : F64.one.units = 4503599627370496 * F64.twoPow 1022 := by
    unfold F64.units
    rfl
  have h1 : F64.one.signedUnits = ((4503599627370496 * F64.twoPow 1022 : Nat) : Int) := by
    unfold F64.signedUnits
    rw [h0]
    rfl
  rw [h1, F64.twoPow_eq, F64.twoPow_eq]
  have p52 : (4503599627370496 : Nat) = 2 ^ 52 := by norm_num
  rw [p52, ← pow_add]

/-- Counting in `float64` is exact below `2^53`: `float64(k) + 1.0` is `float64(k+1)`. -/
theorem F64.add_ofInt_one (k : Nat) (h : k + 1 < 9007199254740992) :
    F64.add (F64.ofInt (k : Int)) F64.one = F64.ofInt ((k + 1 : Nat) : Int) := by
  obtain ⟨f1, f2, f3, _⟩ := F64.ofInt_nat_facts k (by omega)
  obtain ⟨o1, o2, o3⟩ := F64.one_facts
  have hsum : (F64.ofInt (k : Int)).signedUnits + F64.one.signedUnits
      = (((k + 1) * F64.twoPow 1074 : Nat) : Int) := by
    rw [f3, o3]
    push_cast
    ring
  have hpos : 0 < (k + 1) * F64.twoPow 1074 := by
    rw [F64.twoPow_eq]
    exact Nat.mul_pos (Nat.succ_pos _) (pow_pos (by decide) _)
  have hne : ¬ ((((k + 1) * F64.twoPow 1074 : Nat) : Int) = 0) := by omega
  have hnl : ¬ ((((k + 1) * F64.twoPow 1074 : Nat) : Int) < 0) := by omega
  unfold F64.add
  simp only [f1, f2, o1, o2, Bool.or_self, Bool.false_eq_true, if_false, hsum, hne, hnl,
    decide_False, Int.natAbs_ofNat]
  have hk0 : ¬ (((k + 1 : Nat) : Int) = 0) := by omega
  have hkn : ¬ (((k + 1 : Nat) : Int) < 0) := by omega
  unfold F64.ofInt
  rw [if_neg hk0]
  simp only [hkn, decide_False, Int.natAbs_ofNat]

/-! ## Sum, Min and Max -/

theorem sumLoop_eq (values : List Cell) (sum : F64) :
    sumLoop values sum = (floatCells values).foldl F64.add sum := by
  induction values generalizing sum with
  | nil => rfl
  | cons val rest ih =>
    cases val with
    | float v =>
      by_cases hv : v.isNaN = true
      · simp [sumLoop, floatCells, hv, ih]
      · have hv2 : v.isNaN = false := by simpa using hv
        simp only [sumLoop, floatCells, hv2, Bool.not_false, if_true, List.filterMap_cons,
          List.foldl_cons]
        exact ih _
    | int i => simp only [sumLoop, floatCells, List.filterMap_cons]; exact ih _
    | str s => simp only [sumLoop, floatCells, List.filterMap_cons]; exact ih _
    | bool b => simp only [sumLoop, floatCells, List.filterMap_cons]; exact ih _
    | missing => simp only [sumLoop, floatCells, List.filterMap_cons]; exact ih _

theorem mem_floatCells (values : List Cell) (x : F64) :
    x ∈ floatCells values ↔ (Cell.float x ∈ values ∧ x.isNaN = false) := by
  unfold floatCells
  rw [List.mem_filterMap]
  constructor
  · rintro ⟨c, hc, h⟩
    cases c with
    | float v =>
      by_cases hv : v.isNaN = true
      · simp [hv] at h
      · have hv2 : v.isNaN = false := by simpa using hv
        simp only [hv2, Bool.not_false, if_true, Option.some.injEq] at h
        subst h
        exact ⟨hc, hv2⟩
    | int i => simp at h
    | str s => simp at h
    | bool b => simp at h
    | missing => simp at h
  · rintro ⟨hc, hx⟩
    exact ⟨Cell.float x, hc, by simp [hx]⟩

/-- C15: for every table, `Sum` reports under the name of every stored column the sum, added
in row order from `0.0`, of the `float64` cells of the column that are not NaN, and of no
other cell; for a column without such a cell that is `0.0`, which is not NaN, as for the
string column `a = ["x", "x", "y"]` and the integer columns of `df2` of `main.go`. -/
theorem C15_Sum_of_float_cells (T : Pandas) :
    T.Sum = T.Data.map (fun kv => (kv.1, floatSum (floatCells kv.2))) ∧
      (∀ values x, x ∈ floatCells values ↔ (Cell.float x ∈ values ∧ x.isNaN = false)) ∧
      (∀ values, floatCells values = [] → floatSum (floatCells values) = F64.zero) ∧
      F64.zero.isNaN = false ∧
      xxyColumn.Sum = [("a", F64.zero)] ∧
      df2.Sum = [("a", F64.zero), ("b", F64.zero), ("c", F64.zero)] := by
  refine ⟨?_, mem_floatCells, ?_, by decide, by decide, by decide⟩
  · unfold Pandas.Sum
    apply List.map_congr_left
    intro kv _
    rw [sumLoop_eq]
    rfl
  · intro values h
    rw [h]
    rfl

/-- C16, the code at the failing input: the column whose only cell is `+Inf` has a `float64`
cell that is not NaN, the least of its cells is `+Inf`, and `Min` reports NaN for it; so does
`Max` for the column whose only cell is `-Inf`. -/
theorem C16_Min_of_infinity_is_NaN :
    floatCells (mapIndex infColumn.Data "a") = [F64.posInf] ∧
      infColumn.Min = [("a", F64.NaN)] ∧
      floatCells (mapIndex negInfColumn.Data "a") = [F64.negInf] ∧
      negInfColumn.Max = [("a", F64.NaN)] ∧
      F64.posInf.isNaN = false ∧ F64.negInf.isNaN = false ∧ F64.NaN.isNaN = true :=
  ⟨by decide, by decide, by decide, by decide, by decide, by decide, by decide⟩

/-! ## Mean -/

theorem meanLoop_eq (values : List Cell) (sum count : F64) :
    meanLoop values (sum, count) =
      ((numericFloats values).foldl F64.add sum,
        (fun c => F64.add c F64.one)^[(numericFloats values).length] count) := by
  induction values generalizing sum count with
  | nil => rfl
  | cons val rest ih =>
    cases val with
    | int v =>
      simp only [meanLoop, numericFloats, F64.ofInt_isNaN, Bool.not_false, if_true,
        List.filterMap_cons, List.foldl_cons, List.length_cons, Function.iterate_succ,
        Function.comp]
      exact ih _ _
    | float v =>
      by_cases hv : v.isNaN = true
      · simp only [meanLoop, numericFloats, hv, Bool.not_true, Bool.false_eq_true, if_false,
          List.filterMap_cons]
        exact ih _ _
      · have hv2 : v.isNaN = false := by simpa using hv
        simp only [meanLoop, numericFloats, hv2, Bool.not_false, if_true,
          List.filterMap_cons, List.foldl_cons, List.length_cons, Function.iterate_succ,
          Function.comp]
        exact ih _ _
    | str s => simp only [meanLoop, numericFloats, List.filterMap_cons]; exact ih _ _
    | bool b => simp only [meanLoop, numericFloats, List.filterMap_cons]; exact ih _ _
    | missing => simp only [meanLoop, numericFloats, List.filterMap_cons]; exact ih _ _

theorem count_iterate (n j : Nat) (h : j + n < 9007199254740992) :
    (fun c => F64.add c F64.one)^[n] (F64.ofInt (j : Int)) = F64.ofInt ((j + n : Nat) : Int) := by
  induction n generalizing j with
  | zero => rfl
  | succ n ih =>
    rw [Function.iterate_succ, Function.comp]
    show (fun c => F64.add c F64.one)^[n] (F64.add (F64.ofInt (j : Int)) F64.one) = _
    rw [F64.add_ofInt_one j (by omega), ih (j + 1) (by omega)]
    congr 2
    omega

theorem F64.ofInt_zero : F64.ofInt ((0 : Nat) : Int) = F64.zero := by
  simp [F64.ofInt]

theorem mean_column (values : List Cell)
    (h : (numericFloats values).length < 9007199254740992) :
    (if F64.lt F64.zero (meanLoop values (F64.zero, F64.zero)).2
      then F64.div (meanLoop values (F64.zero, F64.zero)).1
        (meanLoop values (F64.zero, F64.zero)).2
      else F64.NaN) = meanSpec values := by
  rw [meanLoop_eq]
  have hc := count_iterate (numericFloats values).length 0 (by omega)
  rw [F64.ofInt_zero] at hc
  simp only [hc, Nat.zero_add]
  unfold meanSpec
  by_cases hn : numericFloats values = []
  · rw [hn]
    simp only [List.length_nil, if_true]
    rw [F64.ofInt_zero]
    rfl
  · have hpos : 1 ≤ (numericFloats values).length := by
      cases hl : numericFloats values with
      | nil => exact absurd hl hn
      | cons a l => simp
    rw [if_neg hn, if_pos ((F64.ofInt_nat_facts _ h).2.2.2 hpos)]
    rfl

set_option maxRecDepth 100000 in
theorem df2_Mean :
    df2.Mean = [("a", F64.two), ("b", ⟨false, 1025, 1125899906842624⟩),
      ("c", ⟨false, 1026, 0⟩)] := by
  decide

/-- C17: for every table whose columns hold fewer than `2^53` numeric cells each (as every
Go slice does), `Mean` reports under the name of every stored column the sum, added in row
order from `0.0`, of its `int` cells converted to `float64` and its `float64` cells that are
not NaN, divided by the number of those cells, and NaN when there is no such cell; for `df2`
of `main.go`, `a = [1, 2, 3]`, `b = [4, 5, 6]`, `c = [7, 8, 9]`, it reports `2.0`, `5.0` and
`8.0`. -/
theorem C17_Mean_of_numeric_cells (T : Pandas)
    (h : ∀ kv ∈ T.Data, (numericFloats kv.2).length < 9007199254740992) :
    T.Mean = T.Data.map (fun kv => (kv.1, meanSpec kv.2)) ∧
      (∀ values, numericFloats values = [] → meanSpec values = F64.NaN) ∧
      (∀ values, numericFloats values ≠ [] → meanSpec values =
        F64.div (floatSum (numericFloats values))
          (F64.ofInt ((numericFloats values).length : Int))) ∧
      df2.Mean = [("a", F64.two), ("b", ⟨false, 1025, 1125899906842624⟩),
        ("c", ⟨false, 1026, 0⟩)] := by
  refine ⟨?_, ?_, ?_, df2_Mean⟩
  · unfold Pandas.Mean
    apply List.map_congr_left
    intro kv hkv
    rw [mean_column kv.2 (h kv hkv)]
  · intro values hv
    unfold meanSpec
    rw [if_pos hv]
  · intro values hv
    unfold meanSpec
    rw [if_neg hv]

theorem C17_Mean_of_numeric_cells_witness :
    (∀ kv ∈ df3.Data, (numericFloats kv.2).length < 9007199254740992) ∧
      df3.Mean = df3.Data.map (fun kv => (kv.1, meanSpec kv.2)) :=
  ⟨by decide, (C17_Mean_of_numeric_cells df3 (by decide)).1⟩

/-! ## Median -/

theorem floatCells_not_nan (values : List Cell) (x : F64) (h : x ∈ floatCells values) :
    x.isNaN = false := ((mem_floatCells values x).mp h).2

theorem lessFloat_strictWeak (xs : List F64) (hx : ∀ x ∈ xs, x.isNaN = false) :
    StrictWeakOn (fun a b => lessFloat (xs.getD a F64.zero) (xs.getD b F64.zero))
      (List.range xs.length) := by
  have hn : ∀ a ∈ List.range xs.length, (xs.getD a F64.zero).isNaN = false := by
    intro a ha
    have ha2 := List.mem_range.mp ha
    rw [List.getD_eq_getElem _ _ ha2]
    exact hx _ (List.getElem_mem _)
  have hl : ∀ a ∈ List.range xs.length, ∀ b ∈ List.range xs.length,
      lessFloat (xs.getD a F64.zero) (xs.getD b F64.zero) =
        decide ((xs.getD a F64.zero).key < (xs.getD b F64.zero).key) := by
    intro a ha b hb
    rw [lessFloat, F64.lt, hn a ha, hn b hb]
    simp
  constructor
  · intro a ha
    show lessFloat _ _ = false
    rw [hl a ha a ha]
    simp
  · intro a ha b hb c hc h1 h2
    show lessFloat _ _ = true
    have h1b : lessFloat (xs.getD a F64.zero) (xs.getD b F64.zero) = true := h1
    have h2b : lessFloat (xs.getD b F64.zero) (xs.getD c F64.zero) = true := h2
    rw [hl a ha b hb] at h1b
    rw [hl b hb c hc] at h2b
    rw [hl a ha c hc]
    simp only [decide_eq_true_eq] at *
    omega
  · intro a ha b hb c hc h1 h2
    show lessFloat _ _ = false
    have h1b : lessFloat (xs.getD a F64.zero) (xs.getD b F64.zero) = false := h1
    have h2b : lessFloat (xs.getD b F64.zero) (xs.getD c F64.zero) = false := h2
    rw [hl a ha b hb] at h1b
    rw [hl b hb c hc] at h2b
    rw [hl a ha c hc]
    simp only [decide_eq_false_iff_not, not_lt] at *
    omega

theorem sortFloats_perm (sortSlice : (Nat → Nat → Bool) → List Nat → List Nat)
    (hS : SortContract sortSlice) (xs : List F64) : (sortFloats sortSlice xs).Perm xs := by
  unfold sortFloats
  have h := (hS.perm (fun a b => lessFloat (xs.getD a F64.zero) (xs.getD b F64.zero))
    (List.range xs.length)).map (fun a => xs.getD a F64.zero)
  have h2 := map_range_getD xs F64.zero (fun x => x)
  have h3 : List.map (fun x => x) xs = xs := by simp
  rw [h2, h3] at h
  exact h

theorem sortFloats_sorted (sortSlice : (Nat → Nat → Bool) → List Nat → List Nat)
    (hS : SortContract sortSlice) (xs : List F64) (hx : ∀ x ∈ xs, x.isNaN = false) :
    (sortFloats sortSlice xs).Pairwise (fun a b => F64.le a b = true) := by
  unfold sortFloats
  rw [List.pairwise_map]
  have hperm := hS.perm (fun a b => lessFloat (xs.getD a F64.zero) (xs.getD b F64.zero))
    (List.range xs.length)
  have hsorted := hS.sorted _ _ (lessFloat_strictWeak xs hx)
  refine List.Pairwise.imp_of_mem ?_ hsorted
  intro a b ha hb hab
  have ha2 := List.mem_range.mp (hperm.mem_iff.mp ha)
  have hb2 := List.mem_range.mp (hperm.mem_iff.mp hb)
  have hna : (xs.getD a F64.zero).isNaN = false := by
    rw [List.getD_eq_getElem _ _ ha2]
    exact hx _ (List.getElem_mem _)
  have hnb : (xs.getD b F64.zero).isNaN = false := by
    rw [List.getD_eq_getElem _ _ hb2]
    exact hx _ (List.getElem_mem _)
  simp only [lessFloat, F64.lt, hna, hnb, Bool.not_false, Bool.true_and, Bool.and_false,
    Bool.or_false, Bool.false_and, decide_eq_false_iff_not, not_lt] at hab
  simp only [F64.le, hna, hnb, Bool.not_false, Bool.true_and, decide_eq_true_eq]
  exact hab

theorem indexInt_nat (xs : List F64) (i : Nat) (h : i < xs.length) :
    indexInt xs (i : Int) = some (xs.getD i F64.zero) := by
  unfold indexInt
  rw [if_neg (by omega)]
  simp [List.getD_eq_getElem _ _ h, List.getElem?_eq_getElem h]

theorem medianOf_nil (sortSlice : (Nat → Nat → Bool) → List Nat → List Nat)
    (hS : SortContract sortSlice) (values : List Cell) (h : floatCells values = []) :
    medianOf sortSlice values = .panic "index out of range" := by
  have hl : sortFloats sortSlice (floatCells values) = [] := by
    have hp := sortFloats_perm sortSlice hS (floatCells values)
    rw [h] at hp
    rw [h]
    exact List.Perm.eq_nil hp
  unfold medianOf
  simp only [hl]
  rfl

theorem medianOf_ok (sortSlice : (Nat → Nat → Bool) → List Nat → List Nat)
    (hS : SortContract sortSlice) (values : List Cell) (h : floatCells values ≠ []) :
    medianOf sortSlice values = .ok (medianSpec (sortFloats sortSlice (floatCells values))) := by
  have hp := sortFloats_perm sortSlice hS (floatCells values)
  have hlen : 0 < (sortFloats sortSlice (floatCells values)).length := by
    rw [hp.length_eq]
    exact List.length_pos.mpr h
  unfold medianOf medianSpec
  generalize sortFloats sortSlice (floatCells values) = s at hlen
  simp only
  by_cases hev : s.length % 2 = 0
  · rw [if_pos hev, if_pos hev]
    have h1 : ((s.length / 2 : Nat) : Int) - 1 = ((s.length / 2 - 1 : Nat) : Int) := by omega
    rw [h1, indexInt_nat s (s.length / 2 - 1) (by omega),
      indexInt_nat s (s.length / 2) (by omega)]
  · rw [if_neg hev, if_neg hev, indexInt_nat s (s.length / 2) (by omega)]

theorem medianLoop_ok (sortSlice : (Nat → Nat → Bool) → List Nat → List Nat)
    (hS : SortContract sortSlice) (data : List (String × List Cell))
    (h : ∀ kv ∈ data, floatCells kv.2 ≠ []) :
    medianLoop sortSlice data =
      .ok (data.map (fun kv => (kv.1, medianSpec (sortFloats sortSlice (floatCells kv.2))))) := by
  induction data with
  | nil => rfl
  | cons kv rest ih =>
    obtain ⟨col, values⟩ := kv
    have h1 := medianOf_ok sortSlice hS values (h (col, values) (List.mem_cons_self _ _))
    have h2 := ih (fun kv hkv => h kv (List.mem_cons_of_mem _ hkv))
    simp only [medianLoop, h1, h2, List.map_cons]

theorem medianLoop_panic (sortSlice : (Nat → Nat → Bool) → List Nat → List Nat)
    (hS : SortContract sortSlice) (data : List (String × List Cell))
    (h : ∃ kv ∈ data, floatCells kv.2 = []) :
    medianLoop sortSlice data = .panic "index out of range" := by
  induction data with
  | nil =>
    obtain ⟨kv, hkv, _⟩ := h
    cases hkv
  | cons kv rest ih =>
    obtain ⟨col, values⟩ := kv
    by_cases hv : floatCells values = []
    · simp only [medianLoop, medianOf_nil sortSlice hS values hv]
    · have hrest : ∃ kv ∈ rest, floatCells kv.2 = [] := by
        obtain ⟨kv, hkv, hk⟩ := h
        rcases List.mem_cons.mp hkv with h1 | h1
        · subst h1
          exact absurd hk hv
        · exact ⟨kv, h1, hk⟩
      simp only [medianLoop, medianOf_ok sortSlice hS values hv, ih hrest]

/-- C19: over a library sort that meets its contract, for every table `Median` fails with
"index out of range" exactly when some stored column has no `float64` cell that is not NaN;
when every stored column has one, it returns under each column name the median of those
cells sorted, the sorted sequence being a rearrangement of them in ascending order, and the
median of a sequence being its middle value for an odd count and the sum of its two middle
values divided by `2` for an even count. -/
theorem C19_Median_of_float_cells (sortSlice : (Nat → Nat → Bool) → List Nat → List Nat)
    (hS : SortContract sortSlice) (T : Pandas) :
    (T.Median sortSlice = .panic "index out of range" ↔
        ∃ kv ∈ T.Data, floatCells kv.2 = []) ∧
      ((∀ kv ∈ T.Data, floatCells kv.2 ≠ []) →
        T.Median sortSlice = .ok (T.Data.map (fun kv =>
          (kv.1, medianSpec (sortFloats sortSlice (floatCells kv.2)))))) ∧
      (∀ values, (sortFloats sortSlice (floatCells values)).Perm (floatCells values) ∧
        (sortFloats sortSlice (floatCells values)).Pairwise (fun a b => F64.le a b = true)) ∧
      (∀ s : List F64, s.length % 2 = 1 → medianSpec s = s.getD (s.length / 2) F64.zero) ∧
      (∀ s : List F64, s.length % 2 = 0 → medianSpec s =
        F64.div (F64.add (s.getD (s.length / 2 - 1) F64.zero) (s.getD (s.length / 2) F64.zero))
          F64.two) := by
  refine ⟨⟨?_, ?_⟩, ?_, ?_, ?_, ?_⟩
  · intro hp
    by_contra hne
    have hall : ∀ kv ∈ T.Data, floatCells kv.2 ≠ [] := by
      intro kv hkv hk
      exact hne ⟨kv, hkv, hk⟩
    have hok := medianLoop_ok sortSlice hS T.Data hall
    unfold Pandas.Median at hp
    rw [hok] at hp
    cases hp
  · exact medianLoop_panic sortSlice hS T.Data
  · exact medianLoop_ok sortSlice hS T.Data
  · intro values
    exact ⟨sortFloats_perm sortSlice hS _,
      sortFloats_sorted sortSlice hS _ (floatCells_not_nan values)⟩
  · intro s hs
    unfold medianSpec
    rw [if_neg (by omega)]
  · intro s hs
    unfold medianSpec
    rw [if_pos hs]

set_option maxRecDepth 100000 in
theorem floatTable_Median :
    floatTable.Median insertionSortLess =
      .ok [("x", ⟨false, 1024, 1125899906842624⟩), ("y", ⟨false, 1024, 2251799813685248⟩)] := by
  decide

theorem df2_Median : df2.Median insertionSortLess = .panic "index out of range" := by
  decide

theorem C19_Median_of_float_cells_witness :
    SortContract insertionSortLess ∧
      (floatTable.Median insertionSortLess = .panic "index out of range" ↔
        ∃ kv ∈ floatTable.Data, floatCells kv.2 = []) ∧
      floatTable.Median insertionSortLess =
        .ok [("x", ⟨false, 1024, 1125899906842624⟩), ("y", ⟨false, 1024, 2251799813685248⟩)] ∧
      df2.Median insertionSortLess = .panic "index out of range" :=
  ⟨insertionSortLess_contract,
    (C19_Median_of_float_cells insertionSortLess insertionSortLess_contract floatTable).1,
    floatTable_Median, df2_Median⟩

/-! ## Well-formedness -/

theorem mapIndex_mem (data : List (String × List Cell)) (c : String)
    (h : c ∈ data.map Prod.fst) : (c, mapIndex data c) ∈ data := by
  induction data with
  | nil => cases h
  | cons kv rest ih =>
    obtain ⟨k, v⟩ := kv
    by_cases hk : k = c
    · subst hk
      simp [mapIndex]
    · have hc : c ∈ rest.map Prod.fst := by
        simp only [List.map_cons, List.mem_cons] at h
        rcases h with h | h
        · exact absurd h.symm hk
        · exact h
      simp only [mapIndex, hk, if_false]
      exact List.mem_cons_of_mem _ (ih hc)

theorem mapIndex_of_mem (data : List (String × List Cell)) (kv : String × List Cell)
    (hnd : (data.map Prod.fst).Nodup) (h : kv ∈ data) : mapIndex data kv.1 = kv.2 := by
  induction data with
  | nil => cases h
  | cons e rest ih =>
    obtain ⟨k, v⟩ := e
    simp only [List.map_cons, List.nodup_cons] at hnd
    rcases List.mem_cons.mp h with h1 | h1
    · subst h1
      simp [mapIndex]
    · have hne : k ≠ kv.1 := by
        intro he
        apply hnd.1
        rw [he]
        exact List.mem_map_of_mem Prod.fst h1
      simp only [mapIndex, hne, if_false]
      exact ih hnd.2 h1

theorem keys_mapValues (f : String × List Cell → List Cell) (data : List (String × List Cell)) :
    (data.map (fun kv => (kv.1, f kv))).map Prod.fst = data.map Prod.fst := by
  rw [List.map_map]
  rfl

theorem wellFormed_lengths (T : Pandas) (hne : T.Columns ≠ []) (h : T.WellFormed) :
    ∃ n, (∀ kv ∈ T.Data, kv.2.length = n) ∧ T.rowCount = n ∧
      ∀ c ∈ T.Columns, (mapIndex T.Data c).length = n := by
  obtain ⟨hhas, n, hn⟩ := h
  have hcol : ∀ c ∈ T.Columns, (mapIndex T.Data c).length = n := by
    intro c hc
    exact hn _ (mapIndex_mem T.Data c (hhas c hc))
  refine ⟨n, hn, ?_, hcol⟩
  unfold Pandas.rowCount
  cases hC : T.Columns with
  | nil => exact absurd hC hne
  | cons c0 rest =>
    simp only
    exact hcol c0 (by rw [hC]; exact List.mem_cons_self _ _)

theorem wellFormed_mapValues (T : Pandas) (f : String × List Cell → List Cell) (n : Nat)
    (hhas : ∀ c ∈ T.Columns, T.HasData c) (hn : ∀ kv ∈ T.Data, (f kv).length = n) :
    Pandas.WellFormed ⟨T.Columns, T.Data.map (fun kv => (kv.1, f kv))⟩ := by
  constructor
  · intro c hc
    show c ∈ (T.Data.map (fun kv => (kv.1, f kv))).map Prod.fst
    rw [keys_mapValues]
    exact hhas c hc
  · refine ⟨n, ?_⟩
    intro kv hkv
    obtain ⟨e, he, rfl⟩ := List.mem_map.mp hkv
    exact hn e he

theorem DropNA_wellFormed (T : Pandas) (hne : T.Columns ≠ []) (hnd : T.Columns.Nodup)
    (h : T.WellFormed) : ∃ R, T.DropNA = .ok R ∧ R.WellFormed := by
  obtain ⟨n, _, hrc, hcol⟩ := wellFormed_lengths T hne h
  refine ⟨_, DropNA_eq T hne hnd (fun c hc => by rw [hcol c hc, hrc]), ?_, ?_⟩
  · intro c hc
    show c ∈ (T.Columns.map _).map Prod.fst
    rw [List.map_map]
    exact List.mem_map.mpr ⟨c, hc, rfl⟩
  · refine ⟨((List.range T.rowCount).filter T.keepsRow).length, ?_⟩
    intro kv hkv
    obtain ⟨e, _, rfl⟩ := List.mem_map.mp hkv
    simp

theorem GetItemSlice_wellFormed (T : Pandas) (hne : T.Columns ≠ []) (h : T.WellFormed)
    (start stop : Int) (h0 : 0 ≤ start) (h1 : start ≤ stop) (h2 : stop ≤ (T.rowCount : Int)) :
    ∃ R, T.GetItemSlice start stop = .ok R ∧ R.WellFormed := by
  obtain ⟨n, hn, hrc, _⟩ := wellFormed_lengths T hne h
  rw [hrc] at h2
  refine ⟨_, GetItemSlice_ok T n start stop hn (by omega), ?_⟩
  apply wellFormed_mapValues T (fun kv => window kv.2 start.toNat (stop.toNat - start.toNat))
    (stop.toNat - start.toNat) h.1
  intro kv hkv
  apply window_length
  rw [hn kv hkv]
  omega

theorem Sort_values_wellFormed (sortSlice : (Nat → Nat → Bool) → List Nat → List Nat)
    (hS : SortContract sortSlice) (T : Pandas) (hne : T.Columns ≠ []) (h : T.WellFormed)
    (col : String) (hcol : col ∈ T.Columns) :
    (T.Sort_values sortSlice col).1 = .ok () ∧ (T.Sort_values sortSlice col).2.WellFormed := by
  obtain ⟨n, hn, _, hc⟩ := wellFormed_lengths T hne h
  rw [Sort_values_eq sortSlice hS T col hcol ⟨n, hc, hn⟩]
  refine ⟨rfl, ?_⟩
  apply wellFormed_mapValues T
    (fun kv => (sortedIndices sortSlice (mapIndex T.Data col)).map
      (fun x => kv.2.getD x Cell.missing))
    (sortedIndices sortSlice (mapIndex T.Data col)).length h.1
  intro kv _
  simp

/-! ## Group tables -/

theorem groupIndex_mem (G : List (Cell × Pandas)) (val : Cell) (g : Pandas)
    (h : groupIndex G val = some g) : ∃ k, (k, g) ∈ G := by
  induction G with
  | nil => cases h
  | cons e rest ih =>
    obtain ⟨k, g0⟩ := e
    by_cases hk : goEq k val = true
    · simp only [groupIndex, hk, if_true, Option.some.injEq] at h
      subst h
      exact ⟨k, List.mem_cons_self _ _⟩
    · have hkf : goEq k val = false := by simpa using hk
      simp only [groupIndex, hkf, Bool.false_eq_true, if_false] at h
      obtain ⟨k1, hk1⟩ := ih h
      exact ⟨k1, List.mem_cons_of_mem _ hk1⟩

theorem groupStore_self (G : List (Cell × Pandas)) (val : Cell) (g : Pandas)
    (h : groupIndex G val = some g) : groupStore G val g = G := by
  induction G with
  | nil => rfl
  | cons e rest ih =>
    obtain ⟨k, g0⟩ := e
    by_cases hk : goEq k val = true
    · simp only [groupIndex, hk, if_true, Option.some.injEq] at h
      subst h
      simp only [groupStore, hk, if_true]
    · have hkf : goEq k val = false := by simpa using hk
      simp only [groupIndex, hkf, Bool.false_eq_true, if_false] at h
      simp only [groupStore, hkf, Bool.false_eq_true, if_false, ih h]

theorem groupIndex_store (G : List (Cell × Pandas)) (val : Cell) (g g1 : Pandas)
    (h : groupIndex G val = some g) : groupIndex (groupStore G val g1) val = some g1 := by
  induction G with
  | nil => cases h
  | cons e rest ih =>
    obtain ⟨k, g0⟩ := e
    by_cases hk : goEq k val = true
    · simp only [groupStore, hk, if_true, groupIndex]
    · have hkf : goEq k val = false := by simpa using hk
      simp only [groupIndex, hkf, Bool.false_eq_true, if_false] at h
      simp only [groupStore, hkf, Bool.false_eq_true, if_false, groupIndex, ih h]

theorem groupStore_store (G : List (Cell × Pandas)) (val : Cell) (g1 g2 : Pandas) :
    groupStore (groupStore G val g1) val g2 = groupStore G val g2 := by
  induction G with
  | nil => rfl
  | cons e rest ih =>
    obtain ⟨k, g0⟩ := e
    by_cases hk : goEq k val = true
    · simp only [groupStore, hk, if_true]
    · have hkf : goEq k val = false := by simpa using hk
      simp only [groupStore, hkf, Bool.false_eq_true, if_false, ih]

theorem groupStore_mem (G : List (Cell × Pandas)) (val : Cell) (g1 : Pandas)
    (kg : Cell × Pandas) (h : kg ∈ groupStore G val g1) : kg ∈ G ∨ kg.2 = g1 := by
  induction G with
  | nil => cases h
  | cons e rest ih =>
    obtain ⟨k, g0⟩ := e
    by_cases hk : goEq k val = true
    · simp only [groupStore, hk, if_true] at h
      rcases List.mem_cons.mp h with h1 | h1
      · right
        rw [h1]
      · left
        exact List.mem_cons_of_mem _ h1
    · have hkf : goEq k val = false := by simpa using hk
      simp only [groupStore, hkf, Bool.false_eq_true, if_false] at h
      rcases List.mem_cons.mp h with h1 | h1
      · left
        rw [h1]
        exact List.mem_cons_self _ _
      · rcases ih h1 with h2 | h2
        · left
          exact List.mem_cons_of_mem _ h2
        · right
          exact h2

theorem groupIndex_append_new (G : List (Cell × Pandas)) (val : Cell) (g : Pandas)
    (h : groupIndex G val = none) (hv : isNaNCell val = false) :
    groupIndex (G ++ [(val, g)]) val = some g := by
  induction G with
  | nil =>
    simp only [List.nil_append, groupIndex, goEq_self, hv, Bool.not_false, if_true]
  | cons e rest ih =>
    obtain ⟨k, g0⟩ := e
    by_cases hk : goEq k val = true
    · simp only [groupIndex, hk, if_true] at h
      cases h
    · have hkf : goEq k val = false := by simpa using hk
      simp only [groupIndex, hkf, Bool.false_eq_true, if_false] at h
      simp only [List.cons_append, groupIndex, hkf, Bool.false_eq_true, if_false]
      exact ih h

theorem groupStore_append_new (G : List (Cell × Pandas)) (val : Cell) (g g1 : Pandas)
    (h : groupIndex G val = none) (hv : isNaNCell val = false) :
    groupStore (G ++ [(val, g)]) val g1 = G ++ [(val, g1)] := by
  induction G with
  | nil =>
    simp only [List.nil_append, groupStore, goEq_self, hv, Bool.not_false, if_true]
  | cons e rest ih =>
    obtain ⟨k, g0⟩ := e
    by_cases hk : goEq k val = true
    · simp only [groupIndex, hk, if_true] at h
      cases h
    · have hkf : goEq k val = false := by simpa using hk
      simp only [groupIndex, hkf, Bool.false_eq_true, if_false] at h
      simp only [List.cons_append, groupStore, hkf, Bool.false_eq_true, if_false]
      exact congrArg _ (ih h)

/-- The inner loop of `GroupBy` on a group that exists: the cell of row `i` of every column
is appended under the name of the column. -/
theorem groupRow_eq (i : Nat) (val : Cell) (es : List (String × List Cell))
    (G : List (Cell × Pandas)) (g : Pandas) (hg : groupIndex G val = some g)
    (hi : ∀ kv ∈ es, i < kv.2.length) :
    groupRow i val es G = .ok (groupStore G val ⟨g.Columns,
      (es.map (fun kv => (kv.1, [kv.2.getD i Cell.missing]))).foldl
        (fun m kv => mapAssign m kv.1 (mapIndex m kv.1 ++ kv.2)) g.Data⟩) := by
  induction es generalizing G g with
  | nil =>
    simp only [groupRow, List.map_nil, List.foldl_nil]
    rw [groupStore_self G val g hg]
  | cons e rest ih =>
    obtain ⟨col, values⟩ := e
    have hlt : i < values.length := hi (col, values) (List.mem_cons_self _ _)
    have hrest : ∀ kv ∈ rest, i < kv.2.length := fun kv hkv => hi kv (List.mem_cons_of_mem _ hkv)
    simp only [groupRow, hg, List.getElem?_eq_getElem hlt]
    rw [ih _ _ (groupIndex_store G val g _ hg) hrest, groupStore_store]
    simp only [List.map_cons, List.foldl_cons, List.getD_eq_getElem _ _ hlt]

theorem mapAssign_keys_nodup (m : List (String × List Cell)) (k : String) (v : List Cell)
    (h : (m.map Prod.fst).Nodup) : ((mapAssign m k v).map Prod.fst).Nodup := by
  induction m with
  | nil => simp [mapAssign]
  | cons e rest ih =>
    obtain ⟨k0, w⟩ := e
    simp only [List.map_cons, List.nodup_cons] at h
    by_cases hk : k0 = k
    · simp only [mapAssign, hk, if_true, List.map_cons, List.nodup_cons]
      rw [← hk]
      exact h
    · simp only [mapAssign, hk, if_false, List.map_cons, List.nodup_cons]
      refine ⟨?_, ih h.2⟩
      intro hmem
      rcases (mem_keys_mapAssign rest k k0 v).mp hmem with h1 | h1
      · exact hk h1
      · exact h.1 h1

theorem concatLoop_nodup (es m : List (String × List Cell)) (h : (m.map Prod.fst).Nodup) :
    ((es.foldl (fun m kv => mapAssign m kv.1 (mapIndex m kv.1 ++ kv.2)) m).map
      Prod.fst).Nodup := by
  induction es generalizing m with
  | nil => exact h
  | cons e rest ih =>
    simp only [List.foldl_cons]
    exact ih _ (mapAssign_keys_nodup m _ _ h)

theorem mapIndex_single_length (f : String × List Cell → Cell)
    (es : List (String × List Cell)) (c : String) (h : c ∈ es.map Prod.fst) :
    (mapIndex (es.map (fun kv => (kv.1, [f kv]))) c).length = 1 := by
  induction es with
  | nil => cases h
  | cons e rest ih =>
    obtain ⟨k, v⟩ := e
    by_cases hk : k = c
    · simp [mapIndex, hk]
    · have hc : c ∈ rest.map Prod.fst := by
        simp only [List.map_cons, List.mem_cons] at h
        rcases h with h | h
        · exact absurd h.symm hk
        · exact h
      simp only [List.map_cons, mapIndex, hk, if_false]
      exact ih hc

/-- One row of `GroupBy` on a group table whose keys are keys of the table and whose
sequences have one length: afterwards its keys are the keys of the table and its sequences
are longer by one. -/
theorem groupRow_groupOf (T : Pandas) (hmap : T.KeysDistinct) (i : Nat) (g : Pandas)
    (hcols : g.Columns = T.Columns) (hnd : (g.Data.map Prod.fst).Nodup)
    (hsub : ∀ c, c ∈ g.Data.map Prod.fst → c ∈ T.Data.map Prod.fst)
    (hlen : ∃ n, ∀ c ∈ T.Data.map Prod.fst, (mapIndex g.Data c).length = n) :
    T.GroupOf ⟨g.Columns,
      (T.Data.map (fun kv => (kv.1, [kv.2.getD i Cell.missing]))).foldl
        (fun m kv => mapAssign m kv.1 (mapIndex m kv.1 ++ kv.2)) g.Data⟩ := by
  obtain ⟨n, hn⟩ := hlen
  have hkeys : (T.Data.map (fun kv => (kv.1, [kv.2.getD i Cell.missing]))).map Prod.fst
      = T.Data.map Prod.fst := keys_mapValues (fun kv => [kv.2.getD i Cell.missing]) T.Data
  refine ⟨hcols, concatLoop_nodup _ _ hnd, ?_, n + 1, ?_⟩
  · intro c
    dsimp only
    rw [concatLoop_keys, hkeys]
    constructor
    · rintro (h | h)
      · exact hsub c h
      · exact h
    · intro h
      exact Or.inr h
  · intro c hc
    dsimp only
    rw [concatLoop_index _ _ c (by rw [hkeys]; exact hmap), List.length_append, hn c hc,
      mapIndex_single_length (fun kv => kv.2.getD i Cell.missing) T.Data c hc]

theorem groupOf_wellFormed (T g : Pandas) (hhas : ∀ c ∈ T.Columns, T.HasData c)
    (h : T.GroupOf g) : g.WellFormed := by
  obtain ⟨hcols, hnd, hkeys, n, hn⟩ := h
  constructor
  · intro c hc
    rw [hcols] at hc
    exact (hkeys c).mpr (hhas c hc)
  · refine ⟨n, ?_⟩
    intro kv hkv
    rw [← mapIndex_of_mem g.Data kv hnd hkv]
    exact hn _ ((hkeys kv.1).mp (List.mem_map_of_mem Prod.fst hkv))

/-- The outer loop of `GroupBy` from row `i` on, when no cell of the rows left is NaN and
every column has those rows: it returns, and keeps the group tables as `GroupOf` says. -/
theorem groupLoop_ok (T : Pandas) (hmap : T.KeysDistinct) (vals : List Cell) (i : Nat)
    (G : List (Cell × Pandas)) (hv : ∀ v ∈ vals, isNaNCell v = false)
    (hi : ∀ kv ∈ T.Data, i + vals.length ≤ kv.2.length)
    (hG : ∀ kg ∈ G, T.GroupOf kg.2) :
    ∃ G1, groupLoop T vals i G = .ok G1 ∧ ∀ kg ∈ G1, T.GroupOf kg.2 := by
  induction vals generalizing i G with
  | nil => exact ⟨G, rfl, hG⟩
  | cons val rest ih =>
    have hval : isNaNCell val = false := hv val (List.mem_cons_self _ _)
    have hrest : ∀ v ∈ rest, isNaNCell v = false := fun v h => hv v (List.mem_cons_of_mem _ h)
    have hrow : ∀ kv ∈ T.Data, i < kv.2.length := by
      intro kv hkv
      have := hi kv hkv
      simp only [List.length_cons] at this
      omega
    have hnext : ∀ kv ∈ T.Data, i + 1 + rest.length ≤ kv.2.length := by
      intro kv hkv
      have := hi kv hkv
      simp only [List.length_cons] at this
      omega
    cases hcase : groupIndex G val with
    | none =>
      have hidx := groupIndex_append_new G val ⟨T.Columns, []⟩ hcase hval
      have hrw := groupRow_eq i val T.Data _ _ hidx hrow
      rw [groupStore_append_new G val _ _ hcase hval] at hrw
      have hnew := groupRow_groupOf T hmap i ⟨T.Columns, []⟩ rfl List.nodup_nil
        (fun c h => by cases h) ⟨0, fun c _ => rfl⟩
      have hG2 : ∀ kg ∈ G ++ [(val, (⟨T.Columns,
          (T.Data.map (fun kv => (kv.1, [kv.2.getD i Cell.missing]))).foldl
            (fun m kv => mapAssign m kv.1 (mapIndex m kv.1 ++ kv.2)) []⟩ : Pandas))],
          T.GroupOf kg.2 := by
        intro kg hkg
        rcases List.mem_append.mp hkg with h1 | h1
        · exact hG kg h1
        · rw [List.mem_singleton.mp h1]
          exact hnew
      obtain ⟨G1, h1, h2⟩ := ih (i + 1) _ hrest hnext hG2
      refine ⟨G1, ?_, h2⟩
      simp only [groupLoop, hcase, hrw]
      exact h1
    | some g =>
      obtain ⟨k, hk⟩ := groupIndex_mem G val g hcase
      obtain ⟨hcols, hnd, hkeys, hlen⟩ := hG (k, g) hk
      have hrw := groupRow_eq i val T.Data G g hcase hrow
      have hnew := groupRow_groupOf T hmap i g hcols hnd (fun c h => (hkeys c).mp h) hlen
      have hG2 : ∀ kg ∈ groupStore G val (⟨g.Columns,
          (T.Data.map (fun kv => (kv.1, [kv.2.getD i Cell.missing]))).foldl
            (fun m kv => mapAssign m kv.1 (mapIndex m kv.1 ++ kv.2)) g.Data⟩ : Pandas),
          T.GroupOf kg.2 := by
        intro kg hkg
        rcases groupStore_mem G val _ kg hkg with h1 | h1
        · exact hG kg h1
        · rw [h1]
          exact hnew
      obtain ⟨G1, h1, h2⟩ := ih (i + 1) _ hrest hnext hG2
      refine ⟨G1, ?_, h2⟩
      simp only [groupLoop, hcase, hrw]
      exact h1

theorem GroupBy_wellFormed (T : Pandas) (hne : T.Columns ≠ []) (hmap : T.KeysDistinct)
    (h : T.WellFormed) (by_ : String) (hby : by_ ∈ T.Columns)
    (hv : ∀ v ∈ mapIndex T.Data by_, isNaNCell v = false) :
    ∃ G, T.GroupBy by_ = .ok G ∧ ∀ kg ∈ G, kg.2.WellFormed := by
  obtain ⟨n, hn, _, hc⟩ := wellFormed_lengths T hne h
  have hi : ∀ kv ∈ T.Data, 0 + (mapIndex T.Data by_).length ≤ kv.2.length := by
    intro kv hkv
    rw [hc by_ hby, hn kv hkv]
    omega
  obtain ⟨G, h1, h2⟩ := groupLoop_ok T hmap (mapIndex T.Data by_) 0 [] hv hi
    (fun kg hkg => by cases hkg)
  exact ⟨G, h1, fun kg hkg => groupOf_wellFormed T kg.2 h.1 (h2 kg hkg)⟩

/-- C20 as stated fails: the table of the columns `a = [1]` and `b = [2]` that lists `a`
twice has a non-empty column list, a sequence for each listed column and sequences of one
length, yet `DropNA` returns the sequences `a = [1, 1]` and `b = [2]`, which differ in
length. -/
theorem C20_DropNA_twice_listed_unequal :
    twiceListedPair.Columns ≠ [] ∧ twiceListedPair.WellFormed ∧ twiceListedPair.KeysDistinct ∧
      twiceListedPair.DropNA =
        .ok ⟨["a", "a", "b"], [("a", [.int 1, .int 1]), ("b", [.int 2])]⟩ ∧
      ¬ Pandas.WellFormed ⟨["a", "a", "b"], [("a", [.int 1, .int 1]), ("b", [.int 2])]⟩ := by
  refine ⟨by decide, ⟨by decide, 1, by decide⟩, by decide, by decide, ?_⟩
  rintro ⟨_, n, hn⟩
  have h1 := hn ("a", [.int 1, .int 1]) (by decide)
  have h2 := hn ("b", [.int 2]) (by decide)
  simp only [List.length_cons, List.length_nil] at h1 h2
  omega

/-- C20, amended: over a library sort that meets its contract, for every table `T` with a
non-empty column list whose data has a cell sequence for each listed column and whose
sequences all have the same length, the tables `T.DropNA()` (when the listed column names
are distinct), `T.IsNA()`, `T.GetItemSlice(start, end)` for `0 <= start <= end <= rowCount`,
every group table of `T.GroupBy(by)` for a listed column `by` with no NaN cell (the data
being a map, with each key once), and `T` after `FillNA` or after `Sort_values(col)` for a
listed column `col` are returned without a panic and again have a sequence for each listed
column and all sequences of equal length. -/
theorem C20_operations_keep_well_formed
    (sortSlice : (Nat → Nat → Bool) → List Nat → List Nat) (hS : SortContract sortSlice)
    (T : Pandas) (hne : T.Columns ≠ []) (h : T.WellFormed) :
    (T.Columns.Nodup → ∃ R, T.DropNA = .ok R ∧ R.WellFormed) ∧
      T.IsNA.WellFormed ∧
      (∀ start stop : Int, 0 ≤ start → start ≤ stop → stop ≤ (T.rowCount : Int) →
        ∃ R, T.GetItemSlice start stop = .ok R ∧ R.WellFormed) ∧
      (T.KeysDistinct → ∀ by_ ∈ T.Columns, (∀ v ∈ mapIndex T.Data by_, isNaNCell v = false) →
        ∃ G, T.GroupBy by_ = .ok G ∧ ∀ kg ∈ G, kg.2.WellFormed) ∧
      T.FillNA.WellFormed ∧
      (∀ col ∈ T.Columns, (T.Sort_values sortSlice col).1 = .ok () ∧
        (T.Sort_values sortSlice col).2.WellFormed) := by
  obtain ⟨n, hn, _, _⟩ := wellFormed_lengths T hne h
  refine ⟨fun hnd => DropNA_wellFormed T hne hnd h, ?_, ?_, ?_, ?_, ?_⟩
  · exact wellFormed_mapValues T (fun kv => kv.2.map (fun val => Cell.bool (isMissing val))) n
      h.1 (fun kv hkv => by rw [List.length_map]; exact hn kv hkv)
  · intro start stop h0 h1 h2
    exact GetItemSlice_wellFormed T hne h start stop h0 h1 h2
  · intro hmap by_ hby hv
    exact GroupBy_wellFormed T hne hmap h by_ hby hv
  · exact wellFormed_mapValues T
      (fun kv => kv.2.map (fun val => if isMissing val then defaultValue val else val)) n
      h.1 (fun kv hkv => by rw [List.length_map]; exact hn kv hkv)
  · intro col hcol
    exact Sort_values_wellFormed sortSlice hS T hne h col hcol

theorem C20_operations_keep_well_formed_witness :
    SortContract insertionSortLess ∧ df3.Columns ≠ [] ∧ df3.WellFormed ∧
      df3.Columns.Nodup ∧ df3.KeysDistinct ∧
      (∃ R, df3.DropNA = .ok R ∧ R.WellFormed) ∧
      (∀ by_ ∈ df3.Columns, (∀ v ∈ mapIndex df3.Data by_, isNaNCell v = false) →
        ∃ G, df3.GroupBy by_ = .ok G ∧ ∀ kg ∈ G, kg.2.WellFormed) ∧
      twiceListedPair.Columns ≠ [] ∧ twiceListedPair.WellFormed ∧
      twiceListedPair.IsNA.WellFormed ∧
      (∀ start stop : Int, 0 ≤ start → start ≤ stop →
        stop ≤ (twiceListedPair.rowCount : Int) →
        ∃ R, twiceListedPair.GetItemSlice start stop = .ok R ∧ R.WellFormed) ∧
      (∀ by_ ∈ twiceListedPair.Columns,
        (∀ v ∈ mapIndex twiceListedPair.Data by_, isNaNCell v = false) →
        ∃ G, twiceListedPair.GroupBy by_ = .ok G ∧ ∀ kg ∈ G, kg.2.WellFormed) ∧
      twiceListedPair.FillNA.WellFormed ∧
      (∀ col ∈ twiceListedPair.Columns,
        (twiceListedPair.Sort_values insertionSortLess col).1 = .ok () ∧
          (twiceListedPair.Sort_values insertionSortLess col).2.WellFormed) :=
  ⟨insertionSortLess_contract, by decide, ⟨by decide, 3, by decide⟩, by decide, by decide,
    (C20_operations_keep_well_formed insertionSortLess insertionSortLess_contract df3
      (by decide) ⟨by decide, 3, by decide⟩).1 (by decide),
    (C20_operations_keep_well_formed insertionSortLess insertionSortLess_contract df3
      (by decide) ⟨by decide, 3, by decide⟩).2.2.2.1 (by decide),
    by decide, ⟨by decide, 1, by decide⟩,
    (C20_operations_keep_well_formed insertionSortLess insertionSortLess_contract
      twiceListedPair (by decide) ⟨by decide, 1, by decide⟩).2.1,
    (C20_operations_keep_well_formed insertionSortLess insertionSortLess_contract
      twiceListedPair (by decide) ⟨by decide, 1, by decide⟩).2.2.1,
    (C20_operations_keep_well_formed insertionSortLess insertionSortLess_contract
      twiceListedPair (by decide) ⟨by decide, 1, by decide⟩).2.2.2.1 (by decide),
    (C20_operations_keep_well_formed insertionSortLess insertionSortLess_contract
      twiceListedPair (by decide) ⟨by decide, 1, by decide⟩).2.2.2.2.1,
    (C20_operations_keep_well_formed insertionSortLess insertionSortLess_contract
      twiceListedPair (by decide) ⟨by decide, 1, by decide⟩).2.2.2.2.2⟩
end GoPandas
